import Mathlib

/-!
# A single-node proof-of-work ledger (`main.go`)

Shallow embedding of the ledger of `main.go` and theorems about it.

* `float32` values are modelled exactly (IEEE 754 binary32, round to nearest,
  ties to even), a finite value being a signed multiple of `2^-149`.
* A Go slice of transactions is `Slice Transaction`: the nil slice and the
  empty non-nil slice are different values (they serialise differently).
* The functions the program imports from the standard library and whose
  output is only ever hashed (`sha256.Sum256`, the JSON rendering of a string
  and of a finite float) are the fields of `Lib`; every definition that hashes
  takes a `Lib`.
* `time.Now().UnixNano()` is an argument `now` of every function that reads
  the clock.
* The unbounded search loop of `ProofOfWork` takes the number of nonces it may
  test (`fuel`); a call that does not return ends in a `Fault`: a run-time
  panic, or the exhausted `fuel`.
* Go's `int` is 64 bits wide: `nonce += 1` wraps around (`wrapInt`).
* An address is a `String` in the ledger operations, which only compare and
  copy addresses. A Go string is a sequence of bytes, and `encoding/json` writes
  one text for two addresses that differ only in bytes that are not valid
  UTF-8: where that matters, the records hold the addresses as bytes
  (`Raw.Transaction`, `Raw.Block`, with `Raw.Lib`), and `Hash_raw` shows that
  the two kinds of record have the same digest on UTF-8 encoded addresses.
* Every theorem holds for every `Lib` and every `Raw.Lib`; what a statement
  needs of the JSON text of strings and numbers is its hypothesis
  `Raw.Lib.Faithful`. `toyLib` and `Raw.plainLib` are instances on which the
  definitions can be evaluated.
-/

namespace Blockchain

/-! ## float32 -/

/-- A `float32` value. `finite neg mag` is the number `(-1)^neg * mag * 2^-149`;
every finite binary32 number is such a multiple with `mag` of at most 24
significant bits and `mag < 2^277` (see `Float32.wf`). All NaNs are one value. -/
inductive Float32 where
  | nan : Float32
  | inf (neg : Bool) : Float32
  | finite (neg : Bool) (mag : Nat) : Float32
  deriving DecidableEq, Repr

namespace Float32

/-- Number of binary digits of `k`, counted in at most `fuel` halvings. -/
def bitLengthAux : Nat → Nat → Nat
  | 0, _ => 0
  | fuel + 1, k => if k = 0 then 0 else bitLengthAux fuel (k / 2) + 1

/-- Number of binary digits of `k`. -/
def bitLength (k : Nat) : Nat := bitLengthAux k k

/-- Rounds a magnitude (in units of `2^-149`) to 24 significant bits, to
nearest, ties to even. -/
def roundMag (k : Nat) : Nat :=
  if bitLength k ≤ 24 then k
  else
    let s := bitLength k - 24
    let q := k / 2 ^ s
    let r := k % 2 ^ s
    let half := 2 ^ (s - 1)
    if r > half ∨ (r = half ∧ q % 2 = 1) then (q + 1) * 2 ^ s else q * 2 ^ s

/-- The float32 nearest to `(-1)^neg * k * 2^-149`, for `k ≠ 0`; a rounded
magnitude of `2^128` or more overflows to infinity. -/
def ofMag (neg : Bool) (k : Nat) : Float32 :=
  if bitLength (roundMag k) ≤ 277 then finite neg (roundMag k) else inf neg

/-- The signed integer `± mag`. -/
def signed (neg : Bool) (mag : Nat) : Int := if neg then - (mag : Int) else (mag : Int)

/-- Go's `x + y` on `float32`. -/
def add : Float32 → Float32 → Float32
  | nan, _ => nan
  | _, nan => nan
  | inf a, inf b => if a = b then inf a else nan
  | inf a, finite _ _ => inf a
  | finite _ _, inf b => inf b
  | finite a m, finite b n =>
    let s := signed a m + signed b n
    if s = 0 then finite (a && b) 0 else ofMag (decide (s < 0)) s.natAbs

/-- Go's `-x` on `float32`. -/
def neg : Float32 → Float32
  | nan => nan
  | inf a => inf (!a)
  | finite a m => finite (!a) m

/-- Go's `x - y` on `float32`. -/
def sub (x y : Float32) : Float32 := add x (neg y)

/-- Positive zero, the zero value of `float32`. -/
def zero : Float32 := finite false 0

/-- The float32 whose value is the integer `z`, which is representable when
`|z| ≤ 2^24`. -/
def ofInt (z : Int) : Float32 := finite (decide (z < 0)) (z.natAbs * 2 ^ 149)

/-- Go's `math.IsNaN`. -/
def isNaN : Float32 → Bool
  | nan => true
  | _ => false

/-- Go's `math.IsInf(x, 0)`. -/
def isInf : Float32 → Bool
  | inf _ => true
  | _ => false

/-- The values that are float32 numbers: a finite magnitude has at most 24
significant bits and is below `2^128` (in units of `2^-149`: `2^277`). -/
def wf : Float32 → Bool
  | finite _ m => decide (roundMag m = m ∧ bitLength m ≤ 277)
  | _ => true

end Float32

/-! ## Data model -/

/-- A byte. -/
abbrev Byte := Fin 256

/-- A `[32]byte` array. -/
abbrev Digest := { l : List Byte // l.length = 32 }

/-- The zero value of `[32]byte`. -/
def Digest.zero : Digest := ⟨List.replicate 32 0, by simp⟩

/-- A Go slice value `[]T`, by value: the nil slice, or a non-nil slice with
its elements. `len`, `range` and `append` do not tell `nil` from `mk []`;
`encoding/json` does. -/
inductive Slice (α : Type) where
  | nil : Slice α
  | mk (elems : List α) : Slice α
  deriving DecidableEq, Repr

/-- The elements of a slice, in order. -/
def Slice.toList {α : Type} : Slice α → List α
  | .nil => []
  | .mk l => l

/-- Go's `append(s, a)`. -/
def Slice.append {α : Type} (s : Slice α) (a : α) : Slice α := .mk (s.toList ++ [a])

/-- The record `Transaction` (lines 163-167). -/
structure Transaction where
  SenderBlockChainAddress : String
  RecipientBlockChainAddress : String
  Value : Float32
  deriving DecidableEq, Repr

/-- The record `Block` (lines 18-23); `int` and `int64` fields are integers. -/
structure Block where
  Nonce : Int
  PreviousHash : Digest
  Timestamp : Int
  Transactions : Slice Transaction
  deriving DecidableEq

/-- The record `BlockChain` (lines 65-69). The chain is a list: nothing in the
program tells a nil chain from an empty one. -/
structure BlockChain where
  TransactionPool : Slice Transaction
  Chain : List Block
  BlockChainAddress : String
  deriving DecidableEq

/-- How a call can fail to return. -/
inductive Fault where
  | indexOutOfRange
  | sliceOutOfRange
  | negativeRepeatCount
  | fuelExhausted
  deriving DecidableEq, Repr

deriving instance DecidableEq for Except

/-- The constant `MINING_DIFFICULTY`. -/
def MINING_DIFFICULTY : Int := 3

/-- The constant `MINING_SENDER`. -/
def MINING_SENDER : String := "THE BLOCKCHAIN"

/-- The constant `MINING_REWARD`, `1.0` as a `float32`. -/
def MINING_REWARD : Float32 := Float32.ofInt 1

/-! ## Serialisation and digest -/

/-- Standard-library functions whose result the program only hashes. -/
structure Lib where
  /-- The function `sha256.Sum256`. -/
  sha256 : List Byte → Digest
  /-- The JSON text `encoding/json` writes for a string. -/
  jsonString : String → List Byte
  /-- The JSON text `encoding/json` writes for a float32 that is neither NaN
  nor infinite. -/
  jsonFloat32 : Float32 → List Byte

/-- The bytes of an ASCII string. -/
def ascii (s : String) : List Byte := s.toList.map (fun c => Fin.ofNat c.toNat)

/-- The JSON text of an integer: its decimal digits. -/
def jsonInt (z : Int) : List Byte := ascii (toString z)

/-- JSON array: the items separated by commas, in brackets. -/
def jsonArray (items : List (List Byte)) : List Byte :=
  ascii "[" ++ List.intercalate (ascii ",") items ++ ascii "]"

/-- JSON text of a `Transaction`: it has no tags, the keys are the field
names, in declaration order. -/
def Transaction.json (L : Lib) (t : Transaction) : List Byte :=
  ascii "\x7b\"SenderBlockChainAddress\":" ++ L.jsonString t.SenderBlockChainAddress ++
  ascii ",\"RecipientBlockChainAddress\":" ++ L.jsonString t.RecipientBlockChainAddress ++
  ascii ",\"Value\":" ++ L.jsonFloat32 t.Value ++ ascii "\x7d"

/-- JSON text of a `[]*Transaction`: `null` for the nil slice. -/
def jsonTransactions (L : Lib) : Slice Transaction → List Byte
  | .nil => ascii "null"
  | .mk l => jsonArray (l.map (Transaction.json L))

/-- A float `encoding/json` refuses (`UnsupportedValueError`). -/
def jsonUnsupported (v : Float32) : Bool := v.isNaN || v.isInf

/-- `Block.MarshalJSON` (lines 49-61): `json.Marshal` of the struct with the
fields `Timestamp`, `Nonce`, `PreviousHash`, `Transaction` in this order. The
tags of that struct have a space after `json:` and are not recognised, so the
keys are the field names. `none` is the error return. -/
def Block.MarshalJSON (L : Lib) (b : Block) : Option (List Byte) :=
  if b.Transactions.toList.any (fun t => jsonUnsupported t.Value) then none
  else some (
    ascii "\x7b\"Timestamp\":" ++ jsonInt b.Timestamp ++
    ascii ",\"Nonce\":" ++ jsonInt b.Nonce ++
    ascii ",\"PreviousHash\":" ++ jsonArray (b.PreviousHash.val.map (fun x => jsonInt x.val)) ++
    ascii ",\"Transaction\":" ++ jsonTransactions L b.Transactions ++ ascii "\x7d")

/-- `Block.Hash` (lines 44-47): the error of `json.Marshal` is discarded and
`m` is then nil. -/
def Block.Hash (L : Lib) (b : Block) : Digest :=
  match b.MarshalJSON L with
  | some m => L.sha256 m
  | none => L.sha256 []

/-! ## Ledger operations -/

/-- `NewTransaction` (lines 169-171). -/
def NewTransaction (sender recipient : String) (value : Float32) : Transaction :=
  { SenderBlockChainAddress := sender, RecipientBlockChainAddress := recipient, Value := value }

/-- `NewBlock` (lines 25-32); `now` is `time.Now().UnixNano()`. -/
def NewBlock (now : Int) (nonce : Int) (previousHash : Digest)
    (transactions : Slice Transaction) : Block :=
  { Nonce := nonce, PreviousHash := previousHash, Timestamp := now, Transactions := transactions }

/-- `BlockChain.CreateBlock` (lines 79-84): the returned block and the ledger
afterwards. -/
def CreateBlock (now : Int) (bc : BlockChain) (nounce : Int) (previousHash : Digest) :
    Block × BlockChain :=
  let b := NewBlock now nounce previousHash bc.TransactionPool
  (b, { bc with Chain := bc.Chain ++ [b], TransactionPool := .mk [] })

/-- `NewBlockChain` (lines 71-77): `new(BlockChain)` has a nil pool and a nil
chain; `&Block{}` is the zero block. -/
def NewBlockChain (L : Lib) (now : Int) (blockChainAddress : String) : BlockChain :=
  let b : Block := { Nonce := 0, PreviousHash := Digest.zero, Timestamp := 0, Transactions := .nil }
  let bc : BlockChain :=
    { TransactionPool := .nil, Chain := [], BlockChainAddress := blockChainAddress }
  (CreateBlock now bc 0 (b.Hash L)).2

/-- `BlockChain.LastBlock` (lines 86-88): indexing an empty chain panics. -/
def LastBlock (bc : BlockChain) : Except Fault Block :=
  match bc.Chain.getLast? with
  | some b => .ok b
  | none => .error .indexOutOfRange

/-- `BlockChain.AddTransaction` (lines 98-101). -/
def AddTransaction (bc : BlockChain) (sender recipient : String) (value : Float32) : BlockChain :=
  let t := NewTransaction sender recipient value
  { bc with TransactionPool := bc.TransactionPool.append t }

/-- `BlockChain.CopyTransactionPool` (lines 103-113): starts from
`make([]*Transaction, 0)`, which is not nil. -/
def CopyTransactionPool (bc : BlockChain) : Slice Transaction :=
  bc.TransactionPool.toList.foldl
    (fun transactions t => transactions.append
      (NewTransaction t.SenderBlockChainAddress t.RecipientBlockChainAddress t.Value))
    (.mk [])

/-- A lowercase hexadecimal digit. -/
def hexDigit (n : Nat) : Char := "0123456789abcdef".toList.getD n '0'

/-- What `fmt.Sprintf("%x", h)` prints for a `[32]byte`: two digits a byte. -/
def hexString (h : Digest) : List Char :=
  h.val.flatMap (fun x => [hexDigit (x.val / 16), hexDigit (x.val % 16)])

/-- `BlockChain.ValidProof` (lines 115-125). `strings.Repeat` panics on a
negative count, the slice expression on a bound above the length. -/
def ValidProof (L : Lib) (nonce : Int) (previousHash : Digest)
    (transactions : Slice Transaction) (difficulty : Int) : Except Fault Bool :=
  if difficulty < 0 then .error .negativeRepeatCount
  else
    let zeros := List.replicate difficulty.toNat '0'
    let guessBlock : Block :=
      { Nonce := nonce, PreviousHash := previousHash, Timestamp := 0, Transactions := transactions }
    let guessHashStr := hexString (guessBlock.Hash L)
    if guessHashStr.length < difficulty.toNat then .error .sliceOutOfRange
    else .ok (decide (guessHashStr.take difficulty.toNat = zeros))

/-- `nonce + 1` on Go's 64-bit `int`: it wraps around. -/
def wrapInt (z : Int) : Int := (z + 2 ^ 63) % 2 ^ 64 - 2 ^ 63

/-- The loop of `ProofOfWork` (lines 131-133), for at most `fuel` tests. -/
def ProofOfWork.loop (L : Lib) (previousHash : Digest) (transactions : Slice Transaction) :
    Nat → Int → Except Fault Int
  | 0, _ => .error .fuelExhausted
  | fuel + 1, nonce =>
    match ValidProof L nonce previousHash transactions MINING_DIFFICULTY with
    | .error e => .error e
    | .ok true => .ok nonce
    | .ok false => ProofOfWork.loop L previousHash transactions fuel (wrapInt (nonce + 1))

/-- `BlockChain.ProofOfWork` (lines 127-135). -/
def ProofOfWork (L : Lib) (fuel : Nat) (bc : BlockChain) : Except Fault Int :=
  let transactions := CopyTransactionPool bc
  match LastBlock bc with
  | .error e => .error e
  | .ok last => ProofOfWork.loop L (last.Hash L) transactions fuel 0

/-- `BlockChain.Mining` (lines 137-144): the result and the ledger afterwards. -/
def Mining (L : Lib) (fuel : Nat) (now : Int) (bc : BlockChain) : Except Fault (Bool × BlockChain) :=
  let bc1 := AddTransaction bc MINING_SENDER bc.BlockChainAddress MINING_REWARD
  match ProofOfWork L fuel bc1 with
  | .error e => .error e
  | .ok nonce =>
    match LastBlock bc1 with
    | .error e => .error e
    | .ok last => .ok (true, (CreateBlock now bc1 nonce (last.Hash L)).2)

/-- `BlockChain.CalculateTotalAmount` (lines 146-161). -/
def CalculateTotalAmount (bc : BlockChain) (blockchainAddress : String) : Float32 :=
  bc.Chain.foldl
    (fun totalAmount b =>
      b.Transactions.toList.foldl
        (fun totalAmount t =>
          let value := t.Value
          let totalAmount :=
            if blockchainAddress = t.RecipientBlockChainAddress then Float32.add totalAmount value
            else totalAmount
          if blockchainAddress = t.SenderBlockChainAddress then Float32.sub totalAmount value
          else totalAmount)
        totalAmount)
    Float32.zero

/-- A call a client makes on a ledger: `AddTransaction`, or `Mining` with the
number of nonces its search may test and the clock reading of its `NewBlock`. -/
inductive Call where
  | AddTransaction (sender recipient : String) (value : Float32) : Call
  | Mining (fuel : Nat) (now : Int) : Call
  deriving DecidableEq

/-- The ledger after one call. -/
def Call.run (L : Lib) (bc : BlockChain) : Call → Except Fault BlockChain
  | .AddTransaction sender recipient value =>
    .ok (Blockchain.AddTransaction bc sender recipient value)
  | .Mining fuel now =>
    match Blockchain.Mining L fuel now bc with
    | .error e => .error e
    | .ok r => .ok r.2

/-- The ledger after a sequence of calls, in order. -/
def runCalls (L : Lib) : BlockChain → List Call → Except Fault BlockChain
  | bc, [] => .ok bc
  | bc, c :: cs =>
    match c.run L bc with
    | .error e => .error e
    | .ok bc1 => runCalls L bc1 cs

/-! ## A small instance of `Lib` for evaluation -/

/-- A stand-in for a digest function: 32 equal bytes, which are zero when the
sum of the message bytes is a multiple of 5. -/
def toySum (m : List Byte) : Digest :=
  ⟨List.replicate 32 (Fin.ofNat ((m.foldl (fun a x => a + x.val) 0) % 5 * 17)), by simp⟩

/-- A `Lib` that can be evaluated. -/
def toyLib : Lib :=
  { sha256 := toySum
    jsonString := fun s => ascii ("\"" ++ s ++ "\"")
    jsonFloat32 := fun _ => ascii "0" }

/-- The ledger a sequence of calls leaves on a fresh ledger, when every call
returns (the fresh ledger with no block otherwise). -/
def ledgerAfter (L : Lib) (now : Int) (address : String) (calls : List Call) : BlockChain :=
  match runCalls L (NewBlockChain L now address) calls with
  | .ok bc => bc
  | .error _ => { TransactionPool := .nil, Chain := [], BlockChainAddress := address }

/-- A short session: one submission, then one mining round. -/
def demoCalls : List Call := [.AddTransaction "A" "B" (Float32.ofInt 1), .Mining 9 7]

/-! ## Reference definitions, in the words of the specification -/

/-- The nibbles of a digest, high nibble of each byte first. -/
def nibbles (h : Digest) : List Nat := h.val.flatMap (fun x => [x.val / 16, x.val % 16])

/-- The candidate block `ValidProof` hashes: the timestamp is the sentinel 0. -/
def candidate (nonce : Int) (previousHash : Digest) (transactions : Slice Transaction) : Block :=
  { Nonce := nonce, PreviousHash := previousHash, Timestamp := 0, Transactions := transactions }

/-- The zero-valued `Block`. -/
def Block.zero : Block :=
  { Nonce := 0, PreviousHash := Digest.zero, Timestamp := 0, Transactions := .nil }

/-- The reward transaction of a mining round of the ledger with address `M`. -/
def rewardTransaction (M : String) : Transaction :=
  { SenderBlockChainAddress := MINING_SENDER, RecipientBlockChainAddress := M,
    Value := MINING_REWARD }

/-- The sealed transactions: those of every block, in chain order, then block
order. -/
def sealedTransactions (bc : BlockChain) : List Transaction :=
  bc.Chain.flatMap (fun b => b.Transactions.toList)

/-- One step of the balance walk for address `a`: add the value when `a` is the
recipient, then subtract it when `a` is the sender. -/
def balanceStep (a : String) (total : Float32) (t : Transaction) : Float32 :=
  let total := if a = t.RecipientBlockChainAddress then Float32.add total t.Value else total
  if a = t.SenderBlockChainAddress then Float32.sub total t.Value else total

/-- The float32 sum of the values of a list of transactions, from 0, in order. -/
def sumValues (l : List Transaction) : Float32 :=
  l.foldl (fun acc t => Float32.add acc t.Value) Float32.zero

/-- The balance of `a` over a list of transactions as a difference of two
float32 sums: the values received by `a` minus the values sent by `a`. -/
def balanceReference (l : List Transaction) (a : String) : Float32 :=
  Float32.sub (sumValues (l.filter (fun t => t.RecipientBlockChainAddress = a)))
    (sumValues (l.filter (fun t => t.SenderBlockChainAddress = a)))

/-- The number a float32 denotes, in units of `2^-149`; NaN and the infinities
denote none. -/
def Float32.exact : Float32 → Option Int
  | .finite n m => some (Float32.signed n m)
  | _ => none

/-- The exact sum, in units of `2^-149`, of the values of a list of
transactions. -/
def exactSum : List Transaction → Option Int
  | [] => some 0
  | t :: l =>
    match t.Value.exact, exactSum l with
    | some v, some r => some (v + r)
    | _, _ => none

/-- The balance of `a` over a list of transactions in exact arithmetic, in
units of `2^-149`: received minus sent. -/
def exactBalance (l : List Transaction) (a : String) : Option Int :=
  match exactSum (l.filter (fun t => t.RecipientBlockChainAddress = a)),
    exactSum (l.filter (fun t => t.SenderBlockChainAddress = a)) with
  | some r, some s => some (r - s)
  | _, _ => none

/-- A transfer of an integer amount. -/
structure IntTransfer where
  sender : String
  recipient : String
  amount : Int
  deriving DecidableEq, Repr

/-- The transaction of an integer transfer. -/
def IntTransfer.toTransaction (e : IntTransfer) : Transaction :=
  { SenderBlockChainAddress := e.sender, RecipientBlockChainAddress := e.recipient,
    Value := Float32.ofInt e.amount }

/-- The sum of the amounts `a` receives. -/
def received (a : String) (l : List IntTransfer) : Int :=
  ((l.filter (fun e => e.recipient = a)).map (fun e => e.amount)).sum

/-- The sum of the amounts `a` sends. -/
def sent (a : String) (l : List IntTransfer) : Int :=
  ((l.filter (fun e => e.sender = a)).map (fun e => e.amount)).sum

/-- The sum of the absolute values of the amounts. -/
def volume (l : List IntTransfer) : Nat := (l.map (fun e => e.amount.natAbs)).sum

/-- A client call with an integer amount. -/
inductive IntCall where
  | AddTransaction (e : IntTransfer) : IntCall
  | Mining (fuel : Nat) (now : Int) : IntCall
  deriving DecidableEq

/-- The call on the ledger an integer call stands for. -/
def IntCall.toCall : IntCall → Call
  | .AddTransaction e => .AddTransaction e.sender e.recipient (Float32.ofInt e.amount)
  | .Mining fuel now => .Mining fuel now

/-- The transfers submitted by the `AddTransaction` calls of a sequence. -/
def submitted : List IntCall → List IntTransfer
  | [] => []
  | .AddTransaction e :: cs => e :: submitted cs
  | .Mining _ _ :: cs => submitted cs

/-- The number of `Mining` calls of a sequence. -/
def miningCount : List IntCall → Nat
  | [] => 0
  | .AddTransaction _ :: cs => miningCount cs
  | .Mining _ _ :: cs => miningCount cs + 1

/-- The transactions submitted by the `AddTransaction` calls of a sequence. -/
def submittedTransactions : List Call → List Transaction
  | [] => []
  | .AddTransaction s r v :: cs => NewTransaction s r v :: submittedTransactions cs
  | .Mining _ _ :: cs => submittedTransactions cs

/-- The reward of one mining round of the ledger with address `M`, as an
integer transfer. -/
def rewardTransfer (M : String) : IntTransfer :=
  { sender := MINING_SENDER, recipient := M, amount := 1 }

/-- The effect of one call on the sealed transfers and the pending transfers of
a ledger with address `M`. -/
def replayStep (M : String) (sp : List IntTransfer × List IntTransfer) :
    IntCall → List IntTransfer × List IntTransfer
  | .AddTransaction e => (sp.1, sp.2 ++ [e])
  | .Mining _ _ => (sp.1 ++ sp.2 ++ [rewardTransfer M], [])

/-- The sealed and the pending transfers after a sequence of calls. -/
def replay (M : String) (cs : List IntCall) (sp : List IntTransfer × List IntTransfer) :
    List IntTransfer × List IntTransfer :=
  cs.foldl (replayStep M) sp

/-- Every address that appears as sender or recipient of a sealed transaction,
once each. -/
def addresses (bc : BlockChain) : List String :=
  ((sealedTransactions bc).flatMap
    (fun t => [t.SenderBlockChainAddress, t.RecipientBlockChainAddress])).dedup

/-- The float32 sum, from 0 and in list order, of `CalculateTotalAmount` over a
list of addresses. -/
def sumBalances (bc : BlockChain) (addrs : List String) : Float32 :=
  addrs.foldl (fun acc a => Float32.add acc (CalculateTotalAmount bc a)) Float32.zero

/-- Four submissions whose running total for `"a"` rounds, then one mining
round. -/
def roundingIntCalls (fuel : Nat) (now : Int) : List IntCall :=
  [.AddTransaction ⟨"X", "a", 16777216⟩, .AddTransaction ⟨"X", "a", 1⟩,
   .AddTransaction ⟨"a", "Y", 16777216⟩, .AddTransaction ⟨"X", "a", 1⟩, .Mining fuel now]

/-- The calls of `roundingIntCalls`. -/
def roundingCalls (fuel : Nat) (now : Int) : List Call :=
  (roundingIntCalls fuel now).map IntCall.toCall

/-- The exact sum, over a list of addresses, of the amounts received minus the
amounts sent. -/
def netOver (Q : List String) (T : List IntTransfer) : Int :=
  (Q.map (fun a => received a T - sent a T)).sum

/-- The scenario of the specification: `A→B 1`, mine, `C→D 2`, `A→B 9`, mine. -/
def scenarioCalls : List IntCall :=
  [.AddTransaction ⟨"A", "B", 1⟩, .Mining 9 7, .AddTransaction ⟨"C", "D", 2⟩,
   .AddTransaction ⟨"A", "B", 9⟩, .Mining 9 11]

/-- An operation on a ledger: the six methods of `BlockChain` that the
proof-of-work ledger offers, with their arguments (and, for the two that read
the clock or search, the clock reading and the number of nonces to test). -/
inductive Operation where
  | AddTransaction (sender recipient : String) (value : Float32) : Operation
  | CopyTransactionPool : Operation
  | ProofOfWork (fuel : Nat) : Operation
  | CalculateTotalAmount (blockchainAddress : String) : Operation
  | CreateBlock (now : Int) (nounce : Int) (previousHash : Digest) : Operation
  | Mining (fuel : Nat) (now : Int) : Operation
  deriving DecidableEq

/-- The ledger after an operation that returns. `CopyTransactionPool`,
`ProofOfWork` and `CalculateTotalAmount` assign to no field of the ledger. -/
def Operation.run (L : Lib) (bc : BlockChain) : Operation → Except Fault BlockChain
  | .AddTransaction sender recipient value =>
    .ok (Blockchain.AddTransaction bc sender recipient value)
  | .CopyTransactionPool => .ok bc
  | .ProofOfWork fuel =>
    match Blockchain.ProofOfWork L fuel bc with
    | .error e => .error e
    | .ok _ => .ok bc
  | .CalculateTotalAmount _ => .ok bc
  | .CreateBlock now nounce previousHash =>
    .ok (Blockchain.CreateBlock now bc nounce previousHash).2
  | .Mining fuel now =>
    match Blockchain.Mining L fuel now bc with
    | .error e => .error e
    | .ok r => .ok r.2

/-- The ledger after a sequence of operations, in order. -/
def runOperations (L : Lib) : BlockChain → List Operation → Except Fault BlockChain
  | bc, [] => .ok bc
  | bc, op :: ops =>
    match op.run L bc with
    | .error e => .error e
    | .ok bc1 => runOperations L bc1 ops

/-- The ledger a sequence of operations leaves on a fresh ledger, when every
operation returns (the fresh ledger otherwise). -/
def ledgerAfterOperations (L : Lib) (now : Int) (address : String) (ops : List Operation) :
    BlockChain :=
  match runOperations L (NewBlockChain L now address) ops with
  | .ok bc => bc
  | .error _ => NewBlockChain L now address

/-- Whether an operation is one of the two that seal a block. -/
def Operation.seals : Operation → Bool
  | .CreateBlock _ _ _ => true
  | .Mining _ _ => true
  | _ => false

/-- A short session that uses every operation. -/
def demoOperations : List Operation :=
  [.AddTransaction "A" "B" (Float32.ofInt 1), .CopyTransactionPool, .ProofOfWork 9,
   .Mining 9 7, .CalculateTotalAmount "B", .CreateBlock 8 0 Digest.zero]

/-- The chain with the `j`-th transaction of its `i`-th block removed. -/
def eraseSealed : List Block → Nat → Nat → List Block
  | [], _, _ => []
  | b :: bs, 0, j => { b with Transactions := .mk (b.Transactions.toList.eraseIdx j) } :: bs
  | b :: bs, i + 1, j => b :: eraseSealed bs i j

/-- A submission to `"a"`, a transfer of `16777216` from `"a"` to itself, and a
mining round. -/
def selfTransferCalls (fuel : Nat) (now : Int) : List Call :=
  [.AddTransaction "X" "a" (Float32.ofInt 1),
   .AddTransaction "a" "a" (Float32.ofInt 16777216), .Mining fuel now]

/-- A submission to `"a"`, a transfer of 5 from `"a"` to itself, and a mining
round. -/
def smallSelfTransferCalls : List IntCall :=
  [.AddTransaction ⟨"X", "a", 1⟩, .AddTransaction ⟨"a", "a", 5⟩, .Mining 9 7]

/-- The byte sequence `Hash` hands to `sha256.Sum256`: what `json.Marshal`
returned, which is nil after an error. -/
def Block.hashInput (L : Lib) (b : Block) : List Byte :=
  match b.MarshalJSON L with
  | some m => m
  | none => []

/-- No transaction of the block carries a NaN or an infinity. -/
def Block.supported (b : Block) : Bool :=
  !(b.Transactions.toList.any (fun t => jsonUnsupported t.Value))

/-- A serialised record: the named fields in the given order. -/
def jsonObject (fields : List (String × List Byte)) : List Byte :=
  ascii "\x7b" ++
    List.intercalate (ascii ",") (fields.map (fun f => ascii ("\"" ++ f.1 ++ "\":") ++ f.2)) ++
    ascii "\x7d"

/-- The serialisation of a transaction: sender, recipient, value, in this
order. -/
def canonicalTransaction (L : Lib) (t : Transaction) : List Byte :=
  jsonObject [("SenderBlockChainAddress", L.jsonString t.SenderBlockChainAddress),
    ("RecipientBlockChainAddress", L.jsonString t.RecipientBlockChainAddress),
    ("Value", L.jsonFloat32 t.Value)]

/-- The canonical serialisation of a block: timestamp, nonce, previous hash,
transactions, in this order; the transactions in list order. -/
def canonicalSerialization (L : Lib) (b : Block) : List Byte :=
  jsonObject [("Timestamp", jsonInt b.Timestamp), ("Nonce", jsonInt b.Nonce),
    ("PreviousHash", jsonArray (b.PreviousHash.val.map (fun x => jsonInt x.val))),
    ("Transaction",
      match b.Transactions with
      | .nil => ascii "null"
      | .mk l => jsonArray (l.map (canonicalTransaction L)))]

/-- The byte of the decimal digit `k`. -/
def digitByte (k : Nat) : Byte := Fin.ofNat (Nat.digitChar k).toNat

/-- The decimal digits of a natural number as bytes, most significant first. -/
def natBytes (n : Nat) : List Byte :=
  if n = 0 then [48] else (Nat.digits 10 n).reverse.map digitByte

/-- A block whose only transaction carries a NaN. -/
def nanBlock (nonce : Int) : Block :=
  { Nonce := nonce, PreviousHash := Digest.zero, Timestamp := 0,
    Transactions := .mk [NewTransaction "A" "B" Float32.nan] }

instance : Fintype Digest := inferInstanceAs (Fintype (Mathlib.Vector Byte 32))

/-! ## Addresses as byte strings

A Go `string` is a sequence of bytes, and an address can be any such sequence.
The ledger operations only compare and copy addresses, which `String` models
for the addresses that are valid UTF-8. `encoding/json` reads a string one
UTF-8 encoded code point at a time, and writes a byte that begins no encoded
code point as `\ufffd`, whichever byte it was. The records of this section hold
the addresses as bytes, and their serialisation follows that reading. -/

/-- A Go `string`: a sequence of bytes, valid UTF-8 or not. -/
abbrev GoString := List Byte

/-- Whether `lo ≤ b ≤ hi`. -/
def inRange (lo hi : Nat) (b : Byte) : Bool := decide (lo ≤ b.val) && decide (b.val ≤ hi)

/-- The width `utf8.DecodeRuneInString` reports for the code point a string
begins with: the number of bytes of its UTF-8 encoding. `none` stands for the
result `(RuneError, 1)` of a string that begins with no encoded code point: a
stray continuation byte, a truncated or overlong encoding, a surrogate, or a
code point above `U+10FFFF`. -/
def runeWidth : GoString → Option Nat
  | [] => none
  | b0 :: rest =>
    if b0.val < 0x80 then some 1
    else if 0xC2 ≤ b0.val ∧ b0.val ≤ 0xDF then
      match rest with
      | b1 :: _ => if inRange 0x80 0xBF b1 then some 2 else none
      | _ => none
    else if 0xE0 ≤ b0.val ∧ b0.val ≤ 0xEF then
      match rest with
      | b1 :: b2 :: _ =>
        if inRange (if b0.val = 0xE0 then 0xA0 else 0x80) (if b0.val = 0xED then 0x9F else 0xBF) b1
            && inRange 0x80 0xBF b2 then some 3
        else none
      | _ => none
    else if 0xF0 ≤ b0.val ∧ b0.val ≤ 0xF4 then
      match rest with
      | b1 :: b2 :: b3 :: _ =>
        if inRange (if b0.val = 0xF0 then 0x90 else 0x80) (if b0.val = 0xF4 then 0x8F else 0xBF) b1
            && inRange 0x80 0xBF b2 && inRange 0x80 0xBF b3 then some 4
        else none
      | _ => none
    else none

/-- What `encoding/json` reads at one position of a string: the bytes of one
UTF-8 encoded code point, or a byte that begins none. -/
inductive Piece where
  | rune (bytes : List Byte) : Piece
  | invalid : Piece
  deriving DecidableEq, Repr

/-- The bytes of a piece that is an encoded code point. -/
def Piece.bytes : Piece → List Byte
  | .rune bs => bs
  | .invalid => []

/-- The pieces of the first `fuel` positions of a string. -/
def piecesAux : Nat → GoString → List Piece
  | 0, _ => []
  | _ + 1, [] => []
  | fuel + 1, b :: s =>
    match runeWidth (b :: s) with
    | some n => .rune ((b :: s).take n) :: piecesAux fuel ((b :: s).drop n)
    | none => .invalid :: piecesAux fuel s

/-- A string as `encoding/json` reads it, from left to right: after an encoded
code point it goes on behind its last byte, after a byte that begins none it
goes on with the next byte. -/
def pieces (s : GoString) : List Piece := piecesAux s.length s

/-- The string is valid UTF-8. -/
def validUTF8 (s : GoString) : Bool := (pieces s).all (fun p => p != Piece.invalid)

/-- Go's `[]T` conversion elementwise: the nil slice stays nil. -/
def Slice.map {α β : Type} (f : α → β) : Slice α → Slice β
  | .nil => .nil
  | .mk l => .mk (l.map f)

/-- The record `Transaction` (lines 163-167), the addresses as bytes. -/
structure Raw.Transaction where
  SenderBlockChainAddress : GoString
  RecipientBlockChainAddress : GoString
  Value : Float32
  deriving DecidableEq, Repr

/-- The record `Block` (lines 18-23) over `Raw.Transaction`. -/
structure Raw.Block where
  Nonce : Int
  PreviousHash : Digest
  Timestamp : Int
  Transactions : Slice Raw.Transaction
  deriving DecidableEq

/-- Standard-library functions whose result the program only hashes, the JSON
text of a string as a function of the string as `encoding/json` reads it. -/
structure Raw.Lib where
  /-- The function `sha256.Sum256`. -/
  sha256 : List Byte → Digest
  /-- The JSON text `encoding/json` writes for a string it reads as these
  pieces. -/
  jsonString : List Piece → List Byte
  /-- The JSON text `encoding/json` writes for a float32 that is neither NaN
  nor infinite. -/
  jsonFloat32 : Float32 → List Byte

/-- JSON text of a `Transaction`: it has no tags, the keys are the field
names, in declaration order. -/
def Raw.Transaction.json (L : Raw.Lib) (t : Raw.Transaction) : List Byte :=
  ascii "\x7b\"SenderBlockChainAddress\":" ++
    L.jsonString (pieces t.SenderBlockChainAddress) ++
  ascii ",\"RecipientBlockChainAddress\":" ++
    L.jsonString (pieces t.RecipientBlockChainAddress) ++
  ascii ",\"Value\":" ++ L.jsonFloat32 t.Value ++ ascii "\x7d"

/-- JSON text of a `[]*Transaction`: `null` for the nil slice. -/
def Raw.jsonTransactions (L : Raw.Lib) : Slice Raw.Transaction → List Byte
  | .nil => ascii "null"
  | .mk l => jsonArray (l.map (Raw.Transaction.json L))

/-- `Block.MarshalJSON` (lines 49-61), as `Block.MarshalJSON` above. -/
def Raw.Block.MarshalJSON (L : Raw.Lib) (b : Raw.Block) : Option (List Byte) :=
  if b.Transactions.toList.any (fun t => jsonUnsupported t.Value) then none
  else some (
    ascii "\x7b\"Timestamp\":" ++ jsonInt b.Timestamp ++
    ascii ",\"Nonce\":" ++ jsonInt b.Nonce ++
    ascii ",\"PreviousHash\":" ++ jsonArray (b.PreviousHash.val.map (fun x => jsonInt x.val)) ++
    ascii ",\"Transaction\":" ++ Raw.jsonTransactions L b.Transactions ++ ascii "\x7d")

/-- `Block.Hash` (lines 44-47): the error of `json.Marshal` is discarded and
`m` is then nil. -/
def Raw.Block.Hash (L : Raw.Lib) (b : Raw.Block) : Digest :=
  match b.MarshalJSON L with
  | some m => L.sha256 m
  | none => L.sha256 []

/-- No transaction of the block carries a NaN or an infinity. -/
def Raw.Block.supported (b : Raw.Block) : Bool :=
  !(b.Transactions.toList.any (fun t => jsonUnsupported t.Value))

/-- Every value of the block is a float32 number (see `Float32.wf`). -/
def Raw.Block.wellFormed (b : Raw.Block) : Bool :=
  b.Transactions.toList.all (fun t => t.Value.wf)

/-- Every address of the block is valid UTF-8. -/
def Raw.Block.validAddresses (b : Raw.Block) : Bool :=
  b.Transactions.toList.all
    (fun t => validUTF8 t.SenderBlockChainAddress && validUTF8 t.RecipientBlockChainAddress)

/-- A transaction as `encoding/json` reads it: the two addresses in pieces, and
the value. -/
def Raw.Transaction.read (t : Raw.Transaction) : List Piece × List Piece × Float32 :=
  (pieces t.SenderBlockChainAddress, pieces t.RecipientBlockChainAddress, t.Value)

/-- A block as `encoding/json` reads it. -/
def Raw.Block.read (b : Raw.Block) :
    Int × Digest × Int × Slice (List Piece × List Piece × Float32) :=
  (b.Nonce, b.PreviousHash, b.Timestamp, b.Transactions.map Raw.Transaction.read)

/-- The UTF-8 encoding of a string: the bytes Go holds for it. -/
def utf8 (s : String) : GoString :=
  s.toList.flatMap (fun c => (String.utf8EncodeChar c).map (fun u => Fin.ofNat u.toNat))

/-- A transaction with `String` addresses, the addresses as the bytes Go holds. -/
def Transaction.raw (t : Transaction) : Raw.Transaction :=
  { SenderBlockChainAddress := utf8 t.SenderBlockChainAddress
    RecipientBlockChainAddress := utf8 t.RecipientBlockChainAddress
    Value := t.Value }

/-- A block with `String` addresses, the addresses as the bytes Go holds. -/
def Block.raw (b : Block) : Raw.Block :=
  { Nonce := b.Nonce, PreviousHash := b.PreviousHash, Timestamp := b.Timestamp,
    Transactions := b.Transactions.map Transaction.raw }

/-- The library on `String` addresses: the text of a string is the text of its
UTF-8 encoding. -/
def Raw.Lib.onStrings (L : Raw.Lib) : Blockchain.Lib :=
  { sha256 := L.sha256
    jsonString := fun s => L.jsonString (pieces (utf8 s))
    jsonFloat32 := L.jsonFloat32 }

/-- What the sensitivity of `Hash` to addresses and values rests on in
`encoding/json`: the text of a string ends where it says, and gives back the
string as read; two float32 numbers with one text are equal; the text of a
number holds no closing brace. -/
structure Raw.Lib.Faithful (L : Raw.Lib) : Prop where
  string_parse : ∀ (s t : GoString) (x y : List Byte),
    L.jsonString (pieces s) ++ x = L.jsonString (pieces t) ++ y → pieces s = pieces t ∧ x = y
  float_injective : ∀ v w : Float32, v.wf = true → w.wf = true →
    jsonUnsupported v = false → jsonUnsupported w = false →
    L.jsonFloat32 v = L.jsonFloat32 w → v = w
  float_closed : ∀ v : Float32, jsonUnsupported v = false → (125 : Byte) ∉ L.jsonFloat32 v

/-- A text for bytes that ends where it says: each byte behind a `#`, then a
`;`. -/
def Raw.plainBytes : List Byte → List Byte
  | [] => [59]
  | b :: bs => 35 :: b :: Raw.plainBytes bs

/-- A text for pieces that ends where it says: `u` and the bytes for an encoded
code point, a backslash for a byte that begins none, then a quote. -/
def Raw.plainPieces : List Piece → List Byte
  | [] => [34]
  | .invalid :: ps => 92 :: Raw.plainPieces ps
  | .rune bs :: ps => 117 :: (Raw.plainBytes bs ++ Raw.plainPieces ps)

/-- A text for a finite float32: the sign and the decimal digits of the
magnitude in units of `2^-149`. -/
def Raw.plainFloat : Float32 → List Byte
  | .finite neg mag => (if neg then [45] else []) ++ natBytes mag
  | _ => []

/-- A `Raw.Lib` that can be evaluated. -/
def Raw.plainLib : Raw.Lib :=
  { sha256 := toySum
    jsonString := fun ps => 34 :: Raw.plainPieces ps
    jsonFloat32 := Raw.plainFloat }

/-- A block whose one transaction has the given sender. -/
def Raw.senderBlock (sender : GoString) : Raw.Block :=
  { Nonce := 0, PreviousHash := Digest.zero, Timestamp := 0,
    Transactions := .mk [⟨sender, [66], Float32.ofInt 1⟩] }

/-- A block with the given nonce whose one transaction has the given value. -/
def Raw.valueBlock (nonce : Int) (value : Float32) : Raw.Block :=
  { Nonce := nonce, PreviousHash := Digest.zero, Timestamp := 0,
    Transactions := .mk [⟨[65], [66], value⟩] }

/-- The block with no transactions, timestamp 0, and the given nonce and
previous hash. -/
def Raw.plainBlock (p : Bool × Digest) : Raw.Block :=
  { Nonce := if p.1 then 1 else 0, PreviousHash := p.2, Timestamp := 0, Transactions := .nil }

/-! ## Auxiliary lemmas -/

namespace Float32

theorem bitLengthAux_le_iff (fuel k n : Nat) (h : k ≤ fuel) :
    bitLengthAux fuel k ≤ n ↔ k < 2 ^ n := by
  induction fuel generalizing k n with
  | zero =>
    have : k = 0 := by omega
    subst this
    simp [bitLengthAux]
  | succ fuel ih =>
    unfold bitLengthAux
    by_cases hk : k = 0
    · subst hk; simp
    · rw [if_neg hk]
      cases n with
      | zero => simp; omega
      | succ n =>
        rw [Nat.add_le_add_iff_right, ih (k / 2) n (by omega), pow_succ]
        omega

theorem bitLength_le_iff (k n : Nat) : bitLength k ≤ n ↔ k < 2 ^ n :=
  bitLengthAux_le_iff k k n (le_refl k)

theorem roundMag_exact (m e : Nat) (hm : m ≤ 2 ^ 24) : roundMag (m * 2 ^ e) = m * 2 ^ e := by
  unfold roundMag
  by_cases hb : bitLength (m * 2 ^ e) ≤ 24
  · rw [if_pos hb]
  · rw [if_neg hb]
    have hdvd : 2 ^ (bitLength (m * 2 ^ e) - 24) ∣ m * 2 ^ e := by
      rcases Nat.lt_or_eq_of_le hm with hlt | heq
      · have h1 : bitLength (m * 2 ^ e) ≤ 24 + e := by
          rw [bitLength_le_iff, pow_add]
          exact Nat.mul_lt_mul_of_lt_of_le hlt (le_refl _) (by positivity)
        exact Dvd.dvd.mul_left (pow_dvd_pow 2 (by omega)) m
      · subst heq
        have h1 : bitLength (2 ^ 24 * 2 ^ e) ≤ 25 + e := by
          rw [bitLength_le_iff, ← pow_add]
          exact Nat.pow_lt_pow_right (by norm_num) (by omega)
        rw [← pow_add] at h1 ⊢
        exact pow_dvd_pow 2 (by omega)
    have hmod : m * 2 ^ e % 2 ^ (bitLength (m * 2 ^ e) - 24) = 0 := Nat.mod_eq_zero_of_dvd hdvd
    have hpos : 0 < 2 ^ (bitLength (m * 2 ^ e) - 24 - 1) := by positivity
    simp only [hmod]
    rw [if_neg (by omega)]
    exact Nat.div_mul_cancel hdvd

theorem ofMag_exact (n : Bool) (m : Nat) (hm : m ≤ 2 ^ 24) :
    ofMag n (m * 2 ^ 149) = finite n (m * 2 ^ 149) := by
  unfold ofMag
  rw [roundMag_exact m 149 hm, if_pos]
  rw [bitLength_le_iff]
  calc m * 2 ^ 149 ≤ 2 ^ 24 * 2 ^ 149 := Nat.mul_le_mul_right _ hm
    _ < 2 ^ 277 := by norm_num

theorem add_finite_exact (n1 n2 : Bool) (m1 m2 : Nat) (a b : Int)
    (h1 : signed n1 m1 = a * 2 ^ 149) (h2 : signed n2 m2 = b * 2 ^ 149)
    (hab : (a + b).natAbs ≤ 2 ^ 24) (hz : a + b = 0 → (n1 && n2) = false) :
    add (finite n1 m1) (finite n2 m2) = ofInt (a + b) := by
  unfold add
  simp only [h1, h2]
  have hs : a * 2 ^ 149 + b * 2 ^ 149 = (a + b) * 2 ^ 149 := by ring
  rw [hs]
  by_cases h0 : a + b = 0
  · rw [h0, hz h0]; simp [ofInt]
  · have hne : (a + b) * 2 ^ 149 ≠ 0 := mul_ne_zero h0 (by positivity)
    rw [if_neg hne]
    have hnat : ((a + b) * 2 ^ 149).natAbs = (a + b).natAbs * 2 ^ 149 := by
      rw [Int.natAbs_mul, Int.natAbs_pow]; rfl
    have hsign : decide ((a + b) * 2 ^ 149 < 0) = decide (a + b < 0) := by
      congr 1
      apply propext
      constructor
      · intro h; by_contra hc; push_neg at hc
        have : 0 ≤ (a + b) * 2 ^ 149 := mul_nonneg hc (by positivity)
        omega
      · intro h; exact mul_neg_of_neg_of_pos h (by positivity)
    rw [hnat, hsign, ofMag_exact _ _ hab]
    rfl

theorem signed_ofInt (z : Int) : signed (decide (z < 0)) (z.natAbs * 2 ^ 149) = z * 2 ^ 149 := by
  unfold signed
  by_cases h : z < 0
  · have e : ((z.natAbs : Nat) : Int) = -z := by omega
    simp only [h, decide_True, if_true, Nat.cast_mul, e]; push_cast; ring
  · have e : ((z.natAbs : Nat) : Int) = z := by omega
    simp only [h, decide_False, Nat.cast_mul, e]; push_cast; rfl

theorem add_ofInt (a b : Int) (hab : (a + b).natAbs ≤ 2 ^ 24) :
    add (ofInt a) (ofInt b) = ofInt (a + b) := by
  unfold ofInt
  apply add_finite_exact _ _ _ _ a b (signed_ofInt a) (signed_ofInt b) hab
  intro h
  by_cases ha : a < 0
  · have hb : ¬ b < 0 := by omega
    simp [ha, hb]
  · simp [ha]

theorem sub_ofInt (a b : Int) (hab : (a - b).natAbs ≤ 2 ^ 24) :
    sub (ofInt a) (ofInt b) = ofInt (a - b) := by
  unfold sub ofInt neg
  rw [sub_eq_add_neg]
  have h2 : signed (!decide (b < 0)) (b.natAbs * 2 ^ 149) = (-b) * 2 ^ 149 := by
    unfold signed
    by_cases h : b < 0
    · have e : ((b.natAbs : Nat) : Int) = -b := by omega
      simp only [h, decide_True, Bool.not_true, Nat.cast_mul, e]; push_cast; rfl
    · have e : ((b.natAbs : Nat) : Int) = b := by omega
      simp only [h, decide_False, Bool.not_false, if_true, Nat.cast_mul, e]; push_cast; ring
  apply add_finite_exact _ _ _ _ a (-b) (signed_ofInt a) h2 (by rwa [← sub_eq_add_neg])
  intro h
  by_cases ha : a < 0
  · have hb : b < 0 := by omega
    simp [ha, hb]
  · simp [ha]

end Float32


theorem Slice.toList_append {α : Type} (s : Slice α) (a : α) :
    (s.append a).toList = s.toList ++ [a] := rfl

theorem CopyTransactionPool_eq (bc : BlockChain) :
    CopyTransactionPool bc = .mk bc.TransactionPool.toList := by
  unfold CopyTransactionPool
  have key : ∀ (l acc : List Transaction),
      l.foldl (fun transactions t => transactions.append
        (NewTransaction t.SenderBlockChainAddress t.RecipientBlockChainAddress t.Value))
        (Slice.mk acc) = Slice.mk (acc ++ l) := by
    intro l
    induction l with
    | nil => intro acc; simp
    | cons t l ih =>
      intro acc
      rw [List.foldl_cons]
      have e : (Slice.mk acc).append
          (NewTransaction t.SenderBlockChainAddress t.RecipientBlockChainAddress t.Value)
          = Slice.mk (acc ++ [t]) := rfl
      rw [e, ih]
      simp
  simpa using key bc.TransactionPool.toList []

theorem hexString_length (h : Digest) : (hexString h).length = 64 := by
  obtain ⟨l, hl⟩ := h
  have key : ∀ l : List Byte,
      (l.flatMap (fun x => [hexDigit (x.val / 16), hexDigit (x.val % 16)])).length
        = 2 * l.length := by
    intro l
    induction l with
    | nil => rfl
    | cons a l ih => simp only [List.flatMap_cons, List.length_append, ih]; simp; omega
  simp only [hexString, key, hl]

theorem ValidProof_mining_ok (L : Lib) (nonce : Int) (previousHash : Digest)
    (transactions : Slice Transaction) :
    ∃ r, ValidProof L nonce previousHash transactions MINING_DIFFICULTY = .ok r := by
  simp [ValidProof, MINING_DIFFICULTY, hexString_length]

theorem wrapInt_range (z : Int) : -2 ^ 63 ≤ wrapInt z ∧ wrapInt z < 2 ^ 63 := by
  unfold wrapInt
  constructor <;> omega

theorem wrapInt_of_range (z : Int) (h0 : -2 ^ 63 ≤ z) (h1 : z < 2 ^ 63) : wrapInt z = z := by
  unfold wrapInt
  omega

theorem loop_ok_valid (L : Lib) (previousHash : Digest) (transactions : Slice Transaction)
    (fuel : Nat) (start n : Int)
    (h : ProofOfWork.loop L previousHash transactions fuel start = .ok n) :
    ValidProof L n previousHash transactions MINING_DIFFICULTY = .ok true := by
  induction fuel generalizing start with
  | zero => simp [ProofOfWork.loop] at h
  | succ fuel ih =>
    unfold ProofOfWork.loop at h
    split at h
    · simp at h
    · next hv => simp only [Except.ok.injEq] at h; rw [← h]; exact hv
    · exact ih _ h

theorem loop_ok_range (L : Lib) (previousHash : Digest) (transactions : Slice Transaction)
    (fuel : Nat) (start n : Int) (h0 : -2 ^ 63 ≤ start) (h1 : start < 2 ^ 63)
    (h : ProofOfWork.loop L previousHash transactions fuel start = .ok n) :
    -2 ^ 63 ≤ n ∧ n < 2 ^ 63 := by
  induction fuel generalizing start with
  | zero => simp [ProofOfWork.loop] at h
  | succ fuel ih =>
    unfold ProofOfWork.loop at h
    split at h
    · simp at h
    · simp only [Except.ok.injEq] at h; rw [← h]; exact ⟨h0, h1⟩
    · exact ih _ (wrapInt_range _).1 (wrapInt_range _).2 h

theorem loop_ok_smaller (L : Lib) (previousHash : Digest) (transactions : Slice Transaction)
    (fuel : Nat) (start n : Int) (h0 : 0 ≤ start) (h1 : start < 2 ^ 63)
    (h : ProofOfWork.loop L previousHash transactions fuel start = .ok n) :
    ∀ m : Int, start ≤ m → m < n →
      ValidProof L m previousHash transactions MINING_DIFFICULTY = .ok false := by
  induction fuel generalizing start with
  | zero => simp [ProofOfWork.loop] at h
  | succ fuel ih =>
    unfold ProofOfWork.loop at h
    split at h
    · simp at h
    · simp only [Except.ok.injEq] at h
      intro m hm hmn
      omega
    · next hv =>
      intro m hm hmn
      by_cases hs : start + 1 < 2 ^ 63
      · rw [wrapInt_of_range _ (by omega) hs] at h
        by_cases hms : m = start
        · rw [hms]; exact hv
        · exact ih _ (by omega) hs h m (by omega) hmn
      · have hn := loop_ok_range L previousHash transactions fuel _ n
          (wrapInt_range _).1 (wrapInt_range _).2 h
        have hms : m = start := by omega
        rw [hms]; exact hv

theorem loop_returns (L : Lib) (previousHash : Digest) (transactions : Slice Transaction)
    (n : Nat) (hn : (n : Int) < 2 ^ 63)
    (hv : ValidProof L n previousHash transactions MINING_DIFFICULTY = .ok true)
    (k start : Nat) (hk : start + k = n) :
    ∃ n0 : Int, ProofOfWork.loop L previousHash transactions (k + 1) start = .ok n0 ∧
      (start : Int) ≤ n0 ∧ n0 ≤ n := by
  induction k generalizing start with
  | zero =>
    have e : start = n := by omega
    subst e
    exact ⟨(start : Int), by unfold ProofOfWork.loop; rw [hv], le_refl _, le_refl _⟩
  | succ k ih =>
    obtain ⟨r, hr⟩ := ValidProof_mining_ok L start previousHash transactions
    cases r with
    | true =>
      exact ⟨(start : Int), by unfold ProofOfWork.loop; rw [hr], le_refl _, by omega⟩
    | false =>
      obtain ⟨n0, h1, h2, h3⟩ := ih (start + 1) (by omega)
      refine ⟨n0, ?_, by omega, h3⟩
      unfold ProofOfWork.loop
      rw [hr]
      simp only
      rw [wrapInt_of_range _ (by omega) (by omega)]
      exact h1

theorem take_eq_replicate_iff {α : Type} (c : α) (l : List α) (d : Nat) (hd : d ≤ l.length) :
    l.take d = List.replicate d c ↔ ∀ i : Nat, i < d → l[i]? = some c := by
  induction l generalizing d with
  | nil =>
    have : d = 0 := by simpa using hd
    subst this; simp
  | cons a l ih =>
    cases d with
    | zero => simp
    | succ d =>
      have hd1 : d ≤ l.length := by simpa using hd
      rw [List.take_succ_cons, List.replicate_succ, List.cons.injEq, ih d hd1]
      constructor
      · rintro ⟨rfl, h⟩ i hi
        cases i with
        | zero => simp
        | succ i => simpa using h i (by omega)
      · intro h
        refine ⟨by simpa using h 0 (by omega), fun i hi => ?_⟩
        simpa using h (i + 1) (by omega)

theorem hexDigit_eq_zero_iff (n : Nat) (hn : n < 16) : hexDigit n = '0' ↔ n = 0 := by
  interval_cases n <;> decide

theorem Mining_ok_iff (L : Lib) (fuel : Nat) (now : Int) (bc : BlockChain)
    (r : Bool × BlockChain) :
    Mining L fuel now bc = .ok r ↔
      ∃ last nonce, bc.Chain.getLast? = some last ∧
        ProofOfWork L fuel (AddTransaction bc MINING_SENDER bc.BlockChainAddress MINING_REWARD)
          = .ok nonce ∧
        r = (true,
          { TransactionPool := .mk [],
            Chain := bc.Chain ++ [NewBlock now nonce (last.Hash L)
              (.mk (bc.TransactionPool.toList ++
                [NewTransaction MINING_SENDER bc.BlockChainAddress MINING_REWARD]))],
            BlockChainAddress := bc.BlockChainAddress }) := by
  unfold Mining
  simp only
  cases hp : ProofOfWork L fuel (AddTransaction bc MINING_SENDER bc.BlockChainAddress MINING_REWARD) with
  | error e => simp
  | ok nonce =>
    cases hl : bc.Chain.getLast? with
    | none => simp [LastBlock, AddTransaction, hl]
    | some last =>
      simp only [LastBlock, AddTransaction, hl, CreateBlock, Slice.append, Except.ok.injEq]
      constructor
      · intro h; exact ⟨last, nonce, rfl, rfl, h.symm⟩
      · rintro ⟨last1, nonce1, h1, h2, h3⟩
        simp only [Option.some.injEq, Except.ok.injEq] at h1 h2
        subst h1 h2
        exact h3.symm

/-- Consecutive blocks of a chain: the later names the digest of the earlier. -/
theorem Linked_append (L : Lib) (c : List Block) (last b : Block)
    (hc : List.Chain' (fun x y : Block => y.PreviousHash = x.Hash L) c)
    (hl : c.getLast? = some last) (hb : b.PreviousHash = last.Hash L) :
    List.Chain' (fun x y : Block => y.PreviousHash = x.Hash L) (c ++ [b]) := by
  rw [List.chain'_append]
  refine ⟨hc, by simp, ?_⟩
  intro x hx y hy
  rw [hl] at hx
  simp only [Option.mem_def, Option.some.injEq] at hx
  simp only [List.head?_cons, Option.mem_def, Option.some.injEq] at hy
  subst hx hy
  exact hb

theorem Call_run_linked (L : Lib) (bc bc1 : BlockChain) (c : Call)
    (hc : List.Chain' (fun x y : Block => y.PreviousHash = x.Hash L) bc.Chain)
    (h : c.run L bc = .ok bc1) :
    List.Chain' (fun x y : Block => y.PreviousHash = x.Hash L) bc1.Chain := by
  cases c with
  | AddTransaction s r v =>
    simp only [Call.run, Except.ok.injEq] at h
    subst h
    exact hc
  | Mining fuel now =>
    simp only [Call.run] at h
    cases hm : Mining L fuel now bc with
    | error e => simp [hm] at h
    | ok r =>
      simp only [hm, Except.ok.injEq] at h
      obtain ⟨last, nonce, hl, _, hr⟩ := (Mining_ok_iff L fuel now bc r).1 hm
      subst h hr
      exact Linked_append L bc.Chain last _ hc hl rfl

theorem runCalls_linked (L : Lib) (calls : List Call) (bc bc1 : BlockChain)
    (hc : List.Chain' (fun x y : Block => y.PreviousHash = x.Hash L) bc.Chain)
    (h : runCalls L bc calls = .ok bc1) :
    List.Chain' (fun x y : Block => y.PreviousHash = x.Hash L) bc1.Chain := by
  induction calls generalizing bc with
  | nil =>
    simp only [runCalls, Except.ok.injEq] at h
    subst h; exact hc
  | cons c cs ih =>
    simp only [runCalls] at h
    cases hr : c.run L bc with
    | error e => simp [hr] at h
    | ok bc2 =>
      simp only [hr] at h
      exact ih bc2 (Call_run_linked L bc bc2 c hc hr) h

theorem hexString_eq_map (h : Digest) : hexString h = (nibbles h).map hexDigit := by
  obtain ⟨l, hl⟩ := h
  simp only [hexString, nibbles]
  clear hl
  induction l with
  | nil => rfl
  | cons a l ih => simp only [List.flatMap_cons, List.map_append, ih]; rfl

theorem nibbles_lt (h : Digest) : ∀ n ∈ nibbles h, n < 16 := by
  intro n hn
  simp only [nibbles, List.mem_flatMap, List.mem_cons, List.mem_singleton, List.not_mem_nil,
    or_false] at hn
  obtain ⟨x, _, hx | hx⟩ := hn
  · have := x.isLt; omega
  · omega

theorem hexString_getElem?_zero (h : Digest) (i : Nat) :
    (hexString h)[i]? = some '0' ↔ (nibbles h)[i]? = some 0 := by
  rw [hexString_eq_map, List.getElem?_map]
  cases hn : (nibbles h)[i]? with
  | none => simp
  | some n =>
    have hlt : n < 16 := nibbles_lt h n (List.getElem?_mem hn)
    simp only [Option.map_some', Option.some.injEq]
    exact hexDigit_eq_zero_iff n hlt

theorem CalculateTotalAmount_eq_walk (bc : BlockChain) (a : String) :
    CalculateTotalAmount bc a = (sealedTransactions bc).foldl (balanceStep a) Float32.zero := by
  have key : ∀ (c : List Block) (acc : Float32),
      c.foldl (fun totalAmount b => b.Transactions.toList.foldl (balanceStep a) totalAmount) acc
        = (c.flatMap (fun b => b.Transactions.toList)).foldl (balanceStep a) acc := by
    intro c
    induction c with
    | nil => intro acc; rfl
    | cons b c ih =>
      intro acc
      rw [List.foldl_cons, List.flatMap_cons, List.foldl_append, ih]
  exact key bc.Chain Float32.zero

theorem received_cons (a : String) (e : IntTransfer) (l : List IntTransfer) :
    received a (e :: l) = (if e.recipient = a then e.amount else 0) + received a l := by
  unfold received
  by_cases h : e.recipient = a <;> simp [List.filter_cons, h]

theorem sent_cons (a : String) (e : IntTransfer) (l : List IntTransfer) :
    sent a (e :: l) = (if e.sender = a then e.amount else 0) + sent a l := by
  unfold sent
  by_cases h : e.sender = a <;> simp [List.filter_cons, h]

theorem volume_cons (e : IntTransfer) (l : List IntTransfer) :
    volume (e :: l) = e.amount.natAbs + volume l := by
  simp [volume]

theorem balanceStep_exact (a : String) (z : Int) (e : IntTransfer)
    (h : z.natAbs + e.amount.natAbs ≤ 2 ^ 24) :
    balanceStep a (Float32.ofInt z) e.toTransaction
      = Float32.ofInt (z + (if e.recipient = a then e.amount else 0)
          - (if e.sender = a then e.amount else 0)) := by
  unfold balanceStep IntTransfer.toTransaction
  simp only
  by_cases hr : a = e.recipient <;> by_cases hs : a = e.sender
  · rw [if_pos hr, if_pos hs, if_pos hr.symm, if_pos hs.symm,
      Float32.add_ofInt _ _ (by omega), Float32.sub_ofInt _ _ (by omega)]
  · rw [if_pos hr, if_neg hs, if_pos hr.symm, if_neg (fun h => hs h.symm),
      Float32.add_ofInt _ _ (by omega), sub_zero]
  · rw [if_neg hr, if_pos hs, if_neg (fun h => hr h.symm), if_pos hs.symm,
      Float32.sub_ofInt _ _ (by omega), add_zero]
  · rw [if_neg hr, if_neg hs, if_neg (fun h => hr h.symm), if_neg (fun h => hs h.symm),
      add_zero, sub_zero]

theorem walk_exact (a : String) (l : List IntTransfer) (z : Int)
    (h : z.natAbs + volume l ≤ 2 ^ 24) :
    (l.map IntTransfer.toTransaction).foldl (balanceStep a) (Float32.ofInt z)
      = Float32.ofInt (z + received a l - sent a l) := by
  induction l generalizing z with
  | nil => simp [received, sent]
  | cons e l ih =>
    rw [volume_cons] at h
    rw [List.map_cons, List.foldl_cons, balanceStep_exact a z e (by omega), ih,
      received_cons, sent_cons]
    · congr 1; ring
    · by_cases hr : e.recipient = a <;> by_cases hs : e.sender = a <;>
        simp only [hr, hs, if_true, if_false] <;> omega

theorem CalculateTotalAmount_exact (bc : BlockChain) (a : String) (l : List IntTransfer)
    (hl : sealedTransactions bc = l.map IntTransfer.toTransaction) (hv : volume l ≤ 2 ^ 24) :
    CalculateTotalAmount bc a = Float32.ofInt (received a l - sent a l) := by
  rw [CalculateTotalAmount_eq_walk, hl]
  have h := walk_exact a l 0 (by simpa using hv)
  rw [zero_add] at h
  exact h

theorem sealedTransactions_NewBlockChain (L : Lib) (now : Int) (M : String) :
    sealedTransactions (NewBlockChain L now M) = [] := rfl

theorem replay_cons (M : String) (c : IntCall) (cs : List IntCall)
    (sp : List IntTransfer × List IntTransfer) :
    replay M (c :: cs) sp = replay M cs (replayStep M sp c) := rfl

theorem replay_append (M : String) (cs ds : List IntCall)
    (sp : List IntTransfer × List IntTransfer) :
    replay M (cs ++ ds) sp = replay M ds (replay M cs sp) := by
  simp [replay, List.foldl_append]

theorem runCalls_replay (L : Lib) (cs : List IntCall) (bc bc1 : BlockChain)
    (S P : List IntTransfer)
    (h : runCalls L bc (cs.map IntCall.toCall) = .ok bc1)
    (hS : sealedTransactions bc = S.map IntTransfer.toTransaction)
    (hP : bc.TransactionPool.toList = P.map IntTransfer.toTransaction) :
    sealedTransactions bc1
      = (replay bc.BlockChainAddress cs (S, P)).1.map IntTransfer.toTransaction ∧
    bc1.TransactionPool.toList
      = (replay bc.BlockChainAddress cs (S, P)).2.map IntTransfer.toTransaction ∧
    bc1.BlockChainAddress = bc.BlockChainAddress ∧
    bc1.Chain.length = bc.Chain.length + miningCount cs := by
  induction cs generalizing bc S P with
  | nil =>
    simp only [List.map_nil, runCalls, Except.ok.injEq] at h
    subst h
    exact ⟨hS, hP, rfl, rfl⟩
  | cons c cs ih =>
    rw [List.map_cons] at h
    simp only [runCalls] at h
    cases hr : (IntCall.toCall c).run L bc with
    | error e => simp [hr] at h
    | ok bc2 =>
      simp only [hr] at h
      cases c with
      | AddTransaction e =>
        simp only [IntCall.toCall, Call.run, Except.ok.injEq] at hr
        subst hr
        have := ih (AddTransaction bc e.sender e.recipient (Float32.ofInt e.amount)) S (P ++ [e]) h hS
          (by simp only [AddTransaction, Slice.toList_append, hP, List.map_append]; rfl)
        simpa [replay_cons, replayStep, miningCount] using this
      | Mining fuel now =>
        simp only [IntCall.toCall, Call.run] at hr
        cases hm : Mining L fuel now bc with
        | error e => simp [hm] at hr
        | ok r =>
          simp only [hm, Except.ok.injEq] at hr
          obtain ⟨last, nonce, _, _, hr2⟩ := (Mining_ok_iff L fuel now bc r).1 hm
          subst hr2
          subst hr
          have := ih _ (S ++ P ++ [rewardTransfer bc.BlockChainAddress]) [] h
            (by
              have e : ∀ (c : List Block) (b : Block),
                  (c ++ [b]).flatMap (fun b => b.Transactions.toList)
                    = c.flatMap (fun b => b.Transactions.toList) ++ b.Transactions.toList := by
                intro c b; simp
              unfold sealedTransactions at hS ⊢
              rw [e, hS]
              show _ ++ (bc.TransactionPool.toList ++ _) = _
              rw [hP, List.map_append, List.map_append, List.append_assoc]
              rfl)
            rfl
          simp only [List.length_append, List.length_singleton] at this
          rw [replay_cons]
          simp only [replayStep, miningCount]
          refine ⟨this.1, this.2.1, this.2.2.1, ?_⟩
          rw [this.2.2.2]; omega

theorem replay_additive {A : Type} [AddCommMonoid A] (μ : List IntTransfer → A)
    (h0 : μ [] = 0) (hadd : ∀ x y, μ (x ++ y) = μ x + μ y)
    (M : String) (cs : List IntCall) (S P : List IntTransfer) :
    μ (replay M cs (S, P)).1 + μ (replay M cs (S, P)).2
      = μ S + μ P + μ (submitted cs) + miningCount cs • μ [rewardTransfer M] := by
  induction cs generalizing S P with
  | nil => simp [replay, submitted, miningCount, h0]
  | cons c cs ih =>
    rw [replay_cons]
    cases c with
    | AddTransaction e =>
      simp only [replayStep, submitted, miningCount]
      rw [ih, hadd, show e :: submitted cs = [e] ++ submitted cs from rfl, hadd]
      abel
    | Mining fuel now =>
      simp only [replayStep, submitted, miningCount]
      rw [ih, hadd, hadd, h0, succ_nsmul]
      abel

theorem received_append (a : String) (x y : List IntTransfer) :
    received a (x ++ y) = received a x + received a y := by
  simp [received, List.filter_append]

theorem sent_append (a : String) (x y : List IntTransfer) :
    sent a (x ++ y) = sent a x + sent a y := by
  simp [sent, List.filter_append]

theorem volume_append (x y : List IntTransfer) : volume (x ++ y) = volume x + volume y := by
  simp [volume]

theorem replay_ends_mining (M : String) (pre : List IntCall) (fuel : Nat) (now : Int)
    (sp : List IntTransfer × List IntTransfer) :
    (replay M (pre ++ [.Mining fuel now]) sp).2 = [] := by
  rw [replay_append]; rfl

theorem balances_of_run (L : Lib) (now : Int) (M : String) (cs : List IntCall) (bc : BlockChain)
    (h : runCalls L (NewBlockChain L now M) (cs.map IntCall.toCall) = .ok bc)
    (hv : volume (submitted cs) + miningCount cs ≤ 2 ^ 24) (a : String) :
    sealedTransactions bc = (replay M cs ([], [])).1.map IntTransfer.toTransaction ∧
    volume (replay M cs ([], [])).1 ≤ 2 ^ 24 ∧
    CalculateTotalAmount bc a
      = Float32.ofInt (received a (replay M cs ([], [])).1 - sent a (replay M cs ([], [])).1) ∧
    bc.Chain.length = miningCount cs + 1 := by
  obtain ⟨hS, _, _, hlen⟩ := runCalls_replay L cs (NewBlockChain L now M) bc [] [] h rfl rfl
  have hM : (NewBlockChain L now M).BlockChainAddress = M := rfl
  rw [hM] at hS
  have hvol := replay_additive volume rfl volume_append M cs [] []
  have hr : volume [rewardTransfer M] = 1 := rfl
  have hz : volume ([] : List IntTransfer) = 0 := rfl
  rw [hr, hz, smul_eq_mul, mul_one, zero_add, zero_add] at hvol
  have hb : volume (replay M cs ([], [])).1 ≤ 2 ^ 24 := by omega
  refine ⟨hS, hb, CalculateTotalAmount_exact bc a _ hS hb, ?_⟩
  rw [hlen]
  show 1 + _ = _
  omega

theorem netOver_cons (Q : List String) (e : IntTransfer) (T : List IntTransfer) :
    netOver Q (e :: T)
      = e.amount * ((Q.count e.recipient : Int) - (Q.count e.sender : Int)) + netOver Q T := by
  induction Q with
  | nil => simp [netOver]
  | cons a Q ih =>
    have h1 : netOver (a :: Q) (e :: T)
        = (received a (e :: T) - sent a (e :: T)) + netOver Q (e :: T) := by
      simp [netOver]
    have h2 : netOver (a :: Q) T = (received a T - sent a T) + netOver Q T := by
      simp [netOver]
    have cr : (if (a == e.recipient) = true then 1 else 0 : Nat)
        = if e.recipient = a then 1 else 0 := by
      by_cases h : e.recipient = a
      · rw [if_pos h, if_pos (by rw [beq_iff_eq]; exact h.symm)]
      · rw [if_neg h, if_neg (by rw [beq_iff_eq]; exact fun x => h x.symm)]
    have cs : (if (a == e.sender) = true then 1 else 0 : Nat)
        = if e.sender = a then 1 else 0 := by
      by_cases h : e.sender = a
      · rw [if_pos h, if_pos (by rw [beq_iff_eq]; exact h.symm)]
      · rw [if_neg h, if_neg (by rw [beq_iff_eq]; exact fun x => h x.symm)]
    rw [h1, h2, ih, received_cons, sent_cons, List.count_cons, List.count_cons, cr, cs]
    by_cases hr : e.recipient = a <;> by_cases hs : e.sender = a
    · rw [if_pos hr, if_pos hs, if_pos hr, if_pos hs]; push_cast; ring
    · rw [if_pos hr, if_neg hs, if_pos hr, if_neg hs]; push_cast; ring
    · rw [if_neg hr, if_pos hs, if_neg hr, if_pos hs]; push_cast; ring
    · rw [if_neg hr, if_neg hs, if_neg hr, if_neg hs]; push_cast; ring

theorem netOver_nil_right (Q : List String) : netOver Q [] = 0 := by
  induction Q with
  | nil => rfl
  | cons a Q ih =>
    have h2 : netOver (a :: Q) [] = (received a [] - sent a []) + netOver Q [] := by
      simp [netOver]
    rw [h2, ih]; rfl

theorem netOver_bound (Q : List String) (hQ : Q.Nodup) (T : List IntTransfer) :
    (netOver Q T).natAbs ≤ volume T := by
  induction T with
  | nil => rw [netOver_nil_right]; simp
  | cons e T ih =>
    rw [netOver_cons, volume_cons]
    have hr : Q.count e.recipient ≤ 1 := List.nodup_iff_count_le_one.1 hQ _
    have hs : Q.count e.sender ≤ 1 := List.nodup_iff_count_le_one.1 hQ _
    have h1 : (e.amount * ((Q.count e.recipient : Int) - (Q.count e.sender : Int))).natAbs
        ≤ e.amount.natAbs := by
      rw [Int.natAbs_mul]
      have : ((Q.count e.recipient : Int) - (Q.count e.sender : Int)).natAbs ≤ 1 := by omega
      calc e.amount.natAbs * _ ≤ e.amount.natAbs * 1 := Nat.mul_le_mul_left _ this
        _ = e.amount.natAbs := Nat.mul_one _
    have h2 := Int.natAbs_add_le
      (e.amount * ((Q.count e.recipient : Int) - (Q.count e.sender : Int))) (netOver Q T)
    omega

theorem netOver_append_singleton (Q : List String) (a : String) (T : List IntTransfer) :
    netOver (Q ++ [a]) T = netOver Q T + (received a T - sent a T) := by
  simp [netOver]

theorem sumBalances_fold (bc : BlockChain) (T : List IntTransfer)
    (hbal : ∀ a, CalculateTotalAmount bc a = Float32.ofInt (received a T - sent a T))
    (hv : volume T ≤ 2 ^ 24) (Q0 Q : List String) (hQ : (Q0 ++ Q).Nodup) :
    Q.foldl (fun acc a => Float32.add acc (CalculateTotalAmount bc a))
        (Float32.ofInt (netOver Q0 T))
      = Float32.ofInt (netOver (Q0 ++ Q) T) := by
  induction Q generalizing Q0 with
  | nil => simp
  | cons a Q ih =>
    have hQ1 : (Q0 ++ [a] ++ Q).Nodup := by simpa using hQ
    have hQ2 : (Q0 ++ [a]).Nodup := (List.nodup_append.1 hQ1).1
    have hb := netOver_bound (Q0 ++ [a]) hQ2 T
    rw [netOver_append_singleton] at hb
    rw [List.foldl_cons, hbal a, Float32.add_ofInt _ _ (by omega), ← netOver_append_singleton,
      ih (Q0 ++ [a]) hQ1]
    simp

theorem sumBalances_exact (bc : BlockChain) (T : List IntTransfer)
    (hbal : ∀ a, CalculateTotalAmount bc a = Float32.ofInt (received a T - sent a T))
    (hv : volume T ≤ 2 ^ 24) (Q : List String) (hQ : Q.Nodup) :
    sumBalances bc Q = Float32.ofInt (netOver Q T) := by
  have h := sumBalances_fold bc T hbal hv [] Q (by simpa using hQ)
  simpa [sumBalances, netOver, Float32.zero, Float32.ofInt] using h

theorem netOver_eq_count (M : String) (P : List String) (hP : P.Nodup)
    (hMS : MINING_SENDER ∉ P) (T : List IntTransfer)
    (hT : ∀ e ∈ T, (e = rewardTransfer M ∧ M ∈ P) ∨ (e.sender ∈ P ∧ e.recipient ∈ P)) :
    netOver P T = (T.count (rewardTransfer M) : Int) := by
  induction T with
  | nil => rw [netOver_nil_right]; simp
  | cons e T ih =>
    rw [netOver_cons, ih (fun x hx => hT x (List.mem_cons_of_mem _ hx))]
    rcases hT e (List.mem_cons_self _ _) with ⟨he, hM⟩ | ⟨hs, hr⟩
    · subst he
      have c1 : P.count (rewardTransfer M).recipient = 1 := List.count_eq_one_of_mem hP hM
      have c0 : P.count (rewardTransfer M).sender = 0 := List.count_eq_zero_of_not_mem hMS
      rw [c1, c0, List.count_cons_self]
      simp [rewardTransfer]
      ring
    · have c1 : P.count e.recipient = 1 := List.count_eq_one_of_mem hP hr
      have c2 : P.count e.sender = 1 := List.count_eq_one_of_mem hP hs
      have hne : e ≠ rewardTransfer M := by
        intro h
        rw [h] at hs
        exact hMS hs
      rw [c1, c2, List.count_cons_of_ne (Ne.symm hne)]
      simp

theorem replay_mem (M : String) (cs : List IntCall) (S P : List IntTransfer) :
    (∀ e ∈ (replay M cs (S, P)).1,
      e ∈ S ∨ e ∈ P ∨ e ∈ submitted cs ∨ e = rewardTransfer M) ∧
    (∀ e ∈ (replay M cs (S, P)).2, e ∈ P ∨ e ∈ submitted cs) := by
  induction cs generalizing S P with
  | nil => exact ⟨fun e he => Or.inl he, fun e he => Or.inl he⟩
  | cons c cs ih =>
    rw [replay_cons]
    cases c with
    | AddTransaction x =>
      obtain ⟨h1, h2⟩ := ih S (P ++ [x])
      simp only [replayStep, submitted, List.mem_append, List.mem_singleton, List.mem_cons] at *
      constructor
      · intro e he
        rcases h1 e he with h | (h | h) | h | h <;> tauto
      · intro e he
        rcases h2 e he with (h | h) | h <;> tauto
    | Mining fuel now =>
      obtain ⟨h1, h2⟩ := ih (S ++ P ++ [rewardTransfer M]) []
      simp only [replayStep, submitted, List.mem_append, List.mem_singleton,
        List.not_mem_nil, false_or] at *
      constructor
      · intro e he
        rcases h1 e he with ((h | h) | h) | h | h <;> tauto
      · intro e he
        exact Or.inr (h2 e he)

theorem sealed_of_run (L : Lib) (now : Int) (M : String) (cs : List IntCall) (bc : BlockChain)
    (h : runCalls L (NewBlockChain L now M) (cs.map IntCall.toCall) = .ok bc) :
    sealedTransactions bc = (replay M cs ([], [])).1.map IntTransfer.toTransaction :=
  (runCalls_replay L cs (NewBlockChain L now M) bc [] [] h rfl rfl).1

theorem rounding_sealed (L : Lib) (now : Int) (fuel : Nat) (now1 : Int) (bc : BlockChain)
    (h : runCalls L (NewBlockChain L now "M") (roundingCalls fuel now1) = .ok bc) :
    sealedTransactions bc
      = [NewTransaction "X" "a" (Float32.ofInt 16777216), NewTransaction "X" "a" (Float32.ofInt 1),
         NewTransaction "a" "Y" (Float32.ofInt 16777216), NewTransaction "X" "a" (Float32.ofInt 1),
         rewardTransaction "M"] :=
  sealed_of_run L now "M" (roundingIntCalls fuel now1) bc h

set_option maxRecDepth 20000 in
theorem rounding_balance (L : Lib) (now : Int) (fuel : Nat) (now1 : Int) (bc : BlockChain)
    (h : runCalls L (NewBlockChain L now "M") (roundingCalls fuel now1) = .ok bc) :
    CalculateTotalAmount bc "a" = Float32.ofInt 1 := by
  rw [CalculateTotalAmount_eq_walk, rounding_sealed L now fuel now1 bc h]
  decide

theorem mining_once_sealed (L : Lib) (now : Int) (fuel : Nat) (now1 : Int) (bc : BlockChain)
    (h : runCalls L (NewBlockChain L now "M") [.Mining fuel now1] = .ok bc) :
    sealedTransactions bc = [rewardTransaction "M"] :=
  sealed_of_run L now "M" [.Mining fuel now1] bc h

set_option maxRecDepth 20000 in
theorem mining_once_balances (L : Lib) (now : Int) (fuel : Nat) (now1 : Int) (bc : BlockChain)
    (h : runCalls L (NewBlockChain L now "M") [.Mining fuel now1] = .ok bc) :
    addresses bc = [MINING_SENDER, "M"] ∧
    CalculateTotalAmount bc MINING_SENDER = Float32.ofInt (-1) ∧
    CalculateTotalAmount bc "M" = Float32.ofInt 1 ∧
    sumBalances bc (addresses bc) = Float32.ofInt 0 ∧
    sumBalances bc ["M", MINING_SENDER] = Float32.ofInt 0 := by
  have hs := mining_once_sealed L now fuel now1 bc h
  have ha : addresses bc = [MINING_SENDER, "M"] := by
    unfold addresses; rw [hs]; decide
  have h1 : CalculateTotalAmount bc MINING_SENDER = Float32.ofInt (-1) := by
    rw [CalculateTotalAmount_eq_walk, hs]; decide
  have h2 : CalculateTotalAmount bc "M" = Float32.ofInt 1 := by
    rw [CalculateTotalAmount_eq_walk, hs]; decide
  refine ⟨ha, h1, h2, ?_, ?_⟩
  · rw [ha]
    simp only [sumBalances, List.foldl_cons, List.foldl_nil, h1, h2]
    decide
  · simp only [sumBalances, List.foldl_cons, List.foldl_nil, h1, h2]
    decide

set_option maxRecDepth 20000 in
theorem Float32.rounding_facts :
    Float32.add (Float32.ofInt 16777216) (Float32.ofInt 1) = Float32.ofInt 16777216 ∧
    Float32.add (Float32.ofInt 16777216) (Float32.ofInt 3) = Float32.ofInt 16777220 ∧
    Float32.sub (Float32.ofInt 5) (Float32.ofInt 7) = Float32.ofInt (-2) ∧
    Float32.add (Float32.finite false ((2 ^ 24 - 1) * 2 ^ 253)) (Float32.finite false (2 ^ 252))
      = Float32.inf false ∧
    Float32.add (Float32.finite false ((2 ^ 24 - 1) * 2 ^ 253))
        (Float32.finite false (2 ^ 252 - 1))
      = Float32.finite false ((2 ^ 24 - 1) * 2 ^ 253) ∧
    Float32.wf (Float32.ofInt 16777216) = true ∧ Float32.wf (Float32.ofInt 16777217) = false := by
  refine ⟨by decide, by decide, by decide, by decide, by decide, by decide, by decide⟩

theorem Operation_run_chain (L : Lib) (op : Operation) (bc bc1 : BlockChain)
    (h : op.run L bc = .ok bc1) :
    (op.seals = false ∧ bc1.Chain = bc.Chain) ∨
    (op.seals = true ∧ ∃ b, bc1.Chain = bc.Chain ++ [b]) := by
  cases op with
  | AddTransaction s r v =>
    simp only [Operation.run, Except.ok.injEq] at h
    subst h; exact Or.inl ⟨rfl, rfl⟩
  | CopyTransactionPool =>
    simp only [Operation.run, Except.ok.injEq] at h
    subst h; exact Or.inl ⟨rfl, rfl⟩
  | ProofOfWork fuel =>
    simp only [Operation.run] at h
    cases hp : ProofOfWork L fuel bc with
    | error e => simp [hp] at h
    | ok n =>
      simp only [hp, Except.ok.injEq] at h
      subst h; exact Or.inl ⟨rfl, rfl⟩
  | CalculateTotalAmount a =>
    simp only [Operation.run, Except.ok.injEq] at h
    subst h; exact Or.inl ⟨rfl, rfl⟩
  | CreateBlock now n hsh =>
    simp only [Operation.run, Except.ok.injEq] at h
    subst h; exact Or.inr ⟨rfl, _, rfl⟩
  | Mining fuel now =>
    simp only [Operation.run] at h
    cases hm : Mining L fuel now bc with
    | error e => simp [hm] at h
    | ok r =>
      simp only [hm, Except.ok.injEq] at h
      obtain ⟨last, nonce, _, _, hr⟩ := (Mining_ok_iff L fuel now bc r).1 hm
      subst h hr
      exact Or.inr ⟨rfl, _, rfl⟩

theorem runOperations_head (L : Lib) (ops : List Operation) (bc bc1 : BlockChain) (g : Block)
    (rest : List Block) (hc : bc.Chain = g :: rest)
    (h : runOperations L bc ops = .ok bc1) :
    ∃ rest1, bc1.Chain = g :: rest1 := by
  induction ops generalizing bc rest with
  | nil =>
    simp only [runOperations, Except.ok.injEq] at h
    subst h; exact ⟨rest, hc⟩
  | cons op ops ih =>
    simp only [runOperations] at h
    cases hr : op.run L bc with
    | error e => simp [hr] at h
    | ok bc2 =>
      simp only [hr] at h
      rcases Operation_run_chain L op bc bc2 hr with ⟨_, h2⟩ | ⟨_, b, h2⟩
      · exact ih bc2 rest (by rw [h2, hc]) h
      · exact ih bc2 (rest ++ [b]) (by rw [h2, hc]; rfl) h

theorem loop_least (L : Lib) (previousHash : Digest) (transactions : Slice Transaction)
    (n0 : Nat) (hn : (n0 : Int) < 2 ^ 63)
    (hv : ValidProof L n0 previousHash transactions MINING_DIFFICULTY = .ok true)
    (hrej : ∀ m : Nat, m < n0 →
      ValidProof L m previousHash transactions MINING_DIFFICULTY = .ok false)
    (fuel start : Nat) (hs : start ≤ n0) :
    ProofOfWork.loop L previousHash transactions fuel start
      = if n0 - start < fuel then .ok (n0 : Int) else .error .fuelExhausted := by
  induction fuel generalizing start with
  | zero => simp [ProofOfWork.loop]
  | succ fuel ih =>
    unfold ProofOfWork.loop
    rcases Nat.lt_or_eq_of_le hs with hlt | heq
    · rw [hrej start hlt]
      simp only
      rw [wrapInt_of_range _ (by omega) (by omega)]
      have e : ((start : Nat) : Int) + 1 = ((start + 1 : Nat) : Int) := by push_cast; rfl
      rw [e, ih (start + 1) (by omega)]
      by_cases hc : n0 - (start + 1) < fuel
      · rw [if_pos hc, if_pos (by omega)]
      · rw [if_neg hc, if_neg (by omega)]
    · subst heq
      rw [hv]
      simp

theorem ProofOfWork_least (L : Lib) (bc : BlockChain) (last : Block)
    (hl : bc.Chain.getLast? = some last) (n0 : Nat) (hn : (n0 : Int) < 2 ^ 63)
    (hv : ValidProof L n0 (last.Hash L) (CopyTransactionPool bc) MINING_DIFFICULTY = .ok true)
    (hrej : ∀ m : Nat, m < n0 →
      ValidProof L m (last.Hash L) (CopyTransactionPool bc) MINING_DIFFICULTY = .ok false)
    (fuel : Nat) :
    ProofOfWork L fuel bc
      = if n0 < fuel then .ok (n0 : Int) else .error .fuelExhausted := by
  unfold ProofOfWork
  simp only [LastBlock, hl]
  have h := loop_least L (last.Hash L) (CopyTransactionPool bc) n0 hn hv hrej fuel 0
    (Nat.zero_le _)
  simpa using h

theorem least_accepted (L : Lib) (previousHash : Digest) (transactions : Slice Transaction)
    (n : Nat) (hv : ValidProof L n previousHash transactions MINING_DIFFICULTY = .ok true) :
    ∃ n0 : Nat, n0 ≤ n ∧
      ValidProof L n0 previousHash transactions MINING_DIFFICULTY = .ok true ∧
      ∀ m : Nat, m < n0 →
        ValidProof L m previousHash transactions MINING_DIFFICULTY = .ok false := by
  have hex : ∃ k : Nat,
      ValidProof L k previousHash transactions MINING_DIFFICULTY = .ok true := ⟨n, hv⟩
  refine ⟨Nat.find hex, Nat.find_min' hex hv, Nat.find_spec hex, fun m hm => ?_⟩
  have hnot := Nat.find_min hex hm
  obtain ⟨r, hr⟩ := ValidProof_mining_ok L m previousHash transactions
  cases r with
  | true => exact absurd hr hnot
  | false => exact hr

theorem eraseIdx_split {α : Type} (l : List α) (j : Nat) (t : α) (h : l[j]? = some t) :
    ∃ p1 p2, l = p1 ++ t :: p2 ∧ l.eraseIdx j = p1 ++ p2 := by
  induction l generalizing j with
  | nil => simp at h
  | cons x l ih =>
    cases j with
    | zero =>
      simp only [List.getElem?_cons_zero, Option.some.injEq] at h
      subst h
      exact ⟨[], l, rfl, rfl⟩
    | succ j =>
      simp only [List.getElem?_cons_succ] at h
      obtain ⟨p1, p2, h1, h2⟩ := ih j h
      exact ⟨x :: p1, p2, by rw [h1]; rfl, by rw [List.eraseIdx_cons_succ, h2]; rfl⟩

theorem eraseSealed_split (ch : List Block) (i j : Nat) (b : Block) (t : Transaction)
    (hb : ch[i]? = some b) (ht : b.Transactions.toList[j]? = some t) :
    ∃ l1 l2, ch.flatMap (fun b => b.Transactions.toList) = l1 ++ t :: l2 ∧
      (eraseSealed ch i j).flatMap (fun b => b.Transactions.toList) = l1 ++ l2 := by
  induction ch generalizing i with
  | nil => simp at hb
  | cons x ch ih =>
    cases i with
    | zero =>
      simp only [List.getElem?_cons_zero, Option.some.injEq] at hb
      subst hb
      obtain ⟨p1, p2, h1, h2⟩ := eraseIdx_split _ j t ht
      refine ⟨p1, p2 ++ ch.flatMap (fun b => b.Transactions.toList), ?_, ?_⟩
      · rw [List.flatMap_cons, h1]; simp
      · show x.Transactions.toList.eraseIdx j ++ _ = _
        rw [h2, List.append_assoc]
        rfl
    | succ i =>
      simp only [List.getElem?_cons_succ] at hb
      obtain ⟨l1, l2, h1, h2⟩ := ih i hb
      refine ⟨x.Transactions.toList ++ l1, l2, ?_, ?_⟩
      · rw [List.flatMap_cons, h1]; simp
      · simp only [eraseSealed, List.flatMap_cons, h2]; simp

theorem self_transfer_exact (bc bc1 : BlockChain) (a : String) (l : List IntTransfer)
    (l1 l2 : List Transaction) (t : Transaction)
    (hl : sealedTransactions bc = l.map IntTransfer.toTransaction)
    (hv : volume l ≤ 2 ^ 24)
    (h1 : sealedTransactions bc = l1 ++ t :: l2) (h2 : sealedTransactions bc1 = l1 ++ l2)
    (hs : t.SenderBlockChainAddress = a) (hr : t.RecipientBlockChainAddress = a) :
    CalculateTotalAmount bc1 a = CalculateTotalAmount bc a := by
  rw [hl] at h1
  obtain ⟨m1, m2', hm, hm1, hm2⟩ := List.map_eq_append_iff.1 h1
  obtain ⟨e, m2, hm3, he, hm4⟩ := List.map_eq_cons_iff.1 hm2
  subst hm hm3
  have hes : e.sender = a := by rw [← hs, ← he]; rfl
  have her : e.recipient = a := by rw [← hr, ← he]; rfl
  have hb1 : sealedTransactions bc1 = (m1 ++ m2).map IntTransfer.toTransaction := by
    rw [h2, List.map_append, hm1, hm4]
  have hv1 : volume (m1 ++ m2) ≤ 2 ^ 24 := by
    rw [volume_append, volume_cons] at hv
    rw [volume_append]; omega
  rw [CalculateTotalAmount_exact bc a _ hl hv, CalculateTotalAmount_exact bc1 a _ hb1 hv1]
  congr 1
  simp only [received_append, received_cons, sent_append, sent_cons, if_pos her, if_pos hes]
  ring

theorem selfTransfer_chain (L : Lib) (now : Int) (fuel : Nat) (now1 : Int) (bc : BlockChain)
    (h : runCalls L (NewBlockChain L now "M") (selfTransferCalls fuel now1) = .ok bc) :
    ∃ n, bc.Chain = [NewBlock now 0 (Block.zero.Hash L) .nil,
      NewBlock now1 n ((NewBlock now 0 (Block.zero.Hash L) .nil).Hash L)
        (.mk [NewTransaction "X" "a" (Float32.ofInt 1),
          NewTransaction "a" "a" (Float32.ofInt 16777216), rewardTransaction "M"])] := by
  simp only [selfTransferCalls, runCalls, Call.run] at h
  cases hm : Mining L fuel now1 (AddTransaction (AddTransaction (NewBlockChain L now "M")
      "X" "a" (Float32.ofInt 1)) "a" "a" (Float32.ofInt 16777216)) with
  | error e => simp [hm] at h
  | ok r =>
    simp only [hm, Except.ok.injEq] at h
    obtain ⟨last, nonce, hl, _, hr⟩ := (Mining_ok_iff L fuel now1 _ r).1 hm
    have hlast : last = NewBlock now 0 (Block.zero.Hash L) .nil := by
      have : (AddTransaction (AddTransaction (NewBlockChain L now "M")
        "X" "a" (Float32.ofInt 1)) "a" "a" (Float32.ofInt 16777216)).Chain.getLast?
          = some (NewBlock now 0 (Block.zero.Hash L) .nil) := rfl
      rw [this] at hl
      exact (Option.some.inj hl).symm
    subst hr h hlast
    exact ⟨nonce, rfl⟩

theorem digitByte_val (k : Nat) (hk : k < 10) : (digitByte k).val = 48 + k := by
  interval_cases k <;> rfl

theorem toDigitsCore_eq (fuel n : Nat) (ds : List Char) (h0 : 0 < n) (hf : n < fuel) :
    Nat.toDigitsCore 10 fuel n ds = (Nat.digits 10 n).reverse.map Nat.digitChar ++ ds := by
  induction fuel generalizing n ds with
  | zero => omega
  | succ fuel ih =>
    rw [Nat.toDigitsCore, Nat.digits_def' (by norm_num) h0]
    by_cases h : n / 10 = 0
    · rw [if_pos h, h]; simp
    · rw [if_neg h, ih (n / 10) _ (by omega) (by omega)]
      simp

theorem toDigits_eq (n : Nat) :
    Nat.toDigits 10 n = if n = 0 then ['0'] else (Nat.digits 10 n).reverse.map Nat.digitChar := by
  by_cases h : n = 0
  · subst h; rfl
  · rw [if_neg h, Nat.toDigits, toDigitsCore_eq (n + 1) n [] (by omega) (by omega)]
    simp

theorem jsonInt_ofNat (n : Nat) : jsonInt (n : Int) = natBytes n := by
  have h : toString (n : Int) = (Nat.toDigits 10 n).asString := rfl
  unfold jsonInt ascii natBytes
  rw [h, toDigits_eq]
  by_cases hn : n = 0
  · subst hn; rfl
  · rw [if_neg hn, if_neg hn]
    simp [List.asString, digitByte, List.map_map, Function.comp]

theorem jsonInt_negSucc (m : Nat) : jsonInt (Int.negSucc m) = 45 :: natBytes (m + 1) := by
  have h : toString (Int.negSucc m) = "-" ++ (Nat.toDigits 10 (m + 1)).asString := rfl
  rw [← jsonInt_ofNat]
  have h2 : toString ((m + 1 : Nat) : Int) = (Nat.toDigits 10 (m + 1)).asString := rfl
  unfold jsonInt ascii
  rw [h, h2]
  simp [List.asString]
  rfl

theorem natBytes_digit (n : Nat) : ∀ x ∈ natBytes n, 48 ≤ x.val ∧ x.val ≤ 57 := by
  intro x hx
  unfold natBytes at hx
  by_cases hn : n = 0
  · rw [if_pos hn] at hx
    simp only [List.mem_singleton] at hx
    subst hx; decide
  · rw [if_neg hn] at hx
    simp only [List.mem_map, List.mem_reverse] at hx
    obtain ⟨k, hk, rfl⟩ := hx
    have hlt : k < 10 := Nat.digits_lt_base (by norm_num) hk
    rw [digitByte_val k hlt]
    omega

theorem natBytes_ne_nil (n : Nat) : natBytes n ≠ [] := by
  unfold natBytes
  by_cases hn : n = 0
  · rw [if_pos hn]; simp
  · rw [if_neg hn]
    simp [Nat.digits_ne_nil_iff_ne_zero.2 hn]

theorem digits_of_bytes (l : List Nat) (hl : ∀ k ∈ l, k < 10) :
    (l.map digitByte).map (fun x => x.val - 48) = l := by
  rw [List.map_map]
  conv_rhs => rw [← List.map_id l]
  apply List.map_congr_left
  intro k hk
  simp only [Function.comp, digitByte_val k (hl k hk), id]
  omega

theorem natBytes_injective (n m : Nat) (h : natBytes n = natBytes m) : n = m := by
  have key : ∀ a b : Nat, a = 0 → b ≠ 0 → natBytes a ≠ natBytes b := by
    intro a b ha hb hab
    unfold natBytes at hab
    rw [if_pos ha, if_neg hb] at hab
    have h1 := congrArg (List.map (fun x : Byte => x.val - 48)) hab
    rw [digits_of_bytes _ (fun k hk => Nat.digits_lt_base (by norm_num)
      (List.mem_reverse.1 hk))] at h1
    have h2 : Nat.digits 10 b = [0] := by
      have := congrArg List.reverse h1
      simpa using this.symm
    have h3 := Nat.getLast_digit_ne_zero 10 hb
    simp [h2] at h3
  by_cases hn : n = 0
  · by_cases hm : m = 0
    · rw [hn, hm]
    · exact absurd h (key n m hn hm)
  · by_cases hm : m = 0
    · exact absurd h.symm (key m n hm hn)
    · unfold natBytes at h
      rw [if_neg hn, if_neg hm] at h
      have h1 := congrArg (List.map (fun x : Byte => x.val - 48)) h
      rw [digits_of_bytes _ (fun k hk => Nat.digits_lt_base (by norm_num)
        (List.mem_reverse.1 hk)),
        digits_of_bytes _ (fun k hk => Nat.digits_lt_base (by norm_num)
        (List.mem_reverse.1 hk))] at h1
      exact Nat.digits_inj_iff.1 (List.reverse_injective h1)

theorem jsonInt_injective (a b : Int) (h : jsonInt a = jsonInt b) : a = b := by
  cases a with
  | ofNat n =>
    cases b with
    | ofNat m =>
      rw [Int.ofNat_eq_coe, Int.ofNat_eq_coe, jsonInt_ofNat, jsonInt_ofNat] at h
      rw [natBytes_injective n m h]
    | negSucc m =>
      rw [Int.ofNat_eq_coe, jsonInt_ofNat, jsonInt_negSucc] at h
      have := natBytes_digit n 45 (by rw [h]; simp)
      omega
  | negSucc n =>
    cases b with
    | ofNat m =>
      rw [Int.ofNat_eq_coe, jsonInt_ofNat, jsonInt_negSucc] at h
      have := natBytes_digit m 45 (by rw [← h]; simp)
      omega
    | negSucc m =>
      rw [jsonInt_negSucc, jsonInt_negSucc] at h
      have := natBytes_injective _ _ (List.cons.inj h).2
      have e : n = m := by omega
      rw [e]

theorem jsonInt_bytes (z : Int) : ∀ x ∈ jsonInt z, x.val = 45 ∨ (48 ≤ x.val ∧ x.val ≤ 57) := by
  intro x hx
  cases z with
  | ofNat n =>
    rw [Int.ofNat_eq_coe, jsonInt_ofNat] at hx
    exact Or.inr (natBytes_digit n x hx)
  | negSucc n =>
    rw [jsonInt_negSucc, List.mem_cons] at hx
    rcases hx with rfl | hx
    · left; rfl
    · exact Or.inr (natBytes_digit _ x hx)

theorem split_at_sep {α : Type} (c : α) (l1 l2 r1 r2 : List α) (h1 : c ∉ l1) (h2 : c ∉ l2)
    (h : l1 ++ c :: r1 = l2 ++ c :: r2) : l1 = l2 ∧ r1 = r2 := by
  induction l1 generalizing l2 with
  | nil =>
    cases l2 with
    | nil => exact ⟨rfl, (List.cons.inj h).2⟩
    | cons y l2 =>
      have := (List.cons.inj h).1
      subst this
      simp at h2
  | cons x l1 ih =>
    cases l2 with
    | nil =>
      have := (List.cons.inj h).1
      subst this
      simp at h1
    | cons y l2 =>
      have hh := List.cons.inj h
      obtain ⟨e1, e2⟩ := ih l2 (fun hc => h1 (List.mem_cons_of_mem _ hc))
        (fun hc => h2 (List.mem_cons_of_mem _ hc)) hh.2
      exact ⟨by rw [hh.1, e1], e2⟩

theorem Hash_eq_sha256_hashInput (L : Lib) (b : Block) :
    b.Hash L = L.sha256 (b.hashInput L) := by
  unfold Block.Hash Block.hashInput
  cases b.MarshalJSON L <;> rfl

theorem MarshalJSON_eq_none_iff (L : Lib) (b : Block) :
    b.MarshalJSON L = none ↔ b.supported = false := by
  unfold Block.MarshalJSON Block.supported
  by_cases h : b.Transactions.toList.any (fun t => jsonUnsupported t.Value) = true
  · rw [if_pos h, h]; simp
  · rw [if_neg h]
    simp only [Bool.not_eq_true] at h
    rw [h]; simp

theorem canonicalTransaction_eq (L : Lib) (t : Transaction) :
    Transaction.json L t = canonicalTransaction L t := by
  unfold Transaction.json canonicalTransaction jsonObject
  simp only [List.map_cons, List.map_nil, List.intercalate, List.intersperse, List.flatten,
    List.append_assoc, List.append_nil]
  rfl

theorem MarshalJSON_supported (L : Lib) (b : Block) (h : b.supported = true) :
    b.MarshalJSON L = some (canonicalSerialization L b) := by
  have hm : ¬ (b.Transactions.toList.any (fun t => jsonUnsupported t.Value) = true) := by
    unfold Block.supported at h
    simpa using h
  unfold Block.MarshalJSON
  rw [if_neg hm]
  congr 1
  have ht : jsonTransactions L b.Transactions
      = (match b.Transactions with
        | .nil => ascii "null"
        | .mk l => jsonArray (l.map (canonicalTransaction L))) := by
    cases b.Transactions with
    | nil => rfl
    | mk l =>
      simp only [jsonTransactions]
      congr 1
      exact List.map_congr_left (fun t _ => canonicalTransaction_eq L t)
  rw [ht]
  unfold canonicalSerialization jsonObject
  simp only [List.map_cons, List.map_nil, List.intercalate, List.intersperse, List.flatten,
    List.append_assoc, List.append_nil]
  rfl

theorem sep_not_mem_jsonInt (z : Int) : (44 : Byte) ∉ jsonInt z ∧ (93 : Byte) ∉ jsonInt z := by
  constructor
  · intro h
    have := jsonInt_bytes z 44 h
    have e : ((44 : Byte)).val = 44 := rfl
    omega
  · intro h
    have := jsonInt_bytes z 93 h
    have e : ((93 : Byte)).val = 93 := rfl
    omega

theorem intercalate_cons_cons (x y : List Byte) (zs : List (List Byte)) :
    List.intercalate [44] (x :: y :: zs) = x ++ 44 :: List.intercalate [44] (y :: zs) := by
  simp [List.intercalate, List.intersperse]

theorem intercalate_singleton (x : List Byte) : List.intercalate [44] [x] = x := by
  simp [List.intercalate, List.intersperse]

theorem array_parse (l1 l2 : List Int) (r1 r2 : List Byte) (hlen : l1.length = l2.length)
    (h : List.intercalate [44] (l1.map jsonInt) ++ 93 :: r1
      = List.intercalate [44] (l2.map jsonInt) ++ 93 :: r2) :
    l1 = l2 ∧ r1 = r2 := by
  induction l1 generalizing l2 with
  | nil =>
    cases l2 with
    | nil => exact ⟨rfl, by simpa [List.intercalate] using h⟩
    | cons y l2 => simp at hlen
  | cons x l1 ih =>
    cases l2 with
    | nil => simp at hlen
    | cons y l2 =>
      have hlen1 : l1.length = l2.length := by simpa using hlen
      cases l1 with
      | nil =>
        cases l2 with
        | nil =>
          simp only [List.map_cons, List.map_nil, intercalate_singleton] at h
          obtain ⟨e1, e2⟩ := split_at_sep 93 _ _ _ _ (sep_not_mem_jsonInt x).2
            (sep_not_mem_jsonInt y).2 h
          exact ⟨by rw [jsonInt_injective x y e1], e2⟩
        | cons y1 l2 => simp at hlen1
      | cons x1 l1 =>
        cases l2 with
        | nil => simp at hlen1
        | cons y1 l2 =>
          simp only [List.map_cons, intercalate_cons_cons, List.append_assoc,
            List.cons_append] at h
          obtain ⟨e1, e2⟩ := split_at_sep 44 _ _ _ _ (sep_not_mem_jsonInt x).1
            (sep_not_mem_jsonInt y).1 h
          have e3 := ih (y1 :: l2) hlen1 (by simpa only [List.map_cons] using e2)
          exact ⟨by rw [jsonInt_injective x y e1, e3.1], e3.2⟩

theorem Digest_ext (h1 h2 : Digest)
    (h : h1.val.map (fun x => (x.val : Int)) = h2.val.map (fun x => (x.val : Int))) :
    h1 = h2 := by
  apply Subtype.ext
  have hinj : Function.Injective (fun x : Byte => (x.val : Int)) := by
    intro a b hab
    simp only [Nat.cast_inj] at hab
    exact Fin.ext hab
  exact List.map_injective_iff.2 hinj h

theorem MarshalJSON_injective (L : Lib) (b1 b2 : Block) (m : List Byte)
    (h1 : b1.MarshalJSON L = some m) (h2 : b2.MarshalJSON L = some m) :
    b1.Timestamp = b2.Timestamp ∧ b1.Nonce = b2.Nonce ∧ b1.PreviousHash = b2.PreviousHash ∧
      jsonTransactions L b1.Transactions = jsonTransactions L b2.Transactions := by
  unfold Block.MarshalJSON at h1 h2
  split at h1
  · simp at h1
  split at h2
  · simp at h2
  rw [← h2] at h1
  have h := Option.some.inj h1
  simp only [List.append_assoc] at h
  have h := List.append_cancel_left h
  have eN : ∀ r : List Byte, ascii ",\"Nonce\":" ++ r = 44 :: (ascii "\"Nonce\":" ++ r) :=
    fun _ => rfl
  have eP : ∀ r : List Byte,
      ascii ",\"PreviousHash\":" ++ r = 44 :: (ascii "\"PreviousHash\":" ++ r) := fun _ => rfl
  rw [eN, eN] at h
  obtain ⟨t1, h⟩ := split_at_sep 44 _ _ _ _ (sep_not_mem_jsonInt _).1
    (sep_not_mem_jsonInt _).1 h
  have h := List.append_cancel_left h
  rw [eP, eP] at h
  obtain ⟨n1, h⟩ := split_at_sep 44 _ _ _ _ (sep_not_mem_jsonInt _).1
    (sep_not_mem_jsonInt _).1 h
  have h := List.append_cancel_left h
  have eA : ∀ (items : List (List Byte)) (r : List Byte),
      jsonArray items ++ r = 91 :: (List.intercalate [44] items ++ 93 :: r) := by
    intro items r
    simp only [jsonArray, List.append_assoc]
    rfl
  rw [eA, eA] at h
  have h := (List.cons.inj h).2
  have hm : ∀ d : Digest, d.val.map (fun x => jsonInt x.val)
      = (d.val.map (fun x => (x.val : Int))).map jsonInt := by
    intro d; rw [List.map_map]; rfl
  rw [hm, hm] at h
  obtain ⟨p1, h⟩ := array_parse _ _ _ _
    (by simp [b1.PreviousHash.property, b2.PreviousHash.property]) h
  have h := List.append_cancel_left h
  have h := List.append_cancel_right h
  exact ⟨jsonInt_injective _ _ t1, jsonInt_injective _ _ n1, Digest_ext _ _ p1, h⟩

theorem Hash_unsupported (L : Lib) (b : Block) (h : b.supported = false) :
    b.hashInput L = [] ∧ b.Hash L = L.sha256 [] := by
  have hm := (MarshalJSON_eq_none_iff L b).2 h
  unfold Block.hashInput Block.Hash
  rw [hm]
  exact ⟨rfl, rfl⟩

theorem hashInput_supported (L : Lib) (b : Block) (h : b.supported = true) :
    b.hashInput L = canonicalSerialization L b ∧
      b.Hash L = L.sha256 (canonicalSerialization L b) := by
  have hm := MarshalJSON_supported L b h
  unfold Block.hashInput Block.Hash
  rw [hm]
  exact ⟨rfl, rfl⟩

theorem canonicalSerialization_injective (L : Lib) (b1 b2 : Block)
    (h1 : b1.supported = true) (h2 : b2.supported = true)
    (h : canonicalSerialization L b1 = canonicalSerialization L b2) :
    b1.Timestamp = b2.Timestamp ∧ b1.Nonce = b2.Nonce ∧ b1.PreviousHash = b2.PreviousHash ∧
      jsonTransactions L b1.Transactions = jsonTransactions L b2.Transactions :=
  MarshalJSON_injective L b1 b2 (canonicalSerialization L b1) (MarshalJSON_supported L b1 h1)
    (by rw [h]; exact MarshalJSON_supported L b2 h2)

theorem MarshalJSON_eq_none_iff_exists (L : Lib) (b : Block) :
    b.MarshalJSON L = none ↔
      ∃ t ∈ b.Transactions.toList, t.Value.isNaN = true ∨ t.Value.isInf = true := by
  rw [MarshalJSON_eq_none_iff]
  unfold Block.supported jsonUnsupported
  simp

theorem ValidProof_unsupported (L : Lib) (n m : Int) (previousHash : Digest)
    (transactions : Slice Transaction) (d : Int)
    (h : transactions.toList.any (fun t => jsonUnsupported t.Value) = true) :
    ValidProof L n previousHash transactions d = ValidProof L m previousHash transactions d := by
  have e : ∀ k : Int, (Block.mk k previousHash 0 transactions).Hash L = L.sha256 [] := by
    intro k
    exact (Hash_unsupported L _ (by simp [Block.supported, h])).2
  unfold ValidProof
  simp only [e]

/-- For every mining round that returns, the appended block is the candidate
that satisfied the difficulty check with the clock reading as its timestamp
instead of 0. When the clock reading is 0 the two blocks have one digest. When
it is not 0 and no transaction carries a NaN or an infinity, the byte sequences
that `Hash` digests for the two blocks are different, and each `Hash` is the
digest of its sequence. -/
theorem Mining_sealed_hashInput (L : Lib) (fuel : Nat) (now : Int) (bc : BlockChain)
    (r : Bool × BlockChain) (h : Mining L fuel now bc = .ok r) :
    ∃ b, r.2.Chain = bc.Chain ++ [b] ∧
      ValidProof L b.Nonce b.PreviousHash b.Transactions MINING_DIFFICULTY = .ok true ∧
      b = { candidate b.Nonce b.PreviousHash b.Transactions with Timestamp := now } ∧
      (now = 0 → b.Hash L = (candidate b.Nonce b.PreviousHash b.Transactions).Hash L) ∧
      (now ≠ 0 → b.supported = true →
        b.hashInput L ≠ (candidate b.Nonce b.PreviousHash b.Transactions).hashInput L ∧
        b.Hash L = L.sha256 (b.hashInput L) ∧
        (candidate b.Nonce b.PreviousHash b.Transactions).Hash L
          = L.sha256 ((candidate b.Nonce b.PreviousHash b.Transactions).hashInput L)) := by
  obtain ⟨last, nonce, hl, hp, hr⟩ := (Mining_ok_iff L fuel now bc r).1 h
  have hl1 : LastBlock (AddTransaction bc MINING_SENDER bc.BlockChainAddress MINING_REWARD)
      = .ok last := by simp [LastBlock, AddTransaction, hl]
  unfold ProofOfWork at hp
  simp only [hl1] at hp
  have hv := loop_ok_valid L _ _ fuel 0 nonce hp
  rw [CopyTransactionPool_eq] at hv
  subst hr
  refine ⟨_, rfl, hv, rfl, ?_, ?_⟩
  · intro h0
    subst h0
    rfl
  · intro hne hs
    refine ⟨?_, Hash_eq_sha256_hashInput L _, Hash_eq_sha256_hashInput L _⟩
    intro heq
    have hs2 : (candidate nonce (last.Hash L)
        (.mk (bc.TransactionPool.toList ++
          [NewTransaction MINING_SENDER bc.BlockChainAddress MINING_REWARD]))).supported
        = true := hs
    have heq2 : (NewBlock now nonce (last.Hash L)
        (.mk (bc.TransactionPool.toList ++
          [NewTransaction MINING_SENDER bc.BlockChainAddress MINING_REWARD]))).hashInput L
        = (candidate nonce (last.Hash L)
        (.mk (bc.TransactionPool.toList ++
          [NewTransaction MINING_SENDER bc.BlockChainAddress MINING_REWARD]))).hashInput L := heq
    rw [(hashInput_supported L _ hs).1, (hashInput_supported L _ hs2).1] at heq2
    exact hne (canonicalSerialization_injective L _ _ hs hs2 heq2).1

theorem runeWidth_pos (s : GoString) (n : Nat) (h : runeWidth s = some n) : 1 ≤ n := by
  unfold runeWidth at h
  repeat' (split at h)
  all_goals cases h
  all_goals omega

theorem piecesAux_bytes (fuel : Nat) (s : GoString) (hf : s.length ≤ fuel)
    (hv : (piecesAux fuel s).all (fun p => p != Piece.invalid) = true) :
    (piecesAux fuel s).flatMap Piece.bytes = s := by
  induction fuel generalizing s with
  | zero =>
    have : s = [] := List.length_eq_zero.1 (Nat.le_zero.1 hf)
    subst this
    rfl
  | succ fuel ih =>
    cases s with
    | nil => rfl
    | cons b s =>
      cases hw : runeWidth (b :: s) with
      | none =>
        simp [piecesAux, hw] at hv
      | some n =>
        have hn := runeWidth_pos _ _ hw
        simp only [piecesAux, hw, List.all_cons, Bool.and_eq_true] at hv
        have hl : ((b :: s).drop n).length ≤ fuel := by
          rw [List.length_drop]
          simp only [List.length_cons] at hf ⊢
          omega
        simp only [piecesAux, hw, List.flatMap_cons, Piece.bytes]
        rw [ih _ hl hv.2]
        exact List.take_append_drop n (b :: s)

theorem pieces_injective (s t : GoString) (hs : validUTF8 s = true) (ht : validUTF8 t = true)
    (h : pieces s = pieces t) : s = t := by
  have e1 := piecesAux_bytes s.length s (Nat.le_refl _) hs
  have e2 := piecesAux_bytes t.length t (Nat.le_refl _) ht
  have h1 : piecesAux s.length s = piecesAux t.length t := h
  rw [← e1, ← e2, h1]

theorem raw_transaction_parse (L : Raw.Lib) (hL : L.Faithful) (t1 t2 : Raw.Transaction)
    (x y : List Byte) (w1 : t1.Value.wf = true) (w2 : t2.Value.wf = true)
    (u1 : jsonUnsupported t1.Value = false) (u2 : jsonUnsupported t2.Value = false)
    (h : Raw.Transaction.json L t1 ++ x = Raw.Transaction.json L t2 ++ y) :
    t1.read = t2.read ∧ x = y := by
  unfold Raw.Transaction.json at h
  simp only [List.append_assoc] at h
  have h := List.append_cancel_left h
  obtain ⟨e1, h⟩ := hL.string_parse _ _ _ _ h
  have h := List.append_cancel_left h
  obtain ⟨e2, h⟩ := hL.string_parse _ _ _ _ h
  have h := List.append_cancel_left h
  have eB : ∀ r : List Byte, ascii "\x7d" ++ r = 125 :: r := fun _ => rfl
  rw [eB, eB] at h
  obtain ⟨e3, e4⟩ := split_at_sep 125 _ _ _ _ (hL.float_closed _ u1) (hL.float_closed _ u2) h
  have e5 := hL.float_injective _ _ w1 w2 u1 u2 e3
  refine ⟨?_, e4⟩
  unfold Raw.Transaction.read
  rw [e1, e2, e5]

theorem raw_json_head (L : Raw.Lib) (t : Raw.Transaction) :
    ∃ r, Raw.Transaction.json L t = 123 :: r := by
  unfold Raw.Transaction.json
  simp only [List.append_assoc]
  exact ⟨_, rfl⟩

theorem raw_items_head (L : Raw.Lib) (t : Raw.Transaction) (l : List Raw.Transaction)
    (r : List Byte) :
    ∃ r0, List.intercalate [44] ((t :: l).map (Raw.Transaction.json L)) ++ r = 123 :: r0 := by
  obtain ⟨r1, e⟩ := raw_json_head L t
  cases l with
  | nil =>
    simp only [List.map_cons, List.map_nil, intercalate_singleton, e]
    exact ⟨_, rfl⟩
  | cons u l =>
    simp only [List.map_cons, intercalate_cons_cons, e]
    exact ⟨_, rfl⟩

theorem raw_items_parse (L : Raw.Lib) (hL : L.Faithful) (l1 l2 : List Raw.Transaction)
    (r1 r2 : List Byte)
    (g1 : ∀ t ∈ l1, t.Value.wf = true ∧ jsonUnsupported t.Value = false)
    (g2 : ∀ t ∈ l2, t.Value.wf = true ∧ jsonUnsupported t.Value = false)
    (h : List.intercalate [44] (l1.map (Raw.Transaction.json L)) ++ 93 :: r1
      = List.intercalate [44] (l2.map (Raw.Transaction.json L)) ++ 93 :: r2) :
    l1.map Raw.Transaction.read = l2.map Raw.Transaction.read ∧ r1 = r2 := by
  induction l1 generalizing l2 with
  | nil =>
    cases l2 with
    | nil => exact ⟨rfl, by simpa [List.intercalate] using h⟩
    | cons t2 l2 =>
      obtain ⟨r0, e⟩ := raw_items_head L t2 l2 (93 :: r2)
      rw [e] at h
      simp [List.intercalate] at h
  | cons t1 l1 ih =>
    cases l2 with
    | nil =>
      obtain ⟨r0, e⟩ := raw_items_head L t1 l1 (93 :: r1)
      rw [e] at h
      simp [List.intercalate] at h
    | cons t2 l2 =>
      have a1 := g1 t1 (List.mem_cons_self _ _)
      have a2 := g2 t2 (List.mem_cons_self _ _)
      have k1 : ∀ t ∈ l1, t.Value.wf = true ∧ jsonUnsupported t.Value = false :=
        fun t ht => g1 t (List.mem_cons_of_mem _ ht)
      have k2 : ∀ t ∈ l2, t.Value.wf = true ∧ jsonUnsupported t.Value = false :=
        fun t ht => g2 t (List.mem_cons_of_mem _ ht)
      cases l1 with
      | nil =>
        cases l2 with
        | nil =>
          simp only [List.map_cons, List.map_nil, intercalate_singleton] at h
          obtain ⟨e1, e2⟩ := raw_transaction_parse L hL t1 t2 _ _ a1.1 a2.1 a1.2 a2.2 h
          exact ⟨by simp only [List.map_cons, List.map_nil, e1], (List.cons.inj e2).2⟩
        | cons u2 l2 =>
          simp only [List.map_cons, List.map_nil, intercalate_singleton, intercalate_cons_cons,
            List.append_assoc, List.cons_append] at h
          obtain ⟨_, e2⟩ := raw_transaction_parse L hL t1 t2 _ _ a1.1 a2.1 a1.2 a2.2 h
          have := (List.cons.inj e2).1
          exact absurd this (by decide)
      | cons u1 l1 =>
        cases l2 with
        | nil =>
          simp only [List.map_cons, List.map_nil, intercalate_singleton, intercalate_cons_cons,
            List.append_assoc, List.cons_append] at h
          obtain ⟨_, e2⟩ := raw_transaction_parse L hL t1 t2 _ _ a1.1 a2.1 a1.2 a2.2 h
          have := (List.cons.inj e2).1
          exact absurd this (by decide)
        | cons u2 l2 =>
          simp only [List.map_cons, intercalate_cons_cons, List.append_assoc,
            List.cons_append] at h
          obtain ⟨e1, e2⟩ := raw_transaction_parse L hL t1 t2 _ _ a1.1 a2.1 a1.2 a2.2 h
          have e3 := ih (u2 :: l2) k1 k2 (by simpa only [List.map_cons] using (List.cons.inj e2).2)
          refine ⟨?_, e3.2⟩
          have e4 := e3.1
          simp only [List.map_cons] at e4 ⊢
          rw [e1, e4]

theorem raw_jsonTransactions_parse (L : Raw.Lib) (hL : L.Faithful)
    (s1 s2 : Slice Raw.Transaction)
    (g1 : ∀ t ∈ s1.toList, t.Value.wf = true ∧ jsonUnsupported t.Value = false)
    (g2 : ∀ t ∈ s2.toList, t.Value.wf = true ∧ jsonUnsupported t.Value = false)
    (h : Raw.jsonTransactions L s1 = Raw.jsonTransactions L s2) :
    s1.map Raw.Transaction.read = s2.map Raw.Transaction.read := by
  have eA : ∀ items : List (List Byte),
      jsonArray items = 91 :: (List.intercalate [44] items ++ 93 :: []) := by
    intro items
    simp only [jsonArray, List.append_assoc]
    rfl
  have eN : ascii "null" = 110 :: ascii "ull" := rfl
  cases s1 with
  | nil =>
    cases s2 with
    | nil => rfl
    | mk l2 =>
      simp only [Raw.jsonTransactions, eA, eN] at h
      exact absurd (List.cons.inj h).1 (by decide)
  | mk l1 =>
    cases s2 with
    | nil =>
      simp only [Raw.jsonTransactions, eA, eN] at h
      exact absurd (List.cons.inj h).1 (by decide)
    | mk l2 =>
      simp only [Raw.jsonTransactions, eA] at h
      have e := (raw_items_parse L hL l1 l2 [] [] g1 g2 (List.cons.inj h).2).1
      simp only [Slice.map, e]

theorem raw_MarshalJSON_injective (L : Raw.Lib) (b1 b2 : Raw.Block) (m : List Byte)
    (h1 : b1.MarshalJSON L = some m) (h2 : b2.MarshalJSON L = some m) :
    b1.Timestamp = b2.Timestamp ∧ b1.Nonce = b2.Nonce ∧ b1.PreviousHash = b2.PreviousHash ∧
      Raw.jsonTransactions L b1.Transactions = Raw.jsonTransactions L b2.Transactions := by
  unfold Raw.Block.MarshalJSON at h1 h2
  split at h1
  · simp at h1
  split at h2
  · simp at h2
  rw [← h2] at h1
  have h := Option.some.inj h1
  simp only [List.append_assoc] at h
  have h := List.append_cancel_left h
  have eN : ∀ r : List Byte, ascii ",\"Nonce\":" ++ r = 44 :: (ascii "\"Nonce\":" ++ r) :=
    fun _ => rfl
  have eP : ∀ r : List Byte,
      ascii ",\"PreviousHash\":" ++ r = 44 :: (ascii "\"PreviousHash\":" ++ r) := fun _ => rfl
  rw [eN, eN] at h
  obtain ⟨t1, h⟩ := split_at_sep 44 _ _ _ _ (sep_not_mem_jsonInt _).1
    (sep_not_mem_jsonInt _).1 h
  have h := List.append_cancel_left h
  rw [eP, eP] at h
  obtain ⟨n1, h⟩ := split_at_sep 44 _ _ _ _ (sep_not_mem_jsonInt _).1
    (sep_not_mem_jsonInt _).1 h
  have h := List.append_cancel_left h
  have eA : ∀ (items : List (List Byte)) (r : List Byte),
      jsonArray items ++ r = 91 :: (List.intercalate [44] items ++ 93 :: r) := by
    intro items r
    simp only [jsonArray, List.append_assoc]
    rfl
  rw [eA, eA] at h
  have h := (List.cons.inj h).2
  have hm : ∀ d : Digest, d.val.map (fun x => jsonInt x.val)
      = (d.val.map (fun x => (x.val : Int))).map jsonInt := by
    intro d; rw [List.map_map]; rfl
  rw [hm, hm] at h
  obtain ⟨p1, h⟩ := array_parse _ _ _ _
    (by simp [b1.PreviousHash.property, b2.PreviousHash.property]) h
  have h := List.append_cancel_left h
  have h := List.append_cancel_right h
  exact ⟨jsonInt_injective _ _ t1, jsonInt_injective _ _ n1, Digest_ext _ _ p1, h⟩

theorem raw_MarshalJSON_some (L : Raw.Lib) (b : Raw.Block) (h : b.supported = true) :
    ∃ m, b.MarshalJSON L = some m ∧ b.Hash L = L.sha256 m := by
  have hm : ¬ (b.Transactions.toList.any (fun t => jsonUnsupported t.Value) = true) := by
    unfold Raw.Block.supported at h
    simpa using h
  unfold Raw.Block.Hash Raw.Block.MarshalJSON
  rw [if_neg hm]
  exact ⟨_, rfl, rfl⟩

theorem raw_Hash_unsupported (L : Raw.Lib) (b : Raw.Block) (h : b.supported = false) :
    b.MarshalJSON L = none ∧ b.Hash L = L.sha256 [] := by
  have hm : b.Transactions.toList.any (fun t => jsonUnsupported t.Value) = true := by
    unfold Raw.Block.supported at h
    simpa using h
  unfold Raw.Block.Hash Raw.Block.MarshalJSON
  rw [if_pos hm]
  exact ⟨rfl, rfl⟩

theorem raw_values_of_flags (b : Raw.Block) (s : b.supported = true) (w : b.wellFormed = true) :
    ∀ t ∈ b.Transactions.toList, t.Value.wf = true ∧ jsonUnsupported t.Value = false := by
  intro t ht
  unfold Raw.Block.supported at s
  unfold Raw.Block.wellFormed at w
  simp only [Bool.not_eq_true', List.any_eq_false, Bool.not_eq_true] at s
  exact ⟨List.all_eq_true.1 w t ht, s t ht⟩

theorem raw_serialization_read (L : Raw.Lib) (hL : L.Faithful) (b1 b2 : Raw.Block)
    (m : List Byte) (s1 : b1.supported = true) (s2 : b2.supported = true)
    (w1 : b1.wellFormed = true) (w2 : b2.wellFormed = true)
    (h1 : b1.MarshalJSON L = some m) (h2 : b2.MarshalJSON L = some m) : b1.read = b2.read := by
  obtain ⟨e1, e2, e3, e4⟩ := raw_MarshalJSON_injective L b1 b2 m h1 h2
  have e5 := raw_jsonTransactions_parse L hL _ _ (raw_values_of_flags b1 s1 w1)
    (raw_values_of_flags b2 s2 w2) e4
  unfold Raw.Block.read
  rw [e1, e2, e3, e5]

theorem raw_json_of_read (L : Raw.Lib) (t : Raw.Transaction) :
    Raw.Transaction.json L t
      = (fun r : List Piece × List Piece × Float32 =>
          ascii "\x7b\"SenderBlockChainAddress\":" ++ L.jsonString r.1 ++
          ascii ",\"RecipientBlockChainAddress\":" ++ L.jsonString r.2.1 ++
          ascii ",\"Value\":" ++ L.jsonFloat32 r.2.2 ++ ascii "\x7d") t.read := rfl

theorem raw_read_serialization (L : Raw.Lib) (b1 b2 : Raw.Block) (h : b1.read = b2.read) :
    b1.MarshalJSON L = b2.MarshalJSON L := by
  obtain ⟨n1, p1, t1, s1⟩ := b1
  obtain ⟨n2, p2, t2, s2⟩ := b2
  simp only [Raw.Block.read, Prod.mk.injEq] at h
  obtain ⟨e1, e2, e3, e4⟩ := h
  subst e1 e2 e3
  have key : Raw.jsonTransactions L s1 = Raw.jsonTransactions L s2 ∧
      s1.toList.any (fun t => jsonUnsupported t.Value)
        = s2.toList.any (fun t => jsonUnsupported t.Value) := by
    cases s1 with
    | nil =>
      cases s2 with
      | nil => exact ⟨rfl, rfl⟩
      | mk l2 => simp [Slice.map] at e4
    | mk l1 =>
      cases s2 with
      | nil => simp [Slice.map] at e4
      | mk l2 =>
        have e5 : l1.map Raw.Transaction.read = l2.map Raw.Transaction.read := by
          simpa [Slice.map] using e4
        constructor
        · simp only [Raw.jsonTransactions]
          congr 1
          have a : ∀ l : List Raw.Transaction, l.map (Raw.Transaction.json L)
              = (l.map Raw.Transaction.read).map
                (fun r : List Piece × List Piece × Float32 =>
                  ascii "\x7b\"SenderBlockChainAddress\":" ++ L.jsonString r.1 ++
                  ascii ",\"RecipientBlockChainAddress\":" ++ L.jsonString r.2.1 ++
                  ascii ",\"Value\":" ++ L.jsonFloat32 r.2.2 ++ ascii "\x7d") := by
            intro l
            rw [List.map_map]
            rfl
          rw [a l1, a l2, e5]
        · have a : ∀ l : List Raw.Transaction,
              l.any (fun t => jsonUnsupported t.Value)
                = (l.map Raw.Transaction.read).any (fun r => jsonUnsupported r.2.2) := by
            intro l
            induction l with
            | nil => rfl
            | cons t l ih => simp only [List.any_cons, List.map_cons, ih]; rfl
          simp only [Slice.toList]
          rw [a l1, a l2, e5]
  unfold Raw.Block.MarshalJSON
  simp only [key.1, key.2]

theorem raw_read_injective (b1 b2 : Raw.Block) (v1 : b1.validAddresses = true)
    (v2 : b2.validAddresses = true) (h : b1.read = b2.read) : b1 = b2 := by
  obtain ⟨n1, p1, t1, s1⟩ := b1
  obtain ⟨n2, p2, t2, s2⟩ := b2
  simp only [Raw.Block.read, Prod.mk.injEq] at h
  obtain ⟨e1, e2, e3, e4⟩ := h
  subst e1 e2 e3
  have lists : ∀ l1 l2 : List Raw.Transaction,
      (∀ t ∈ l1, validUTF8 t.SenderBlockChainAddress = true ∧
        validUTF8 t.RecipientBlockChainAddress = true) →
      (∀ t ∈ l2, validUTF8 t.SenderBlockChainAddress = true ∧
        validUTF8 t.RecipientBlockChainAddress = true) →
      l1.map Raw.Transaction.read = l2.map Raw.Transaction.read → l1 = l2 := by
    intro l1
    induction l1 with
    | nil =>
      intro l2 _ _ e
      cases l2 with
      | nil => rfl
      | cons t l2 => simp at e
    | cons t l1 ih =>
      intro l2 a1 a2 e
      cases l2 with
      | nil => simp at e
      | cons u l2 =>
        simp only [List.map_cons, List.cons.injEq] at e
        have c1 := a1 t (List.mem_cons_self _ _)
        have c2 := a2 u (List.mem_cons_self _ _)
        have et : t = u := by
          obtain ⟨ts, tr, tv⟩ := t
          obtain ⟨us, ur, uv⟩ := u
          have e0 := e.1
          simp only [Raw.Transaction.read, Prod.mk.injEq] at e0
          rw [pieces_injective ts us c1.1 c2.1 e0.1, pieces_injective tr ur c1.2 c2.2 e0.2.1,
            e0.2.2]
        rw [et, ih l2 (fun x hx => a1 x (List.mem_cons_of_mem _ hx))
          (fun x hx => a2 x (List.mem_cons_of_mem _ hx)) e.2]
  have g : ∀ s : Slice Raw.Transaction,
      (Raw.Block.mk n1 p1 t1 s).validAddresses = true →
      ∀ t ∈ s.toList, validUTF8 t.SenderBlockChainAddress = true ∧
        validUTF8 t.RecipientBlockChainAddress = true := by
    intro s hs t ht
    unfold Raw.Block.validAddresses at hs
    have := List.all_eq_true.1 hs t ht
    simpa using this
  have es : s1 = s2 := by
    cases s1 with
    | nil =>
      cases s2 with
      | nil => rfl
      | mk l2 => simp [Slice.map] at e4
    | mk l1 =>
      cases s2 with
      | nil => simp [Slice.map] at e4
      | mk l2 =>
        have e5 : l1.map Raw.Transaction.read = l2.map Raw.Transaction.read := by
          simpa [Slice.map] using e4
        rw [lists l1 l2 (g _ v1) (g _ v2) e5]
  rw [es]

theorem Hash_raw (L : Raw.Lib) (b : Block) :
    b.raw.MarshalJSON L = b.MarshalJSON L.onStrings ∧ b.raw.Hash L = b.Hash L.onStrings := by
  have e1 : b.raw.Transactions.toList.any (fun t => jsonUnsupported t.Value)
      = b.Transactions.toList.any (fun t => jsonUnsupported t.Value) := by
    have a : ∀ l : List Transaction,
        (l.map Transaction.raw).any (fun t => jsonUnsupported t.Value)
          = l.any (fun t => jsonUnsupported t.Value) := by
      intro l
      induction l with
      | nil => rfl
      | cons t l ih => simp only [List.any_cons, List.map_cons, ih]; rfl
    unfold Block.raw
    cases b.Transactions with
    | nil => rfl
    | mk l => exact a l
  have e2 : Raw.jsonTransactions L b.raw.Transactions
      = jsonTransactions L.onStrings b.Transactions := by
    unfold Block.raw
    cases b.Transactions with
    | nil => rfl
    | mk l =>
      simp only [Slice.map, Raw.jsonTransactions, jsonTransactions, List.map_map]
      rfl
  have e3 : b.raw.MarshalJSON L = b.MarshalJSON L.onStrings := by
    unfold Raw.Block.MarshalJSON Block.MarshalJSON
    rw [e1, e2]
    rfl
  refine ⟨e3, ?_⟩
  unfold Raw.Block.Hash Block.Hash
  rw [e3]
  rfl

theorem raw_digest_collision (L : Raw.Lib) :
    ∃ p q : Bool × Digest, p ≠ q ∧ (Raw.plainBlock p).Hash L = (Raw.plainBlock q).Hash L := by
  apply Fintype.exists_ne_map_eq_of_card_lt (fun p => (Raw.plainBlock p).Hash L)
  rw [Fintype.card_prod, Fintype.card_bool]
  have : 0 < Fintype.card Digest := Fintype.card_pos_iff.2 ⟨Digest.zero⟩
  omega

theorem plainBytes_parse (bs cs r1 r2 : List Byte)
    (h : Raw.plainBytes bs ++ r1 = Raw.plainBytes cs ++ r2) : bs = cs ∧ r1 = r2 := by
  induction bs generalizing cs with
  | nil =>
    cases cs with
    | nil => exact ⟨rfl, (List.cons.inj h).2⟩
    | cons c cs => exact absurd (List.cons.inj h).1 (by decide)
  | cons b bs ih =>
    cases cs with
    | nil => exact absurd (List.cons.inj h).1 (by decide)
    | cons c cs =>
      have h2 := List.cons.inj (List.cons.inj h).2
      obtain ⟨e1, e2⟩ := ih cs h2.2
      exact ⟨by rw [h2.1, e1], e2⟩

theorem plainPieces_parse (ps qs : List Piece) (r1 r2 : List Byte)
    (h : Raw.plainPieces ps ++ r1 = Raw.plainPieces qs ++ r2) : ps = qs ∧ r1 = r2 := by
  induction ps generalizing qs with
  | nil =>
    cases qs with
    | nil => exact ⟨rfl, (List.cons.inj h).2⟩
    | cons q qs => cases q <;> exact absurd (List.cons.inj h).1 (by decide)
  | cons p ps ih =>
    cases qs with
    | nil => cases p <;> exact absurd (List.cons.inj h).1 (by decide)
    | cons q qs =>
      cases p with
      | invalid =>
        cases q with
        | invalid =>
          obtain ⟨e1, e2⟩ := ih qs (List.cons.inj h).2
          exact ⟨by rw [e1], e2⟩
        | rune cs => exact absurd (List.cons.inj h).1 (by decide)
      | rune bs =>
        cases q with
        | invalid => exact absurd (List.cons.inj h).1 (by decide)
        | rune cs =>
          have h2 : (Raw.plainBytes bs ++ Raw.plainPieces ps) ++ r1
              = (Raw.plainBytes cs ++ Raw.plainPieces qs) ++ r2 := (List.cons.inj h).2
          rw [List.append_assoc, List.append_assoc] at h2
          obtain ⟨e1, e2⟩ := plainBytes_parse bs cs _ _ h2
          obtain ⟨e3, e4⟩ := ih qs e2
          exact ⟨by rw [e1, e3], e4⟩

theorem plainFloat_bytes (v : Float32) (x : Byte) (hx : x ∈ Raw.plainFloat v) :
    x.val = 45 ∨ (48 ≤ x.val ∧ x.val ≤ 57) := by
  cases v with
  | nan => simp [Raw.plainFloat] at hx
  | inf a => simp [Raw.plainFloat] at hx
  | finite a m =>
    simp only [Raw.plainFloat, List.mem_append] at hx
    rcases hx with hx | hx
    · cases a
      · simp at hx
      · simp only [if_true, List.mem_singleton] at hx
        left; rw [hx]; rfl
    · exact Or.inr (natBytes_digit _ x hx)

theorem plainLib_faithful : Raw.plainLib.Faithful := by
  refine ⟨fun s t x y h => ?_, fun v w _ _ uv uw h => ?_, fun v _ hx => ?_⟩
  · have h2 : Raw.plainPieces (pieces s) ++ x = Raw.plainPieces (pieces t) ++ y :=
      (List.cons.inj h).2
    exact plainPieces_parse _ _ _ _ h2
  · cases v with
    | nan => simp [jsonUnsupported, Float32.isNaN] at uv
    | inf a => simp [jsonUnsupported, Float32.isNaN, Float32.isInf] at uv
    | finite a m =>
      cases w with
      | nan => simp [jsonUnsupported, Float32.isNaN] at uw
      | inf b => simp [jsonUnsupported, Float32.isNaN, Float32.isInf] at uw
      | finite b n =>
        have h1 : (if a = true then [(45 : Byte)] else []) ++ natBytes m
            = (if b = true then [(45 : Byte)] else []) ++ natBytes n := h
        have hd : ∀ k : Nat, ∀ r : List Byte, natBytes k ≠ 45 :: r := by
          intro k r hk
          have := natBytes_digit k 45 (by rw [hk]; exact List.mem_cons_self _ _)
          have e : ((45 : Byte)).val = 45 := rfl
          omega
        cases a <;> cases b
        · simp only [Bool.false_eq_true, if_false, List.nil_append] at h1
          rw [natBytes_injective m n h1]
        · simp only [Bool.false_eq_true, if_false, if_true, List.nil_append,
            List.singleton_append] at h1
          exact absurd h1 (hd m _)
        · simp only [Bool.false_eq_true, if_false, if_true, List.nil_append,
            List.singleton_append] at h1
          exact absurd h1.symm (hd n _)
        · simp only [if_true, List.singleton_append, List.cons.injEq, true_and] at h1
          rw [natBytes_injective m n h1]
  · have := plainFloat_bytes v 125 hx
    have e : ((125 : Byte)).val = 125 := rfl
    omega

/-! ## The claims -/

/-- C1 (chain linkage): on every ledger that a finite sequence of
`AddTransaction` and `Mining` calls leaves when applied to
`NewBlockChain(address)`, whatever the clock readings, every block after the
first carries the digest of the block before it:
`Chain[i+1].PreviousHash = Hash(Chain[i])`. -/
theorem chain_linkage (L : Lib) (now : Int) (address : String) (calls : List Call)
    (bc : BlockChain) (h : runCalls L (NewBlockChain L now address) calls = .ok bc) :
    ∀ (i : Nat) (hi : i + 1 < bc.Chain.length),
      bc.Chain[i + 1].PreviousHash = bc.Chain[i].Hash L := by
  have hl := runCalls_linked L calls (NewBlockChain L now address) bc
    (by simp [NewBlockChain, CreateBlock]) h
  rw [List.chain'_iff_get] at hl
  intro i hi
  exact hl i (by omega)

set_option maxRecDepth 10000 in
/-- Witness of C1: one submission and one mining round on a fresh ledger. -/
theorem chain_linkage_witness :
    runCalls toyLib (NewBlockChain toyLib 5 "M") demoCalls
      = .ok (ledgerAfter toyLib 5 "M" demoCalls) ∧
    (ledgerAfter toyLib 5 "M" demoCalls).Chain.length = 2 ∧
    ∀ (i : Nat) (hi : i + 1 < (ledgerAfter toyLib 5 "M" demoCalls).Chain.length),
      (ledgerAfter toyLib 5 "M" demoCalls).Chain[i + 1].PreviousHash
      = (ledgerAfter toyLib 5 "M" demoCalls).Chain[i].Hash toyLib :=
  ⟨by decide, by decide,
    chain_linkage toyLib 5 "M" demoCalls (ledgerAfter toyLib 5 "M" demoCalls) (by decide)⟩

/-- C2 (the search returns the first accepted nonce): whenever `ProofOfWork`
returns `n` on a ledger, the chain has a last block, `ValidProof` accepts `n`
for the digest of that block, the copy of the pool and `MINING_DIFFICULTY`, and
it rejects every `m` with `0 ≤ m < n`. -/
theorem ProofOfWork_first_accepted (L : Lib) (fuel : Nat) (bc : BlockChain) (n : Int)
    (h : ProofOfWork L fuel bc = .ok n) :
    ∃ last, LastBlock bc = .ok last ∧
      ValidProof L n (last.Hash L) (CopyTransactionPool bc) MINING_DIFFICULTY = .ok true ∧
      ∀ m : Int, 0 ≤ m → m < n →
        ValidProof L m (last.Hash L) (CopyTransactionPool bc) MINING_DIFFICULTY = .ok false := by
  unfold ProofOfWork at h
  cases hl : LastBlock bc with
  | error e => simp [hl] at h
  | ok last =>
    simp only [hl] at h
    exact ⟨last, rfl, loop_ok_valid L _ _ fuel 0 n h,
      loop_ok_smaller L _ _ fuel 0 n (le_refl 0) (by norm_num) h⟩

set_option maxRecDepth 10000 in
/-- Witness of C2: on the fresh ledger with one pending transaction the search
returns 4, after rejecting 0, 1, 2 and 3. -/
theorem ProofOfWork_first_accepted_witness :
    ProofOfWork toyLib 9 (AddTransaction (NewBlockChain toyLib 5 "M") "A" "B" (Float32.ofInt 1))
      = .ok 4 ∧
    ∃ last, LastBlock (AddTransaction (NewBlockChain toyLib 5 "M") "A" "B" (Float32.ofInt 1))
        = .ok last ∧
      ValidProof toyLib 4 (last.Hash toyLib)
        (CopyTransactionPool (AddTransaction (NewBlockChain toyLib 5 "M") "A" "B" (Float32.ofInt 1)))
        MINING_DIFFICULTY = .ok true ∧
      ∀ m : Int, 0 ≤ m → m < 4 →
        ValidProof toyLib m (last.Hash toyLib)
          (CopyTransactionPool
            (AddTransaction (NewBlockChain toyLib 5 "M") "A" "B" (Float32.ofInt 1)))
          MINING_DIFFICULTY = .ok false :=
  ⟨by decide,
    ProofOfWork_first_accepted toyLib 9
      (AddTransaction (NewBlockChain toyLib 5 "M") "A" "B" (Float32.ofInt 1)) 4 (by decide)⟩

/-- C3 (`ValidProof` is the stated predicate): for a difficulty `d` with
`0 ≤ d ≤ 64`, `ValidProof(nonce, previousHash, transactions, d)` returns without
a panic; the hexadecimal rendering of the digest of the candidate block (the
block with these fields and timestamp 0) has 64 characters; the result is true
exactly when the first `d` of them are `'0'`, which is exactly when the first
`d` nibbles of the digest, high nibble first, are zero. -/
theorem ValidProof_spec (L : Lib) (nonce : Int) (previousHash : Digest)
    (transactions : Slice Transaction) (d : Int) (h0 : 0 ≤ d) (h1 : d ≤ 64) :
    ∃ r, ValidProof L nonce previousHash transactions d = .ok r ∧
      (hexString ((candidate nonce previousHash transactions).Hash L)).length = 64 ∧
      (r = true ↔ ∀ i : Nat, (i : Int) < d →
        (hexString ((candidate nonce previousHash transactions).Hash L))[i]? = some '0') ∧
      (r = true ↔ ∀ i : Nat, (i : Int) < d →
        (nibbles ((candidate nonce previousHash transactions).Hash L))[i]? = some 0) := by
  have hlen := hexString_length ((candidate nonce previousHash transactions).Hash L)
  have hd : d.toNat ≤ (hexString ((candidate nonce previousHash transactions).Hash L)).length := by
    rw [hlen]; omega
  have key := take_eq_replicate_iff '0' _ d.toNat hd
  have hlt : ∀ i : Nat, (i : Int) < d ↔ i < d.toNat := by intro i; omega
  refine ⟨decide ((hexString ((candidate nonce previousHash transactions).Hash L)).take d.toNat
    = List.replicate d.toNat '0'), ?_, hlen, ?_, ?_⟩
  · unfold ValidProof
    rw [if_neg (by omega)]
    simp only [candidate] at hd ⊢
    rw [if_neg (by omega)]
  · rw [decide_eq_true_iff, key]
    exact forall_congr' fun i => by rw [hlt]
  · rw [decide_eq_true_iff, key]
    exact forall_congr' fun i => by rw [hlt, hexString_getElem?_zero]

set_option maxRecDepth 10000 in
/-- Witness of C3: difficulty 2 on a candidate over the empty slice. -/
theorem ValidProof_spec_witness :
    ∃ r, ValidProof toyLib 1 Digest.zero (.mk []) 2 = .ok r ∧
      (hexString ((candidate 1 Digest.zero (.mk [])).Hash toyLib)).length = 64 ∧
      (r = true ↔ ∀ i : Nat, (i : Int) < 2 →
        (hexString ((candidate 1 Digest.zero (.mk [])).Hash toyLib))[i]? = some '0') ∧
      (r = true ↔ ∀ i : Nat, (i : Int) < 2 →
        (nibbles ((candidate 1 Digest.zero (.mk [])).Hash toyLib))[i]? = some 0) :=
  ValidProof_spec toyLib 1 Digest.zero (.mk []) 2 (by decide) (by decide)

/-- C4 (mining postcondition): whenever `Mining` returns on a ledger with chain
`c`, pool `p` and address `M`, it returns true; `c` has a last block; the new
chain is `c` followed by exactly one block `b`; `b.PreviousHash` is the digest
of the last block of `c`; the transactions of `b` are `p` followed by the
reward transaction (`MINING_SENDER`, `M`, `MINING_REWARD`); the pool afterwards
is empty. Moreover `b` carries the nonce the search returned and the clock
reading, and the address is unchanged. -/
theorem Mining_postcondition (L : Lib) (fuel : Nat) (now : Int) (bc : BlockChain)
    (r : Bool × BlockChain) (h : Mining L fuel now bc = .ok r) :
    r.1 = true ∧
    ∃ last b, bc.Chain.getLast? = some last ∧
      r.2.Chain = bc.Chain ++ [b] ∧
      b.PreviousHash = last.Hash L ∧
      b.Transactions
        = .mk (bc.TransactionPool.toList ++ [rewardTransaction bc.BlockChainAddress]) ∧
      r.2.TransactionPool = .mk [] ∧
      ProofOfWork L fuel (AddTransaction bc MINING_SENDER bc.BlockChainAddress MINING_REWARD)
        = .ok b.Nonce ∧
      b.Timestamp = now ∧
      r.2.BlockChainAddress = bc.BlockChainAddress := by
  obtain ⟨last, nonce, hl, hp, hr⟩ := (Mining_ok_iff L fuel now bc r).1 h
  subst hr
  exact ⟨rfl, last, _, hl, rfl, rfl, rfl, rfl, hp, rfl, rfl⟩

set_option maxRecDepth 10000 in
/-- Witness of C4: a mining round on the fresh ledger with one pending
transaction returns. -/
theorem Mining_postcondition_witness :
    Mining toyLib 9 7 (AddTransaction (NewBlockChain toyLib 5 "M") "A" "B" (Float32.ofInt 1))
      = .ok (true, ledgerAfter toyLib 5 "M" demoCalls) ∧
    ∃ last b, (AddTransaction (NewBlockChain toyLib 5 "M") "A" "B"
        (Float32.ofInt 1)).Chain.getLast? = some last ∧
      (ledgerAfter toyLib 5 "M" demoCalls).Chain
        = (AddTransaction (NewBlockChain toyLib 5 "M") "A" "B" (Float32.ofInt 1)).Chain ++ [b] ∧
      b.PreviousHash = last.Hash toyLib ∧
      b.Transactions = .mk [NewTransaction "A" "B" (Float32.ofInt 1), rewardTransaction "M"] ∧
      (ledgerAfter toyLib 5 "M" demoCalls).TransactionPool = .mk [] :=
  ⟨by decide,
    let ⟨_, last, b, h1, h2, h3, h4, h5, _⟩ := Mining_postcondition toyLib 9 7
      (AddTransaction (NewBlockChain toyLib 5 "M") "A" "B" (Float32.ofInt 1))
      (true, ledgerAfter toyLib 5 "M" demoCalls) (by decide)
    ⟨last, b, h1, h2, h3, h4, h5⟩⟩

/-- C6 (genesis construction): for every address `s` and clock reading,
`NewBlockChain(s)` has address `s`, an empty pool, and a chain of exactly one
block, whose nonce is 0, whose transaction list is empty and whose
`PreviousHash` is the digest of the zero-valued `Block`. -/
theorem NewBlockChain_genesis (L : Lib) (now : Int) (s : String) :
    (NewBlockChain L now s).BlockChainAddress = s ∧
    (NewBlockChain L now s).TransactionPool.toList = [] ∧
    (NewBlockChain L now s).Chain.length = 1 ∧
    ∃ g, (NewBlockChain L now s).Chain = [g] ∧ g.Nonce = 0 ∧ g.Transactions.toList = [] ∧
      g.PreviousHash = Block.zero.Hash L :=
  ⟨rfl, rfl, rfl, _, rfl, rfl, rfl, rfl⟩

/-- C9 (seal operation): for every ledger with chain `c` and pool `p`, every
nonce `n` and previous hash `h`, `CreateBlock(n, h)` returns a block with nonce
`n`, previous hash `h` and transaction list `p`; the chain afterwards is `c`
followed by that block, the pool afterwards is empty and the address is
unchanged. -/
theorem CreateBlock_postcondition (now : Int) (bc : BlockChain) (n : Int) (h : Digest) :
    (CreateBlock now bc n h).1.Nonce = n ∧
    (CreateBlock now bc n h).1.PreviousHash = h ∧
    (CreateBlock now bc n h).1.Transactions = bc.TransactionPool ∧
    (CreateBlock now bc n h).2.Chain = bc.Chain ++ [(CreateBlock now bc n h).1] ∧
    (CreateBlock now bc n h).2.TransactionPool.toList = [] ∧
    (CreateBlock now bc n h).2.BlockChainAddress = bc.BlockChainAddress :=
  ⟨rfl, rfl, rfl, rfl, rfl, rfl⟩

/-- C10 (submit operation): for every ledger and every sender, recipient and
value, with no condition on them, `AddTransaction` returns; the pool afterwards
is the pool before followed by exactly one transaction carrying these three
values; the chain and the address are unchanged. -/
theorem AddTransaction_postcondition (bc : BlockChain) (sender recipient : String)
    (value : Float32) :
    (AddTransaction bc sender recipient value).TransactionPool.toList
      = bc.TransactionPool.toList ++
        [{ SenderBlockChainAddress := sender, RecipientBlockChainAddress := recipient,
           Value := value }] ∧
    (AddTransaction bc sender recipient value).Chain = bc.Chain ∧
    (AddTransaction bc sender recipient value).BlockChainAddress = bc.BlockChainAddress :=
  ⟨rfl, rfl, rfl⟩

set_option maxRecDepth 20000 in
/-- C5 fails as stated: on every ledger that the four submissions
`X→a 16777216`, `X→a 1`, `a→Y 16777216`, `X→a 1` and one mining round leave on
`NewBlockChain("M")` (whatever the digest function, the clock and the nonce),
`CalculateTotalAmount("a")` is 1, while the sum received minus the sum sent is 0
when the two sums are float32 sums and 2 when they are exact; the submitted
values are float32 numbers, and such a ledger exists. -/
theorem balance_reference_counterexample :
    (∀ (L : Lib) (now : Int) (fuel : Nat) (now1 : Int) (bc : BlockChain),
      runCalls L (NewBlockChain L now "M") (roundingCalls fuel now1) = .ok bc →
      CalculateTotalAmount bc "a" = Float32.ofInt 1 ∧
      balanceReference (sealedTransactions bc) "a" = Float32.ofInt 0 ∧
      exactBalance (sealedTransactions bc) "a" = (Float32.ofInt 2).exact ∧
      CalculateTotalAmount bc "a" ≠ balanceReference (sealedTransactions bc) "a" ∧
      (CalculateTotalAmount bc "a").exact ≠ exactBalance (sealedTransactions bc) "a") ∧
    (∀ t ∈ submittedTransactions (roundingCalls 9 7), t.Value.wf = true) ∧
    runCalls toyLib (NewBlockChain toyLib 5 "M") (roundingCalls 9 7)
      = .ok (ledgerAfter toyLib 5 "M" (roundingCalls 9 7)) := by
  refine ⟨fun L now fuel now1 bc h => ?_, by decide, by decide⟩
  rw [rounding_balance L now fuel now1 bc h, rounding_sealed L now fuel now1 bc h]
  refine ⟨rfl, by decide, by decide, by decide, by decide⟩

/-- C5, amended: for every ledger and address `a`, `CalculateTotalAmount(a)` is
the float32 running total, from 0, over all transactions of all blocks in chain
order then block order, that adds the value when `a` is the recipient and then
subtracts it when `a` is the sender; the pool contributes nothing (the result is
the same whatever the pool holds; the query returns a value and has no ledger
to change); and when the sealed transactions carry integer amounts whose
absolute values sum to at most `2^24`, the result is exactly the sum received
minus the sum sent. -/
theorem CalculateTotalAmount_reference (bc : BlockChain) (a : String) :
    CalculateTotalAmount bc a = (sealedTransactions bc).foldl (balanceStep a) Float32.zero ∧
    (∀ pool : Slice Transaction,
      CalculateTotalAmount { bc with TransactionPool := pool } a = CalculateTotalAmount bc a) ∧
    (∀ l : List IntTransfer, sealedTransactions bc = l.map IntTransfer.toTransaction →
      volume l ≤ 2 ^ 24 →
      CalculateTotalAmount bc a = Float32.ofInt (received a l - sent a l)) := by
  exact ⟨CalculateTotalAmount_eq_walk bc a, fun _ => rfl,
    fun l hl hv => CalculateTotalAmount_exact bc a l hl hv⟩

set_option maxRecDepth 20000 in
/-- Witness of C5 as amended: the ledger after `A→B 1` and a mining round; the
balance of `"B"` is 1. -/
theorem CalculateTotalAmount_reference_witness :
    sealedTransactions (ledgerAfter toyLib 5 "M" demoCalls)
      = [IntTransfer.mk "A" "B" 1, IntTransfer.mk MINING_SENDER "M" 1].map
          IntTransfer.toTransaction ∧
    volume [IntTransfer.mk "A" "B" 1, IntTransfer.mk MINING_SENDER "M" 1] ≤ 2 ^ 24 ∧
    CalculateTotalAmount (ledgerAfter toyLib 5 "M" demoCalls) "B"
      = Float32.ofInt (received "B" [IntTransfer.mk "A" "B" 1, IntTransfer.mk MINING_SENDER "M" 1]
          - sent "B" [IntTransfer.mk "A" "B" 1, IntTransfer.mk MINING_SENDER "M" 1]) :=
  ⟨by decide, by decide,
    (CalculateTotalAmount_reference (ledgerAfter toyLib 5 "M" demoCalls) "B").2.2
      [IntTransfer.mk "A" "B" 1, IntTransfer.mk MINING_SENDER "M" 1] (by decide) (by decide)⟩

set_option maxRecDepth 20000 in
/-- C7 fails as stated: the calls `X→a 16777216`, `X→a 1`, `a→Y 16777216`,
`X→a 1`, `Mining` on `NewBlockChain("M")` end with a `Mining` call, and for the
address `"a"`, which is neither `MINING_SENDER` nor `"M"`,
`CalculateTotalAmount("a")` is 1 on every ledger they leave, while the submitted
amounts received minus the submitted amounts sent are 0 as float32 sums and 2
exactly; such a ledger exists. -/
theorem end_to_end_counterexample :
    (∀ (L : Lib) (now : Int) (fuel : Nat) (now1 : Int) (bc : BlockChain),
      runCalls L (NewBlockChain L now "M") (roundingCalls fuel now1) = .ok bc →
      (roundingCalls fuel now1).getLast? = some (.Mining fuel now1) ∧
      CalculateTotalAmount bc "a" = Float32.ofInt 1 ∧
      balanceReference (submittedTransactions (roundingCalls fuel now1)) "a"
        = Float32.ofInt 0 ∧
      exactBalance (submittedTransactions (roundingCalls fuel now1)) "a"
        = (Float32.ofInt 2).exact ∧
      CalculateTotalAmount bc "a"
        ≠ balanceReference (submittedTransactions (roundingCalls fuel now1)) "a" ∧
      (CalculateTotalAmount bc "a").exact
        ≠ exactBalance (submittedTransactions (roundingCalls fuel now1)) "a") ∧
    "a" ≠ MINING_SENDER ∧ "a" ≠ "M" ∧
    (∀ t ∈ submittedTransactions (roundingCalls 9 7), t.Value.wf = true) ∧
    runCalls toyLib (NewBlockChain toyLib 5 "M") (roundingCalls 9 7)
      = .ok (ledgerAfter toyLib 5 "M" (roundingCalls 9 7)) := by
  refine ⟨fun L now fuel now1 bc h => ?_, by decide, by decide, by decide, by decide⟩
  rw [rounding_balance L now fuel now1 bc h]
  have e : submittedTransactions (roundingCalls fuel now1)
      = [NewTransaction "X" "a" (Float32.ofInt 16777216),
         NewTransaction "X" "a" (Float32.ofInt 1),
         NewTransaction "a" "Y" (Float32.ofInt 16777216),
         NewTransaction "X" "a" (Float32.ofInt 1)] := rfl
  rw [e]
  refine ⟨rfl, rfl, by decide, by decide, by decide, by decide⟩

/-- C7, amended: for every finite sequence of `AddTransaction` and `Mining`
calls with integer amounts applied to `NewBlockChain(M)` that ends with a
`Mining` call and contains `k` `Mining` calls, when the absolute values of the
submitted amounts and `k` sum to at most `2^24`, and for every address `a` other
than `MINING_SENDER`, `CalculateTotalAmount(a)` is exactly the sum of the
submitted amounts with recipient `a` minus the sum of those with sender `a`,
plus `k` (that is `k * MINING_REWARD`) when `a = M`; the chain then has `k + 1`
blocks and the pool is empty. -/
theorem end_to_end_balances (L : Lib) (now : Int) (M : String) (calls pre : List IntCall)
    (fuel : Nat) (now1 : Int) (hend : calls = pre ++ [.Mining fuel now1]) (bc : BlockChain)
    (hrun : runCalls L (NewBlockChain L now M) (calls.map IntCall.toCall) = .ok bc)
    (hvol : volume (submitted calls) + miningCount calls ≤ 2 ^ 24)
    (a : String) (ha : a ≠ MINING_SENDER) :
    CalculateTotalAmount bc a
      = Float32.ofInt (received a (submitted calls) - sent a (submitted calls)
          + (if a = M then (miningCount calls : Int) else 0)) ∧
    bc.Chain.length = miningCount calls + 1 ∧
    bc.TransactionPool.toList = [] := by
  obtain ⟨_, _, hbal, hlen⟩ := balances_of_run L now M calls bc hrun hvol a
  obtain ⟨_, hpool, _, _⟩ := runCalls_replay L calls (NewBlockChain L now M) bc [] [] hrun rfl rfl
  have hM : (NewBlockChain L now M).BlockChainAddress = M := rfl
  have hnil : (replay M calls ([], [])).2 = [] := by
    rw [hend]; exact replay_ends_mining M pre fuel now1 _
  rw [hM, hnil] at hpool
  have hr := replay_additive (received a) rfl (received_append a) M calls [] []
  have hs := replay_additive (sent a) rfl (sent_append a) M calls [] []
  rw [hnil] at hr hs
  have e0 : received a ([] : List IntTransfer) = 0 := rfl
  have e1 : sent a ([] : List IntTransfer) = 0 := rfl
  have e2 : received a [rewardTransfer M] = if a = M then 1 else 0 := by
    by_cases h : a = M
    · subst h; simp [received, rewardTransfer]
    · have h1 : ¬ M = a := fun e => h e.symm
      simp [received, rewardTransfer, h, h1]
  have e3 : sent a [rewardTransfer M] = 0 := by
    have h1 : ¬ MINING_SENDER = a := fun e => ha e.symm
    simp [sent, rewardTransfer, h1]
  rw [e0, e2, add_zero, zero_add, zero_add] at hr
  rw [e1, e3, add_zero, zero_add, zero_add, smul_zero, add_zero] at hs
  refine ⟨?_, hlen, hpool⟩
  rw [hbal, hr, hs]
  congr 1
  by_cases h : a = M
  · rw [if_pos h, if_pos h]; simp only [smul_eq_mul, mul_one, nsmul_eq_mul]; ring
  · rw [if_neg h, if_neg h]; simp

set_option maxRecDepth 20000 in
/-- Witness of C7 as amended, the scenario of the specification: on the ledger
of `"M"`, after `A→B 1`, mine, `C→D 2`, `A→B 9`, mine, the chain has 3 blocks
and the balances are `M = 2`, `A = -10`, `B = 10`, `C = -2`, `D = 2`. -/
theorem end_to_end_balances_witness :
    runCalls toyLib (NewBlockChain toyLib 5 "M") (scenarioCalls.map IntCall.toCall)
      = .ok (ledgerAfter toyLib 5 "M" (scenarioCalls.map IntCall.toCall)) ∧
    (ledgerAfter toyLib 5 "M" (scenarioCalls.map IntCall.toCall)).Chain.length = 3 ∧
    CalculateTotalAmount (ledgerAfter toyLib 5 "M" (scenarioCalls.map IntCall.toCall)) "M"
      = Float32.ofInt 2 ∧
    CalculateTotalAmount (ledgerAfter toyLib 5 "M" (scenarioCalls.map IntCall.toCall)) "A"
      = Float32.ofInt (-10) ∧
    CalculateTotalAmount (ledgerAfter toyLib 5 "M" (scenarioCalls.map IntCall.toCall)) "B"
      = Float32.ofInt 10 ∧
    CalculateTotalAmount (ledgerAfter toyLib 5 "M" (scenarioCalls.map IntCall.toCall)) "C"
      = Float32.ofInt (-2) ∧
    CalculateTotalAmount (ledgerAfter toyLib 5 "M" (scenarioCalls.map IntCall.toCall)) "D"
      = Float32.ofInt 2 :=
  have key := end_to_end_balances toyLib 5 "M" scenarioCalls
    [.AddTransaction ⟨"A", "B", 1⟩, .Mining 9 7, .AddTransaction ⟨"C", "D", 2⟩,
     .AddTransaction ⟨"A", "B", 9⟩] 9 11 rfl
    (ledgerAfter toyLib 5 "M" (scenarioCalls.map IntCall.toCall)) (by decide) (by decide)
  ⟨by decide, (key "M" (by decide)).2.1,
    (key "M" (by decide)).1.trans (by decide), (key "A" (by decide)).1.trans (by decide),
    (key "B" (by decide)).1.trans (by decide), (key "C" (by decide)).1.trans (by decide),
    (key "D" (by decide)).1.trans (by decide)⟩

set_option maxRecDepth 20000 in
/-- C8 fails as stated: on every ledger that one `Mining` call leaves on
`NewBlockChain("M")` the addresses that appear in sealed transactions are
`MINING_SENDER` and `"M"`, their balances are -1 and 1, and the sum of the
balances over them is 0 (in either order, and exactly), not the one reward
issued; such a ledger exists. -/
theorem balance_conservation_counterexample :
    (∀ (L : Lib) (now : Int) (fuel : Nat) (now1 : Int) (bc : BlockChain),
      runCalls L (NewBlockChain L now "M") [.Mining fuel now1] = .ok bc →
      addresses bc = [MINING_SENDER, "M"] ∧
      CalculateTotalAmount bc MINING_SENDER = Float32.ofInt (-1) ∧
      CalculateTotalAmount bc "M" = Float32.ofInt 1 ∧
      sumBalances bc (addresses bc) = Float32.ofInt 0 ∧
      sumBalances bc ["M", MINING_SENDER] = Float32.ofInt 0 ∧
      sumBalances bc (addresses bc) ≠ MINING_REWARD ∧
      (sumBalances bc (addresses bc)).exact ≠ MINING_REWARD.exact) ∧
    runCalls toyLib (NewBlockChain toyLib 5 "M") [.Mining 9 7]
      = .ok (ledgerAfter toyLib 5 "M" [.Mining 9 7]) := by
  refine ⟨fun L now fuel now1 bc h => ?_, by decide⟩
  obtain ⟨h1, h2, h3, h4, h5⟩ := mining_once_balances L now fuel now1 bc h
  refine ⟨h1, h2, h3, h4, h5, ?_, ?_⟩
  · rw [h4]; decide
  · rw [h4]; decide

/-- C8, amended: for every ledger obtained from `NewBlockChain(M)`, with `M`
other than `MINING_SENDER`, by `AddTransaction` and `Mining` calls with integer
amounts, none of which names `MINING_SENDER` as sender or recipient, when the
absolute values of the submitted amounts and the number `k` of `Mining` calls
sum to at most `2^24`, the sum of `CalculateTotalAmount(addr)` over every
address other than `MINING_SENDER` that appears as sender or recipient of a
sealed transaction is exactly `k`, the sum of the rewards issued (`k *
MINING_REWARD`). -/
theorem balance_conservation (L : Lib) (now : Int) (M : String) (calls : List IntCall)
    (bc : BlockChain)
    (hrun : runCalls L (NewBlockChain L now M) (calls.map IntCall.toCall) = .ok bc)
    (hM : M ≠ MINING_SENDER)
    (hsub : ∀ e ∈ submitted calls, e.sender ≠ MINING_SENDER ∧ e.recipient ≠ MINING_SENDER)
    (hvol : volume (submitted calls) + miningCount calls ≤ 2 ^ 24) :
    sumBalances bc ((addresses bc).filter (fun a => a ≠ MINING_SENDER))
      = Float32.ofInt (miningCount calls) := by
  have hS := (balances_of_run L now M calls bc hrun hvol M).1
  have hv := (balances_of_run L now M calls bc hrun hvol M).2.1
  have hbal : ∀ a, CalculateTotalAmount bc a
      = Float32.ofInt (received a (replay M calls ([], [])).1
          - sent a (replay M calls ([], [])).1) :=
    fun a => (balances_of_run L now M calls bc hrun hvol a).2.2.1
  have hnd : ((addresses bc).filter (fun a => a ≠ MINING_SENDER)).Nodup :=
    List.Nodup.filter _ (List.nodup_dedup _)
  have hMS : MINING_SENDER ∉ (addresses bc).filter (fun a => a ≠ MINING_SENDER) := by
    simp [List.mem_filter]
  have hmem := replay_mem M calls [] []
  have hnotsub : rewardTransfer M ∉ submitted calls := fun h => (hsub _ h).1 rfl
  -- every sealed transfer names addresses of the ledger
  have haddr : ∀ e ∈ (replay M calls ([], [])).1,
      e.sender ∈ addresses bc ∧ e.recipient ∈ addresses bc := by
    intro e he
    have ht : e.toTransaction ∈ sealedTransactions bc := by
      rw [hS]; exact List.mem_map_of_mem _ he
    constructor
    · unfold addresses
      rw [List.mem_dedup, List.mem_flatMap]
      exact ⟨_, ht, by simp [IntTransfer.toTransaction]⟩
    · unfold addresses
      rw [List.mem_dedup, List.mem_flatMap]
      exact ⟨_, ht, by simp [IntTransfer.toTransaction]⟩
  have hT : ∀ e ∈ (replay M calls ([], [])).1,
      (e = rewardTransfer M ∧ M ∈ (addresses bc).filter (fun a => a ≠ MINING_SENDER)) ∨
      (e.sender ∈ (addresses bc).filter (fun a => a ≠ MINING_SENDER) ∧
        e.recipient ∈ (addresses bc).filter (fun a => a ≠ MINING_SENDER)) := by
    intro e he
    rcases hmem.1 e he with h | h | h | h
    · simp at h
    · simp at h
    · right
      have := hsub e h
      simp only [List.mem_filter, ne_eq, decide_not, Bool.not_eq_true', decide_eq_false_iff_not]
      exact ⟨⟨(haddr e he).1, this.1⟩, ⟨(haddr e he).2, this.2⟩⟩
    · left
      refine ⟨h, ?_⟩
      have := (haddr e he).2
      rw [h] at this
      simp only [List.mem_filter, ne_eq, decide_not, Bool.not_eq_true', decide_eq_false_iff_not]
      exact ⟨this, hM⟩
  have hcount : (replay M calls ([], [])).1.count (rewardTransfer M) = miningCount calls := by
    have h := replay_additive (fun l : List IntTransfer => l.count (rewardTransfer M)) rfl
      (fun x y => List.count_append _ _ _) M calls [] []
    have h2 : (replay M calls ([], [])).2.count (rewardTransfer M) = 0 := by
      apply List.count_eq_zero_of_not_mem
      intro hin
      rcases hmem.2 _ hin with h | h
      · simp at h
      · exact hnotsub h
    have h3 : (submitted calls).count (rewardTransfer M) = 0 :=
      List.count_eq_zero_of_not_mem hnotsub
    simp only [h2, h3, List.count_nil, List.count_cons_self, smul_eq_mul, mul_one, add_zero,
      zero_add] at h
    exact h
  rw [sumBalances_exact bc _ hbal hv _ hnd, netOver_eq_count M _ hnd hMS _ hT, hcount]

set_option maxRecDepth 20000 in
/-- Witness of C8 as amended: in the scenario of the specification the
addresses other than `MINING_SENDER` are `C`, `D`, `A`, `B`, `M` and their
balances sum to 2, the two rewards. -/
theorem balance_conservation_witness :
    runCalls toyLib (NewBlockChain toyLib 5 "M") (scenarioCalls.map IntCall.toCall)
      = .ok (ledgerAfter toyLib 5 "M" (scenarioCalls.map IntCall.toCall)) ∧
    (addresses (ledgerAfter toyLib 5 "M" (scenarioCalls.map IntCall.toCall))).filter
      (fun a => a ≠ MINING_SENDER) = ["C", "D", "A", "B", "M"] ∧
    miningCount scenarioCalls = 2 ∧
    sumBalances (ledgerAfter toyLib 5 "M" (scenarioCalls.map IntCall.toCall))
      ((addresses (ledgerAfter toyLib 5 "M" (scenarioCalls.map IntCall.toCall))).filter
        (fun a => a ≠ MINING_SENDER)) = Float32.ofInt (miningCount scenarioCalls) :=
  ⟨by decide, by decide, by decide,
    balance_conservation toyLib 5 "M" scenarioCalls
      (ledgerAfter toyLib 5 "M" (scenarioCalls.map IntCall.toCall)) (by decide) (by decide)
      (by decide) (by decide)⟩

/-- C11 (the chain is never empty): on every ledger reached from
`NewBlockChain(address)` by `AddTransaction`, `Mining` and `CreateBlock` calls
(and the read-only operations), the chain has at least one block, its first
block is the genesis block created at construction, and `LastBlock` does not
index out of range: it returns the last block of the chain, which after
`CreateBlock` is the block just appended. -/
theorem chain_never_empty (L : Lib) (now : Int) (address : String) (ops : List Operation)
    (bc : BlockChain) (h : runOperations L (NewBlockChain L now address) ops = .ok bc) :
    1 ≤ bc.Chain.length ∧
    bc.Chain.head? = (NewBlockChain L now address).Chain.head? ∧
    bc.Chain.head? = some (NewBlock now 0 (Block.zero.Hash L) .nil) ∧
    (∃ b, LastBlock bc = .ok b ∧ bc.Chain.getLast? = some b) ∧
    (∀ (now1 : Int) (n : Int) (p : Digest),
      LastBlock (CreateBlock now1 bc n p).2 = .ok (CreateBlock now1 bc n p).1) := by
  obtain ⟨rest, hc⟩ := runOperations_head L ops (NewBlockChain L now address) bc
    (NewBlock now 0 (Block.zero.Hash L) .nil) [] rfl h
  refine ⟨by rw [hc]; simp, by rw [hc]; rfl, by rw [hc]; rfl, ?_, ?_⟩
  · cases hl : bc.Chain.getLast? with
    | none => rw [hc] at hl; simp at hl
    | some b => exact ⟨b, by simp [LastBlock, hl], rfl⟩
  · intro now1 n p
    simp [LastBlock, CreateBlock]

set_option maxRecDepth 20000 in
/-- Witness of C11: a session that uses every operation leaves three blocks. -/
theorem chain_never_empty_witness :
    runOperations toyLib (NewBlockChain toyLib 5 "M") demoOperations
      = .ok (ledgerAfterOperations toyLib 5 "M" demoOperations) ∧
    (ledgerAfterOperations toyLib 5 "M" demoOperations).Chain.length = 3 ∧
    1 ≤ (ledgerAfterOperations toyLib 5 "M" demoOperations).Chain.length ∧
    ∃ b, LastBlock (ledgerAfterOperations toyLib 5 "M" demoOperations) = .ok b ∧
      (ledgerAfterOperations toyLib 5 "M" demoOperations).Chain.getLast? = some b :=
  have key := chain_never_empty toyLib 5 "M" demoOperations
    (ledgerAfterOperations toyLib 5 "M" demoOperations) (by decide)
  ⟨by decide, by decide, key.1, key.2.2.2.1⟩

/-- C12 (the chain is append-only): for every operation (`AddTransaction`,
`CopyTransactionPool`, `ProofOfWork`, `CalculateTotalAmount`, `CreateBlock`,
`Mining`) that returns on a ledger, the chain before is a prefix of the chain
after, every block already in the chain is unchanged at its index, and the
length grows by one exactly when the operation is `CreateBlock` or `Mining`
and stays the same otherwise. -/
theorem chain_append_only (L : Lib) (op : Operation) (bc bc1 : BlockChain)
    (h : op.run L bc = .ok bc1) :
    bc.Chain <+: bc1.Chain ∧
    (∀ i : Nat, i < bc.Chain.length → bc1.Chain[i]? = bc.Chain[i]?) ∧
    bc.Chain.length ≤ bc1.Chain.length ∧
    bc1.Chain.length = bc.Chain.length + (if op.seals then 1 else 0) := by
  rcases Operation_run_chain L op bc bc1 h with ⟨hs, h2⟩ | ⟨hs, b, h2⟩
  · rw [h2, hs]
    exact ⟨List.prefix_refl _, fun _ _ => rfl, le_refl _, by simp⟩
  · rw [h2, hs]
    refine ⟨List.prefix_append _ _, fun i hi => ?_, by simp, by simp⟩
    exact List.getElem?_append_left hi

set_option maxRecDepth 20000 in
/-- Witness of C12: a mining round on the fresh ledger with one pending
transaction. -/
theorem chain_append_only_witness :
    (Operation.Mining 9 7).run toyLib
        (AddTransaction (NewBlockChain toyLib 5 "M") "A" "B" (Float32.ofInt 1))
      = .ok (ledgerAfter toyLib 5 "M" demoCalls) ∧
    (AddTransaction (NewBlockChain toyLib 5 "M") "A" "B" (Float32.ofInt 1)).Chain
      <+: (ledgerAfter toyLib 5 "M" demoCalls).Chain ∧
    (ledgerAfter toyLib 5 "M" demoCalls).Chain.length
      = (AddTransaction (NewBlockChain toyLib 5 "M") "A" "B" (Float32.ofInt 1)).Chain.length + 1 :=
  have key := chain_append_only toyLib (.Mining 9 7)
    (AddTransaction (NewBlockChain toyLib 5 "M") "A" "B" (Float32.ofInt 1))
    (ledgerAfter toyLib 5 "M" demoCalls) (by decide)
  ⟨by decide, key.1, key.2.2.2⟩

/-- C13 (the pool snapshot is a copy by value): for every ledger,
`CopyTransactionPool` returns a non-nil slice of the same length as the pool
whose `i`-th element has the sender, recipient and value of the `i`-th pool
transaction, and the ledger afterwards (pool, chain, address) is the ledger
before. -/
theorem CopyTransactionPool_snapshot (L : Lib) (bc : BlockChain) :
    (CopyTransactionPool bc).toList.length = bc.TransactionPool.toList.length ∧
    (∀ (i : Nat) (t : Transaction), bc.TransactionPool.toList[i]? = some t →
      ∃ c, (CopyTransactionPool bc).toList[i]? = some c ∧
        c.SenderBlockChainAddress = t.SenderBlockChainAddress ∧
        c.RecipientBlockChainAddress = t.RecipientBlockChainAddress ∧
        c.Value = t.Value) ∧
    (CopyTransactionPool bc).toList = bc.TransactionPool.toList ∧
    CopyTransactionPool bc ≠ .nil ∧
    Operation.CopyTransactionPool.run L bc = .ok bc := by
  rw [CopyTransactionPool_eq]
  exact ⟨rfl, fun i t ht => ⟨t, ht, rfl, rfl, rfl⟩, rfl, by simp, rfl⟩

/-- C16 (the sealed block carries a valid proof for its own content): whenever
`Mining` returns, the block `b` it appends satisfies
`ValidProof(b.Nonce, b.PreviousHash, b.Transactions, MINING_DIFFICULTY) = true`;
`b` is the candidate the search accepted with the clock reading in place of the
timestamp 0; its transactions are, by value, the snapshot the search ran over,
and its previous hash is the digest of the block that was last. -/
theorem sealed_block_valid (L : Lib) (fuel : Nat) (now : Int) (bc : BlockChain)
    (r : Bool × BlockChain) (h : Mining L fuel now bc = .ok r) :
    ∃ last b, bc.Chain.getLast? = some last ∧ r.2.Chain = bc.Chain ++ [b] ∧
      ValidProof L b.Nonce b.PreviousHash b.Transactions MINING_DIFFICULTY = .ok true ∧
      b = { candidate b.Nonce b.PreviousHash b.Transactions with Timestamp := now } ∧
      b.Transactions = CopyTransactionPool
        (AddTransaction bc MINING_SENDER bc.BlockChainAddress MINING_REWARD) ∧
      b.PreviousHash = last.Hash L := by
  obtain ⟨last, nonce, hl, hp, hr⟩ := (Mining_ok_iff L fuel now bc r).1 h
  subst hr
  refine ⟨last, _, hl, rfl, ?_, rfl, ?_, rfl⟩
  · unfold ProofOfWork at hp
    have hl1 : LastBlock (AddTransaction bc MINING_SENDER bc.BlockChainAddress MINING_REWARD)
        = .ok last := by simp [LastBlock, AddTransaction, hl]
    simp only [hl1] at hp
    have hv := loop_ok_valid L _ _ fuel 0 nonce hp
    rw [CopyTransactionPool_eq] at hv
    exact hv
  · rw [CopyTransactionPool_eq]; rfl

set_option maxRecDepth 20000 in
/-- Witness of C16: the mining round of the short session. -/
theorem sealed_block_valid_witness :
    Mining toyLib 9 7 (AddTransaction (NewBlockChain toyLib 5 "M") "A" "B" (Float32.ofInt 1))
      = .ok (true, ledgerAfter toyLib 5 "M" demoCalls) ∧
    ∃ b, (ledgerAfter toyLib 5 "M" demoCalls).Chain
        = (AddTransaction (NewBlockChain toyLib 5 "M") "A" "B" (Float32.ofInt 1)).Chain ++ [b] ∧
      ValidProof toyLib b.Nonce b.PreviousHash b.Transactions MINING_DIFFICULTY = .ok true :=
  ⟨by decide,
    let ⟨_, b, _, h2, h3, _⟩ := sealed_block_valid toyLib 9 7
      (AddTransaction (NewBlockChain toyLib 5 "M") "A" "B" (Float32.ofInt 1))
      (true, ledgerAfter toyLib 5 "M" demoCalls) (by decide)
    ⟨b, h2, h3⟩⟩

/-- C18 (the search terminates): on every ledger whose chain has a last block
(every reachable ledger has one) and for which `ValidProof` accepts some nonce
`n` with `0 ≤ n < 2^63` at `MINING_DIFFICULTY`, for the digest of the last block
and the pool, there is a least accepted nonce `n0 ≤ n`; `ProofOfWork` returns
`n0` as soon as it may test `n0 + 1` nonces and not before, so it tests exactly
`0, …, n0`; and when the ledger is the one `Mining` hands to the search (the
reward already appended to the pool), `Mining` returns, with true. -/
theorem ProofOfWork_terminates (L : Lib) (bc : BlockChain) (last : Block)
    (hl : bc.Chain.getLast? = some last) (n : Nat) (hn : (n : Int) < 2 ^ 63)
    (hv : ValidProof L n (last.Hash L) (CopyTransactionPool bc) MINING_DIFFICULTY = .ok true) :
    ∃ n0 : Nat, n0 ≤ n ∧
      ValidProof L n0 (last.Hash L) (CopyTransactionPool bc) MINING_DIFFICULTY = .ok true ∧
      (∀ m : Nat, m < n0 →
        ValidProof L m (last.Hash L) (CopyTransactionPool bc) MINING_DIFFICULTY = .ok false) ∧
      (∀ fuel : Nat, n0 < fuel → ProofOfWork L fuel bc = .ok (n0 : Int)) ∧
      (∀ fuel : Nat, fuel ≤ n0 → ProofOfWork L fuel bc = .error .fuelExhausted) ∧
      (∀ (bc0 : BlockChain) (now : Int) (fuel : Nat),
        bc = AddTransaction bc0 MINING_SENDER bc0.BlockChainAddress MINING_REWARD → n0 < fuel →
        ∃ bc1, Mining L fuel now bc0 = .ok (true, bc1)) := by
  obtain ⟨n0, hle, hv0, hrej⟩ := least_accepted L _ _ n hv
  have hn0 : (n0 : Int) < 2 ^ 63 := by omega
  have key := ProofOfWork_least L bc last hl n0 hn0 hv0 hrej
  refine ⟨n0, hle, hv0, hrej, fun fuel hf => ?_, fun fuel hf => ?_, ?_⟩
  · rw [key, if_pos hf]
  · rw [key, if_neg (by omega)]
  · intro bc0 now fuel hbc hf
    subst hbc
    have hl0 : bc0.Chain.getLast? = some last := hl
    have hp := key fuel
    rw [if_pos hf] at hp
    exact ⟨_, (Mining_ok_iff L fuel now bc0 _).2 ⟨last, n0, hl0, hp, rfl⟩⟩

set_option maxRecDepth 20000 in
/-- Witness of C18: on the fresh ledger with one pending transaction and the
reward, nonce 3 is accepted; the search returns the least accepted nonce once
it may test that many nonces and one more. -/
theorem ProofOfWork_terminates_witness :
    ∃ n0 : Nat, n0 ≤ 3 ∧
      (∀ fuel : Nat, n0 < fuel →
        ProofOfWork toyLib fuel
          (AddTransaction (AddTransaction (NewBlockChain toyLib 5 "M") "A" "B" (Float32.ofInt 1))
            MINING_SENDER "M" MINING_REWARD) = .ok (n0 : Int)) ∧
      (∀ fuel : Nat, fuel ≤ n0 →
        ProofOfWork toyLib fuel
          (AddTransaction (AddTransaction (NewBlockChain toyLib 5 "M") "A" "B" (Float32.ofInt 1))
            MINING_SENDER "M" MINING_REWARD) = .error .fuelExhausted) :=
  let ⟨n0, h1, _, _, h4, h5, _⟩ := ProofOfWork_terminates toyLib
    (AddTransaction (AddTransaction (NewBlockChain toyLib 5 "M") "A" "B" (Float32.ofInt 1))
      MINING_SENDER "M" MINING_REWARD)
    (NewBlock 5 0 (Block.zero.Hash toyLib) .nil) (by decide) 3 (by decide) (by decide)
  ⟨n0, h1, h4, h5⟩

set_option maxRecDepth 20000 in
/-- C20 fails as stated: on every ledger that `X→a 1`, `a→a 16777216` and one
mining round leave on `NewBlockChain("M")`, the second transaction of the
second block is the transfer from `"a"` to itself, `CalculateTotalAmount("a")`
is 0, and over the chain with that transaction removed it is 1: adding
16777216 to 1 rounds to 16777216. Such a ledger exists and 16777216 is a
float32 number. -/
theorem self_transfer_counterexample :
    (∀ (L : Lib) (now : Int) (fuel : Nat) (now1 : Int) (bc : BlockChain),
      runCalls L (NewBlockChain L now "M") (selfTransferCalls fuel now1) = .ok bc →
      (∃ b, bc.Chain[1]? = some b ∧
        b.Transactions.toList[1]? = some (NewTransaction "a" "a" (Float32.ofInt 16777216))) ∧
      CalculateTotalAmount bc "a" = Float32.ofInt 0 ∧
      CalculateTotalAmount { bc with Chain := eraseSealed bc.Chain 1 1 } "a"
        = Float32.ofInt 1) ∧
    (Float32.ofInt 16777216).wf = true ∧
    runCalls toyLib (NewBlockChain toyLib 5 "M") (selfTransferCalls 9 7)
      = .ok (ledgerAfter toyLib 5 "M" (selfTransferCalls 9 7)) := by
  refine ⟨fun L now fuel now1 bc h => ?_, by decide, by decide⟩
  obtain ⟨n, hc⟩ := selfTransfer_chain L now fuel now1 bc h
  have h1 : sealedTransactions bc
      = [NewTransaction "X" "a" (Float32.ofInt 1),
         NewTransaction "a" "a" (Float32.ofInt 16777216), rewardTransaction "M"] := by
    unfold sealedTransactions; rw [hc]; rfl
  have h2 : sealedTransactions { bc with Chain := eraseSealed bc.Chain 1 1 }
      = [NewTransaction "X" "a" (Float32.ofInt 1), rewardTransaction "M"] := by
    unfold sealedTransactions; simp only [hc]; rfl
  refine ⟨⟨NewBlock now1 n ((NewBlock now 0 (Block.zero.Hash L) .nil).Hash L)
      (.mk [NewTransaction "X" "a" (Float32.ofInt 1),
        NewTransaction "a" "a" (Float32.ofInt 16777216), rewardTransaction "M"]),
    by rw [hc]; rfl, rfl⟩, ?_, ?_⟩
  · rw [CalculateTotalAmount_eq_walk, h1]; decide
  · rw [CalculateTotalAmount_eq_walk, h2]; decide

/-- C20, amended: for every ledger and address `a`, a sealed transaction whose
sender and recipient are both `a` makes the balance walk of `a` add its value
and then subtract the same value (both branches apply); when the sealed
transactions carry integer amounts whose absolute values sum to at most `2^24`
(so that nothing is rounded), it contributes nothing: `CalculateTotalAmount(a)`
over the chain with that transaction removed equals `CalculateTotalAmount(a)`. -/
theorem self_transfer_nets_zero (bc : BlockChain) (a : String) (i j : Nat) (b : Block)
    (t : Transaction) (hb : bc.Chain[i]? = some b) (ht : b.Transactions.toList[j]? = some t)
    (hs : t.SenderBlockChainAddress = a) (hr : t.RecipientBlockChainAddress = a) :
    (∀ total : Float32,
      balanceStep a total t = Float32.sub (Float32.add total t.Value) t.Value) ∧
    (∀ l : List IntTransfer, sealedTransactions bc = l.map IntTransfer.toTransaction →
      volume l ≤ 2 ^ 24 →
      CalculateTotalAmount { bc with Chain := eraseSealed bc.Chain i j } a
        = CalculateTotalAmount bc a) := by
  constructor
  · intro total
    unfold balanceStep
    simp only
    rw [if_pos hr.symm, if_pos hs.symm]
  · intro l hl hv
    obtain ⟨l1, l2, h1, h2⟩ := eraseSealed_split bc.Chain i j b t hb ht
    exact self_transfer_exact bc { bc with Chain := eraseSealed bc.Chain i j } a l l1 l2 t
      hl hv h1 h2 hs hr

set_option maxRecDepth 20000 in
/-- Witness of C20 as amended: after `X→a 1`, `a→a 5` and a mining round the
balance of `"a"` is 1, with and without the transfer to itself. -/
theorem self_transfer_nets_zero_witness :
    CalculateTotalAmount (ledgerAfter toyLib 5 "M" (smallSelfTransferCalls.map IntCall.toCall)) "a"
      = Float32.ofInt 1 ∧
    CalculateTotalAmount
        { ledgerAfter toyLib 5 "M" (smallSelfTransferCalls.map IntCall.toCall) with
          Chain := eraseSealed
            (ledgerAfter toyLib 5 "M" (smallSelfTransferCalls.map IntCall.toCall)).Chain 1 1 } "a"
      = CalculateTotalAmount
          (ledgerAfter toyLib 5 "M" (smallSelfTransferCalls.map IntCall.toCall)) "a" :=
  ⟨by decide,
    (self_transfer_nets_zero
      (ledgerAfter toyLib 5 "M" (smallSelfTransferCalls.map IntCall.toCall)) "a" 1 1
      ((ledgerAfter toyLib 5 "M" (smallSelfTransferCalls.map IntCall.toCall)).Chain.getD 1
        Block.zero)
      (NewTransaction "a" "a" (Float32.ofInt 5)) (by decide) (by decide) rfl rfl).2
      [⟨"X", "a", 1⟩, ⟨"a", "a", 5⟩, rewardTransfer "M"] (by decide) (by decide)⟩

set_option maxRecDepth 20000 in
/-- C14 fails as stated, in three ways. (1) Two blocks that differ only in the
sender of their one transaction, the one-byte strings `\xff` and `\xfe`, and
hold no NaN and no infinity, have the same serialisation and the same `Hash`,
whatever the digest function: `encoding/json` reads either sender as one byte
that begins no encoded code point, and writes the same text for both. (2) For
every digest function there are two blocks without transactions, with
timestamp 0 and nonce 0 or 1, that differ in nonce or previous hash and have
the same `Hash`: there are more such blocks than 32-byte values. (3) Two blocks
that hold a NaN value and differ in nonce only have the same `Hash`, the digest
of the empty byte sequence. -/
theorem digest_sensitivity_counterexample :
    (Raw.senderBlock [255] ≠ Raw.senderBlock [254] ∧
      (Raw.senderBlock [255]).Nonce = (Raw.senderBlock [254]).Nonce ∧
      (Raw.senderBlock [255]).PreviousHash = (Raw.senderBlock [254]).PreviousHash ∧
      (Raw.senderBlock [255]).Timestamp = (Raw.senderBlock [254]).Timestamp ∧
      (Raw.senderBlock [255]).Transactions = .mk [⟨[255], [66], Float32.ofInt 1⟩] ∧
      (Raw.senderBlock [254]).Transactions = .mk [⟨[254], [66], Float32.ofInt 1⟩] ∧
      (Raw.senderBlock [255]).supported = true ∧ (Raw.senderBlock [254]).supported = true ∧
      ∀ L : Raw.Lib,
        (Raw.senderBlock [255]).MarshalJSON L = (Raw.senderBlock [254]).MarshalJSON L ∧
        (Raw.senderBlock [255]).Hash L = (Raw.senderBlock [254]).Hash L) ∧
    (∀ L : Raw.Lib, ∃ b1 b2 : Raw.Block,
      b1.Transactions = .nil ∧ b2.Transactions = .nil ∧ b1.Timestamp = 0 ∧ b2.Timestamp = 0 ∧
      (b1.Nonce = 0 ∨ b1.Nonce = 1) ∧ (b2.Nonce = 0 ∨ b2.Nonce = 1) ∧
      (b1.Nonce ≠ b2.Nonce ∨ b1.PreviousHash ≠ b2.PreviousHash) ∧
      b1.Hash L = b2.Hash L) ∧
    (∀ L : Raw.Lib, (Raw.valueBlock 0 Float32.nan).Nonce ≠ (Raw.valueBlock 1 Float32.nan).Nonce ∧
      (Raw.valueBlock 0 Float32.nan).PreviousHash = (Raw.valueBlock 1 Float32.nan).PreviousHash ∧
      (Raw.valueBlock 0 Float32.nan).Timestamp = (Raw.valueBlock 1 Float32.nan).Timestamp ∧
      (Raw.valueBlock 0 Float32.nan).Transactions = (Raw.valueBlock 1 Float32.nan).Transactions ∧
      (Raw.valueBlock 0 Float32.nan).Hash L = (Raw.valueBlock 1 Float32.nan).Hash L) := by
  refine ⟨⟨by decide, rfl, rfl, rfl, rfl, rfl, by decide, by decide, fun L => ⟨rfl, rfl⟩⟩,
    fun L => ?_, fun L => ?_⟩
  · obtain ⟨p, q, hne, heq⟩ := raw_digest_collision L
    refine ⟨Raw.plainBlock p, Raw.plainBlock q, rfl, rfl, rfl, rfl, ?_, ?_, ?_, heq⟩
    · cases p.1 <;> simp [Raw.plainBlock]
    · cases q.1 <;> simp [Raw.plainBlock]
    · by_contra hc
      push_neg at hc
      apply hne
      obtain ⟨p1, p2⟩ := p
      obtain ⟨q1, q2⟩ := q
      simp only [Raw.plainBlock] at hc
      have e2 : p2 = q2 := hc.2
      have e1 : p1 = q1 := by
        cases p1 <;> cases q1 <;> simp at hc ⊢
      rw [e1, e2]
  · refine ⟨by decide, rfl, rfl, rfl, ?_⟩
    rw [(raw_Hash_unsupported L (Raw.valueBlock 0 Float32.nan) rfl).2,
      (raw_Hash_unsupported L (Raw.valueBlock 1 Float32.nan) rfl).2]

/-- C14, amended. For any two blocks, the addresses being any byte strings:
if their nonce, previous hash, timestamp and transaction slice are equal (the
same transactions by field values in the same order, both slices nil or both
not nil), `Hash` returns the identical 32-byte value. If neither block holds a
NaN or an infinite value, `Hash` of each is the digest of its serialisation,
and the two serialisations differ whenever the blocks differ in nonce, previous
hash or timestamp. Where moreover `encoding/json` writes strings and numbers
as it does (`Raw.Lib.Faithful`) and the values are float32 numbers, the two
serialisations are equal exactly when the blocks are equal as `encoding/json`
reads them; and when all addresses are valid UTF-8, the serialisations differ
whenever the blocks differ at all, be it in nonce, previous hash, timestamp,
or in the sender, the recipient or the value of any transaction. `Hash` then
returns a different value unless the digest function maps these two different
byte sequences to one value. -/
theorem digest_determinism_sensitivity (L : Raw.Lib) (b1 b2 : Raw.Block) :
    (b1.Nonce = b2.Nonce → b1.PreviousHash = b2.PreviousHash → b1.Timestamp = b2.Timestamp →
      b1.Transactions = b2.Transactions → b1.Hash L = b2.Hash L) ∧
    (b1.supported = true → b2.supported = true →
      ∃ m1 m2, b1.MarshalJSON L = some m1 ∧ b2.MarshalJSON L = some m2 ∧
        b1.Hash L = L.sha256 m1 ∧ b2.Hash L = L.sha256 m2 ∧
        ((b1.Nonce ≠ b2.Nonce ∨ b1.PreviousHash ≠ b2.PreviousHash ∨
            b1.Timestamp ≠ b2.Timestamp) → m1 ≠ m2) ∧
        (L.Faithful → b1.wellFormed = true → b2.wellFormed = true →
          (m1 = m2 ↔ b1.read = b2.read) ∧
          (b1.validAddresses = true → b2.validAddresses = true → b1 ≠ b2 → m1 ≠ m2))) := by
  constructor
  · intro h1 h2 h3 h4
    have e : b1 = b2 := by
      cases b1; cases b2
      simp only at h1 h2 h3 h4
      rw [h1, h2, h3, h4]
    rw [e]
  · intro s1 s2
    obtain ⟨m1, h1, g1⟩ := raw_MarshalJSON_some L b1 s1
    obtain ⟨m2, h2, g2⟩ := raw_MarshalJSON_some L b2 s2
    refine ⟨m1, m2, h1, h2, g1, g2, ?_, ?_⟩
    · intro hd heq
      subst heq
      obtain ⟨e1, e2, e3, _⟩ := raw_MarshalJSON_injective L b1 b2 m1 h1 h2
      rcases hd with h | h | h
      · exact h e2
      · exact h e3
      · exact h e1
    · intro hL w1 w2
      refine ⟨⟨fun heq => ?_, fun hr => ?_⟩, fun v1 v2 hne heq => ?_⟩
      · subst heq
        exact raw_serialization_read L hL b1 b2 m1 s1 s2 w1 w2 h1 h2
      · have e := raw_read_serialization L b1 b2 hr
        rw [h1, h2] at e
        exact Option.some.inj e
      · subst heq
        exact hne (raw_read_injective b1 b2 v1 v2
          (raw_serialization_read L hL b1 b2 m1 s1 s2 w1 w2 h1 h2))

set_option maxRecDepth 20000 in
/-- Witness of C14 as amended: two blocks that differ only in the value of
their one transaction, 1 and 2, have different serialisations. -/
theorem digest_determinism_sensitivity_witness :
    (Raw.valueBlock 0 (Float32.ofInt 1)).supported = true ∧
    (Raw.valueBlock 0 (Float32.ofInt 2)).supported = true ∧
    Raw.plainLib.Faithful ∧
    (Raw.valueBlock 0 (Float32.ofInt 1)).wellFormed = true ∧
    (Raw.valueBlock 0 (Float32.ofInt 2)).wellFormed = true ∧
    (Raw.valueBlock 0 (Float32.ofInt 1)).validAddresses = true ∧
    (Raw.valueBlock 0 (Float32.ofInt 2)).validAddresses = true ∧
    Raw.valueBlock 0 (Float32.ofInt 1) ≠ Raw.valueBlock 0 (Float32.ofInt 2) ∧
    ∃ m1 m2, (Raw.valueBlock 0 (Float32.ofInt 1)).MarshalJSON Raw.plainLib = some m1 ∧
      (Raw.valueBlock 0 (Float32.ofInt 2)).MarshalJSON Raw.plainLib = some m2 ∧ m1 ≠ m2 :=
  ⟨by decide, by decide, plainLib_faithful, by decide, by decide, by decide, by decide,
    by decide,
    let ⟨m1, m2, h1, h2, _, _, _, h6⟩ :=
      (digest_determinism_sensitivity Raw.plainLib (Raw.valueBlock 0 (Float32.ofInt 1))
        (Raw.valueBlock 0 (Float32.ofInt 2))).2 (by decide) (by decide)
    ⟨m1, m2, h1, h2,
      (h6 plainLib_faithful (by decide) (by decide)).2 (by decide) (by decide) (by decide)⟩⟩

/-- C15 on the code: for every block that holds no NaN and no infinite value,
the byte sequence `Hash` feeds to the digest function is the canonical
serialisation (timestamp, nonce, previous hash, transactions, in this order;
the transactions in list order, each as sender, recipient, value) and `Hash` is
its digest. For a block that holds a NaN, `json.Marshal` fails, the error is
dropped, and `Hash` feeds the empty byte sequence, which is not the canonical
serialisation. -/
theorem Hash_canonical_serialization :
    (∀ (L : Lib) (b : Block), b.supported = true →
      b.MarshalJSON L = some (canonicalSerialization L b) ∧
      b.hashInput L = canonicalSerialization L b ∧
      b.Hash L = L.sha256 (canonicalSerialization L b)) ∧
    (∀ (L : Lib) (nonce : Int),
      (nanBlock nonce).hashInput L = [] ∧
      canonicalSerialization L (nanBlock nonce) ≠ [] ∧
      (nanBlock nonce).hashInput L ≠ canonicalSerialization L (nanBlock nonce) ∧
      (nanBlock nonce).Hash L = L.sha256 []) := by
  constructor
  · intro L b h
    exact ⟨MarshalJSON_supported L b h, (hashInput_supported L b h).1,
      (hashInput_supported L b h).2⟩
  · intro L nonce
    have hne : canonicalSerialization L (nanBlock nonce) ≠ [] := by
      simp [canonicalSerialization, jsonObject, ascii]
    obtain ⟨h1, h2⟩ := Hash_unsupported L (nanBlock nonce) rfl
    exact ⟨h1, hne, by rw [h1]; exact fun h => hne h.symm, h2⟩

/-- C19 on the code: the serialisation step inside `Hash` returns an error
exactly when some transaction of the block carries a NaN or an infinity, which
are float32 values; `Hash` of such a block is the digest of the empty byte
sequence whatever the block holds, and once `AddTransaction` has put a NaN in
the pool `ValidProof` over the pool snapshot gives the same answer for every
nonce. For every other block
the serialisation returns no error and `Hash` is the digest of the canonical
serialisation. -/
theorem Hash_serialization_error :
    (∀ (L : Lib) (b : Block), b.MarshalJSON L = none ↔
      ∃ t ∈ b.Transactions.toList, t.Value.isNaN = true ∨ t.Value.isInf = true) ∧
    (∀ (L : Lib) (b : Block), b.MarshalJSON L = none →
      b.hashInput L = [] ∧ b.Hash L = L.sha256 []) ∧
    (∀ (L : Lib) (nonce : Int), (nanBlock nonce).MarshalJSON L = none ∧
      (nanBlock nonce).Hash L = L.sha256 []) ∧
    Float32.nan.wf = true ∧
    (∀ (L : Lib) (bc : BlockChain) (n m : Int) (previousHash : Digest) (d : Int),
      ValidProof L n previousHash
          (CopyTransactionPool (AddTransaction bc "A" "B" Float32.nan)) d
        = ValidProof L m previousHash
          (CopyTransactionPool (AddTransaction bc "A" "B" Float32.nan)) d) ∧
    (∀ (L : Lib) (b : Block), b.supported = true →
      b.MarshalJSON L = some (canonicalSerialization L b)) := by
  refine ⟨MarshalJSON_eq_none_iff_exists, fun L b h => ?_, fun L nonce => ?_, rfl,
    fun L bc n m previousHash d => ?_, MarshalJSON_supported⟩
  · exact Hash_unsupported L b ((MarshalJSON_eq_none_iff L b).1 h)
  · exact ⟨(MarshalJSON_eq_none_iff L (nanBlock nonce)).2 rfl,
      (Hash_unsupported L (nanBlock nonce) rfl).2⟩
  · apply ValidProof_unsupported L n m previousHash _ d
    rw [CopyTransactionPool_eq]
    simp [AddTransaction, Slice.append, Slice.toList, NewTransaction, jsonUnsupported,
      Float32.isNaN]

end Blockchain
